import Mathlib

/-!
# PageRank computers: sequential and partitioned parallel

A shallow embedding of `src/singleThreadedPageRankComputer.hpp` and
`src/multiThreadedPageRankComputer.hpp`.

* `double` values are exact rationals (`ℚ`).
* `std::unordered_map` is a finite key list (in insertion order) together with a
  value function, value-initialised at the keys that were never written.
* `uint32_t` quantities are natural numbers reduced modulo `2^32` where the source
  narrows or wraps.
* The parallel computer is modelled phase by phase: every phase of `thread_func`
  is separated from the next one by a crossing of the barrier, and the barrier
  is modelled on its own as a transition system over arbitrary interleavings.
-/

namespace PageRankComputer

/-! ## Data model -/

/-- Modelled from the spec: `PageId` (immutable/pageId.hpp) is an opaque, hashable,
equality-comparable identifier; natural numbers stand for it. -/
abbrev PageId := Nat

/-- Modelled from the spec: `PageRank` (immutable/pageIdAndRank.hpp) is a `double`,
taken here in exact arithmetic. -/
abbrev PageRank := ℚ

/-- Modelled from the spec: a `Page` (immutable/page.hpp) has a content, from which its
identifier is generated, and the list of identifiers it links to. -/
structure Page where
  content : String
  links : List PageId
deriving DecidableEq

/-- Modelled from the spec: a `Network` (immutable/network.hpp) is an ordered sequence of
pages with the identifier generator that `generateId` applies to a page content. -/
structure Network where
  pages : List Page
  generator : String → PageId

/-- Modelled from the spec: `Network::getSize` is the number of pages of the network. -/
def Network.getSize (network : Network) : Nat := network.pages.length

/-- The identifier `pages[i].getId()` after `pages[i].generateId(network.getGenerator())`. -/
def Network.getId (network : Network) (page : Page) : PageId :=
  network.generator page.content

/-- An entry `PageIdAndRank(id, rank)` of a result vector. -/
abbrev PageIdAndRank := PageId × PageRank

/-- The two ways `ASSERT` aborts a computation. -/
inductive Failure where
  | invalidResultSize
  | notConverged
deriving DecidableEq

/-! ## `std::unordered_map` -/

/-- A `std::unordered_map<PageId, V>`: its keys, and the value read at a key (the
value-initialised `default` at a key that was never written). -/
structure HashMap (V : Type) where
  keys : List PageId
  val : PageId → V

namespace HashMap

variable {V : Type}

/-- The empty map. -/
def empty [Inhabited V] : HashMap V := ⟨[], fun _ => default⟩

/-- `m.count(k)`. -/
def count (m : HashMap V) (k : PageId) : Nat := if k ∈ m.keys then 1 else 0

/-- The value read by `m[k]` or `m.at(k)`. The computers read only keys that are present
(`Keyed`, `EdgesBuilt.source_of_mem`), so that no read through `operator[]` inserts an
entry. -/
def get (m : HashMap V) (k : PageId) : V := m.val k

/-- `m[k] = v`: overwrite the entry of `k`, inserting the key when it is absent. -/
def set (m : HashMap V) (k : PageId) (v : V) : HashMap V :=
  ⟨if k ∈ m.keys then m.keys else m.keys ++ [k], Function.update m.val k v⟩

/-- `m.size()`. -/
def size (m : HashMap V) : Nat := m.keys.length

/-- The entries met by `for (const auto& entry : m)`. -/
def entries (m : HashMap V) : List (PageId × V) := m.keys.map (fun k => (k, m.val k))

end HashMap

/-! ## The code shared by both computers -/

/-- The four maps both computers build before iterating. -/
structure Maps where
  prev : HashMap PageRank
  curr : HashMap PageRank
  numLinks : HashMap Nat
  edges : HashMap (List PageId)

/-- The maps before the build loop. -/
def Maps.empty : Maps := ⟨HashMap.empty, HashMap.empty, HashMap.empty, HashMap.empty⟩

/-- `for (auto link : links) edges[link].push_back(page_id);` -/
def addEdges (edges : HashMap (List PageId)) (page_id : PageId) (links : List PageId) :
    HashMap (List PageId) :=
  links.foldl (fun e link => e.set link (e.get link ++ [page_id])) edges

/-- The body of the build loop for one page; `deg` is the value stored in `numLinks`. -/
def initPage (size : Nat) (page_id : PageId) (deg : Nat) (links : List PageId) (m : Maps) : Maps :=
  { prev := m.prev.set page_id (1 / (size : ℚ))
    curr := m.curr.set page_id (1 / (size : ℚ))
    numLinks := m.numLinks.set page_id deg
    edges := addEdges m.edges page_id links }

/-- The loop that adds `prev[page.getId()]` for every page without links. -/
def dangleSumOver (network : Network) (prev : HashMap PageRank) (ps : List Page) : ℚ :=
  ps.foldl (fun s page => if page.links.isEmpty then s + prev.get (network.getId page) else s) 0

/-- The value `m_sum` computed for the page `page_id`; `dangleSum` is already
multiplied by `alpha`. -/
def pageSum (network : Network) (alpha : ℚ) (m : Maps) (dangleSum : ℚ) (page_id : PageId) : ℚ :=
  let danglingWeight : ℚ := 1 / (network.getSize : ℚ)
  let m_sum : ℚ := dangleSum * danglingWeight + (1 - alpha) / (network.getSize : ℚ)
  if m.edges.count page_id > 0 then
    (m.edges.get page_id).foldl
      (fun s link => s + alpha * m.prev.get link / (m.numLinks.get link : ℚ)) m_sum
  else m_sum

/-- The update loop over the pages `ps`: returns the accumulated difference and the
new `curr` map. -/
def updateOver (network : Network) (alpha : ℚ) (m : Maps) (dangleSum : ℚ) (ps : List Page)
    (curr : HashMap PageRank) : ℚ × HashMap PageRank :=
  ps.foldl
    (fun acc page =>
      let page_id := network.getId page
      let m_sum := pageSum network alpha m dangleSum page_id
      (acc.1 + |m_sum - m.prev.get page_id|, acc.2.set page_id m_sum))
    (0, curr)

/-- The loop `prev[page_id] = curr[page_id]` over the pages `ps`. -/
def copyOver (network : Network) (curr : HashMap PageRank) (ps : List Page)
    (prev : HashMap PageRank) : HashMap PageRank :=
  ps.foldl (fun pr page => pr.set (network.getId page) (curr.get (network.getId page))) prev

/-- The result vector read off a rank map, followed by the size assertion. -/
def collect (network : Network) (ranks : HashMap PageRank) : Except Failure (List PageIdAndRank) :=
  let result := ranks.entries
  if result.length = network.getSize then .ok result else .error .invalidResultSize

/-- The build loop of either computer over the pages `order`, `deg page` being the value
stored in `numLinks` for `page`. -/
def buildWith (network : Network) (deg : Page → Nat) (order : List Page) (m : Maps) : Maps :=
  order.foldl
    (fun m page => initPage network.pages.length (network.getId page) (deg page) page.links m) m

/-- The identifiers of the pages of the network, in page order. -/
def Network.ids (network : Network) : List PageId := network.pages.map network.getId

/-- The sum of `previous` over the pages without links. -/
def danglingMass (network : Network) (prev : HashMap PageRank) (ps : List Page) : ℚ :=
  ((ps.filter (fun d => d.links.isEmpty)).map (fun d => prev.get (network.getId d))).sum

/-- The sum the update loop adds up for `p`: over the pages `q` and once per link of
`q` to `p`, `previous[q] / numLinks[q]`, where `numLinks[q]` is the entry of the map
`numLinks` under the identifier of `q`, as the build loop recorded it. -/
def incoming (network : Network) (m : Maps) (p : PageId) : ℚ :=
  (network.pages.map (fun q =>
    (q.links.count p : ℚ) * (m.prev.get (network.getId q) / (m.numLinks.get (network.getId q) : ℚ)))).sum

/-- The maps `m` hold the reversed edges that the build loop over `order` records. -/
def EdgesBuilt (network : Network) (order : List Page) (m : Maps) : Prop :=
  (∀ p, m.edges.get p =
    (order.map (fun q => List.replicate (q.links.count p) (network.getId q))).flatten) ∧
  (∀ p, p ∈ m.edges.keys ↔ ∃ q ∈ order, p ∈ q.links)

/-- The rank the update gives to the page `p` in a round that starts from the maps `m`:
`alpha * D / n + (1 - alpha) / n + alpha * (incoming contributions)`. -/
def roundRank (network : Network) (alpha : ℚ) (m : Maps) (p : PageId) : ℚ :=
  alpha * danglingMass network m.prev network.pages / (network.getSize : ℚ) +
    (1 - alpha) / (network.getSize : ℚ) + alpha * incoming network m p

/-- Every page identifier is a key of `prev` and of `curr`. -/
def Keyed (network : Network) (m : Maps) : Prop :=
  (∀ p ∈ network.pages, network.getId p ∈ m.prev.keys) ∧
  (∀ p ∈ network.pages, network.getId p ∈ m.curr.keys)

/-! ## `SingleThreadedPageRankComputer` -/

namespace SingleThreaded

/-- The build loop (lines 29-37); `numLinks` is a map to `uint32_t`. -/
def build (network : Network) : Maps :=
  network.pages.foldl
    (fun m page =>
      initPage network.getSize (network.getId page) (page.links.length % 2 ^ 32) page.links m)
    Maps.empty

/-- The value of `dangleSum` after `dangleSum *= alpha`. -/
def dangleSum (network : Network) (alpha : ℚ) (m : Maps) : ℚ :=
  dangleSumOver network m.prev network.pages * alpha

/-- The update loop of one iteration (lines 47-61). -/
def update (network : Network) (alpha : ℚ) (m : Maps) : ℚ × HashMap PageRank :=
  updateOver network alpha m (dangleSum network alpha m) network.pages m.curr

/-- The maps at the start of the next iteration when the current one has not converged. -/
def advance (network : Network) (alpha : ℚ) (m : Maps) : Maps :=
  let curr := (update network alpha m).2
  { m with curr := curr, prev := copyOver network curr network.pages m.prev }

/-- The iteration loop (lines 39-78), with `iterations` rounds left. -/
def iterate (network : Network) (alpha tolerance : ℚ) : Nat → Maps →
    Except Failure (List PageIdAndRank)
  | 0, _ => .error .notConverged
  | k + 1, m =>
    if (update network alpha m).1 < tolerance then collect network m.prev
    else iterate network alpha tolerance k (advance network alpha m)

/-- `SingleThreadedPageRankComputer::computeForNetwork`. -/
def computeForNetwork (network : Network) (alpha : ℚ) (iterations : Nat) (tolerance : ℚ) :
    Except Failure (List PageIdAndRank) :=
  iterate network alpha tolerance iterations (build network)

/-- The maps after `i` rounds without convergence, starting from the maps `m`. -/
def roundsFrom (network : Network) (alpha : ℚ) (m : Maps) : Nat → Maps
  | 0 => m
  | i + 1 => advance network alpha (roundsFrom network alpha m i)

/-- The maps at the start of round `i`, when no earlier round has converged. -/
def mapsAt (network : Network) (alpha : ℚ) (i : Nat) : Maps :=
  roundsFrom network alpha (build network) i

/-- The residual `difference` of round `i`. -/
def residual (network : Network) (alpha : ℚ) (i : Nat) : ℚ :=
  (update network alpha (mapsAt network alpha i)).1

end SingleThreaded

/-! ## Example networks -/

/-- Two pages: the first links to the second, the second has no links. -/
def twoPages : Network :=
  { pages := [⟨"", [1]⟩, ⟨"a", []⟩], generator := String.length }

/-- Two pages with the same content, hence the same identifier, and no links. -/
def twins : Network :=
  { pages := [⟨"", []⟩, ⟨"", []⟩], generator := String.length }

/-- Three pages, the first two with the same content: the first links to the third, the
second and the third have no links. -/
def sameContent : Network :=
  { pages := [⟨"", [1]⟩, ⟨"", []⟩, ⟨"a", []⟩], generator := String.length }

/-- Two pages: the first has the links `links`, the second links to the first. -/
def linkedPair (links : List PageId) : Network :=
  { pages := [⟨"", links⟩, ⟨"a", [0]⟩], generator := String.length }

/-- Two pages: the first has `2 ^ 32` links to the second, the second links to the first. -/
def manyLinks : Network := linkedPair (List.replicate (2 ^ 32) 1)

/-- Two pages: the first has `2 ^ 32 + 1` links to the second, the second links to the
first. -/
def wrappedLinks : Network := linkedPair (List.replicate (2 ^ 32 + 1) 1)

/-! ## `MultiThreadedPageRankComputer::Barrier` -/

/-- The fields of `Barrier` that the lock protects. -/
structure Barrier where
  num_threads : Nat
  counter : Nat
  generation : Bool
  result_double : ℚ
  count_double : ℚ

namespace Barrier

/-- The constructor `Barrier(num_threads)`. -/
def new (num_threads : Nat) : Barrier :=
  { num_threads := num_threads, counter := num_threads, generation := false,
    result_double := 0, count_double := 0 }

/-- `Barrier::notify_all`; the waiters it wakes return through `System.step`. -/
def notify_all (b : Barrier) : Barrier :=
  { b with
    result_double := b.count_double
    count_double := 0
    generation := !b.generation
    counter := b.num_threads }

/-- `counter--` on a `uint32_t`. -/
def decrement (counter : Nat) : Nat := (counter + 2 ^ 32 - 1) % 2 ^ 32

end Barrier

/-- A call a worker makes on the barrier: `wait()` or `wait_and_sum(diff)`. -/
inductive Call where
  | wait
  | wait_and_sum (diff : ℚ)

/-- The value a call adds to `count_double`. -/
def Call.diff : Call → ℚ
  | Call.wait => 0
  | Call.wait_and_sum diff => diff

/-- Whether the call returns `result_double`. -/
def Call.summing : Call → Bool
  | Call.wait => false
  | Call.wait_and_sum _ => true

/-- Where a worker stands with respect to the barrier: outside a call, or blocked in
`cv.wait` of a call entered when `generation` was `my_gen`. -/
inductive Status where
  | running
  | waiting (my_gen : Bool)
deriving DecidableEq

/-- A worker: its status and what its completed calls have returned, oldest first
(`none` for a `wait`, the returned sum for a `wait_and_sum`). -/
structure Worker where
  status : Status
  returned : List (Option ℚ)

/-- The barrier together with the workers that use it; worker `i` makes the calls
`next i 0`, `next i 1`, ... one after the other. -/
structure System where
  barrier : Barrier
  workers : Nat → Worker

namespace System

/-- The state after `Barrier barrier(N)`, no worker having called yet. -/
def init (N : Nat) : System :=
  { barrier := Barrier.new N, workers := fun _ => ⟨Status.running, []⟩ }

/-- What a call hands back to its caller when `result_double` is `result`. -/
def handBack (call : Call) (result : ℚ) : Option ℚ :=
  if call.summing then some result else none

/-- The locked section of `wait` / `wait_and_sum` entered by worker `i` with the call
`call`: up to the return of the last arrival, or up to the point where the caller
blocks in `cv.wait`. -/
def arrive (s : System) (i : Nat) (call : Call) : System :=
  let my_gen := s.barrier.generation
  let b1 : Barrier := { s.barrier with count_double := s.barrier.count_double + call.diff }
  let b2 : Barrier := { b1 with counter := Barrier.decrement b1.counter }
  if b2.counter = 0 then
    let b3 := b2.notify_all
    { barrier := b3
      workers := Function.update s.workers i
        { status := Status.running
          returned := (s.workers i).returned ++ [handBack call b3.result_double] } }
  else
    { barrier := b2
      workers := Function.update s.workers i
        { status := Status.waiting my_gen, returned := (s.workers i).returned } }

/-- Whether worker `i` can take a step: it is outside a call, or it is blocked and the
predicate `my_gen != generation` of its `cv.wait` holds. -/
def enabled (s : System) (i : Nat) : Bool :=
  match (s.workers i).status with
  | Status.running => true
  | Status.waiting my_gen => my_gen != s.barrier.generation

/-- One step of worker `i`, one of the workers `0, ..., num_threads - 1`: a running
worker enters its next call and runs its locked section; a blocked worker whose
predicate holds leaves `cv.wait` and returns; a blocked worker whose predicate fails
stays blocked. -/
def step (next : Nat → Nat → Call) (s : System) (i : Nat) : System :=
  if i < s.barrier.num_threads then
    match (s.workers i).status with
    | Status.running => arrive s i (next i (s.workers i).returned.length)
    | Status.waiting my_gen =>
      if my_gen != s.barrier.generation then
        { s with
          workers := Function.update s.workers i
            { status := Status.running
              returned := (s.workers i).returned ++
                [handBack (next i (s.workers i).returned.length) s.barrier.result_double] } }
      else s
  else s

/-- The state reached from `s` when the workers listed in `schedule` step in that order. -/
def run (next : Nat → Nat → Call) (s : System) (schedule : List Nat) : System :=
  schedule.foldl (step next) s

/-- The sum of the values the `N` workers contribute with their call number `r`. -/
def roundSum (next : Nat → Nat → Call) (N r : Nat) : ℚ :=
  ∑ j in Finset.range N, (next j r).diff

/-- The workers blocked in a call of the round in progress. -/
def current (s : System) (N : Nat) : Finset Nat :=
  (Finset.range N).filter (fun j => (s.workers j).status = Status.waiting s.barrier.generation)

/-- The invariant of the barrier with `N` workers, `R` rounds having been completed. -/
structure Inv (next : Nat → Nat → Call) (N : Nat) (s : System) (R : Nat) : Prop where
  num : s.barrier.num_threads = N
  gen : s.barrier.generation = decide (R % 2 = 1)
  cnt : s.barrier.counter + (s.current N).card = N
  pos : 1 ≤ s.barrier.counter
  acc : s.barrier.count_double = ∑ j in s.current N, (next j R).diff
  res : 1 ≤ R → s.barrier.result_double = roundSum next N (R - 1)
  run : ∀ i, i < N → (s.workers i).status = Status.running →
    (s.workers i).returned.length = R
  now : ∀ i, i < N → (s.workers i).status = Status.waiting s.barrier.generation →
    (s.workers i).returned.length = R
  old : ∀ i, i < N → (s.workers i).status = Status.waiting (!s.barrier.generation) →
    (s.workers i).returned.length + 1 = R
  hist : ∀ i, i < N → ∀ r, r < (s.workers i).returned.length →
    (s.workers i).returned[r]? = some (handBack (next i r) (roundSum next N r))

end System

/-- The number of steps worker `w` has taken: two for each completed call, one more
when it is blocked inside a call. -/
def Worker.steps (w : Worker) : Nat :=
  2 * w.returned.length + if w.status = Status.running then 0 else 1

/-- A lower bound on the number of steps the `N` workers have taken. -/
def System.progress (s : System) (N : Nat) : Nat :=
  ∑ i in Finset.range N, (s.workers i).steps

/-! ## `MultiThreadedPageRankComputer` -/

namespace MultiThreaded

/-- The loop that spawns the threads (lines 154-162): the `(start, end)` arguments of
the threads `i`, `i + 1`, ... when `k` threads are left to spawn and `index` is the
current value of the loop variable `index`. -/
def threadRangesFrom (num_pages numThreads : Nat) : Nat → Nat → Nat → List (Nat × Nat)
  | 0, _, _ => []
  | k + 1, i, index =>
    let delta_i := if num_pages % numThreads > i then 1 else 0
    (index, index + num_pages / numThreads + delta_i) ::
      threadRangesFrom num_pages numThreads k (i + 1) (index + num_pages / numThreads + delta_i)

/-- The `(start, end)` arguments of all the threads, in spawning order. -/
def threadRanges (num_pages numThreads : Nat) : List (Nat × Nat) :=
  threadRangesFrom num_pages numThreads numThreads 0 0

/-- The pages `pages[start], ..., pages[end - 1]` a worker loops over. -/
def slice (pages : List Page) (r : Nat × Nat) : List Page :=
  (pages.drop r.1).take (r.2 - r.1)

/-- The value of `index` when thread `i` is spawned. -/
def rangeStart (num_pages numThreads i : Nat) : Nat :=
  i * (num_pages / numThreads) + min i (num_pages % numThreads)

/-- The build phase (lines 103-112). Each loop body runs under `map_mutex`, so the
bodies of all the workers run one at a time; `schedule` lists the pages in the order
in which their bodies run. `num_links` is a map to `size_t`. -/
def build (network : Network) (schedule : List Page) : Maps :=
  schedule.foldl
    (fun m page =>
      initPage network.pages.length (network.getId page) page.links.length page.links m)
    Maps.empty

/-- The value `wait_and_sum` returns to every worker when the workers contribute the
values `diffs`: `count_double` after `count_double += diff` for each of them. -/
def barrierSum (diffs : List ℚ) : ℚ :=
  diffs.foldl (fun count_double diff => count_double + diff) 0

/-- The value `m_dangling_addition` of the worker with range `r` (lines 117-122). -/
def danglingAddition (network : Network) (m : Maps) (r : Nat × Nat) : ℚ :=
  dangleSumOver network m.prev (slice network.pages r)

/-- The value of `dangling_sum` after `dangling_sum *= alpha`, the same for every worker. -/
def danglingSum (network : Network) (alpha : ℚ) (ranges : List (Nat × Nat)) (m : Maps) : ℚ :=
  barrierSum (ranges.map (danglingAddition network m)) * alpha

/-- The update loops of all the workers (lines 127-138): the values `m_difference_sum`
of the workers, and `curr_p_ranks` once every worker has reached the barrier. -/
def updateAll (network : Network) (alpha : ℚ) (ranges : List (Nat × Nat)) (m : Maps) :
    List ℚ × HashMap PageRank :=
  ranges.foldl
    (fun acc r =>
      let u := updateOver network alpha m (danglingSum network alpha ranges m)
        (slice network.pages r) acc.2
      (acc.1 ++ [u.1], u.2))
    ([], m.curr)

/-- The value `total` of a round, the same for every worker. -/
def total (network : Network) (alpha : ℚ) (ranges : List (Nat × Nat)) (m : Maps) : ℚ :=
  barrierSum (updateAll network alpha ranges m).1

/-- The copy loops of all the workers (lines 145-148). -/
def copyAll (network : Network) (curr : HashMap PageRank) (ranges : List (Nat × Nat))
    (prev : HashMap PageRank) : HashMap PageRank :=
  ranges.foldl (fun pr r => copyOver network curr (slice network.pages r) pr) prev

/-- The maps at the start of the next round when the current one has not converged. -/
def advance (network : Network) (alpha : ℚ) (ranges : List (Nat × Nat)) (m : Maps) : Maps :=
  let curr := (updateAll network alpha ranges m).2
  { m with curr := curr, prev := copyAll network curr ranges m.prev }

/-- The iteration loop of the workers (lines 116-151) with `iterations` rounds left:
the maps and the flag `success` when the workers leave the loop. -/
def iterate (network : Network) (alpha tolerance : ℚ) (ranges : List (Nat × Nat)) :
    Nat → Maps → Bool → Maps × Bool
  | 0, m, success => (m, success)
  | k + 1, m, success =>
    if total network alpha ranges m < tolerance then
      ({ m with curr := (updateAll network alpha ranges m).2 }, true)
    else iterate network alpha tolerance ranges k (advance network alpha ranges m) success

/-- `MultiThreadedPageRankComputer::computeForNetwork` for a computer constructed with
`numThreads`. The local `bool success` is declared without an initialiser: `success0`
is the value it holds when nothing has been assigned to it. Without threads nothing
touches the maps or the flag. -/
def computeForNetwork (numThreads : Nat) (success0 : Bool) (schedule : List Page)
    (network : Network) (alpha : ℚ) (iterations : Nat) (tolerance : ℚ) :
    Except Failure (List PageIdAndRank) :=
  let num_pages := network.pages.length
  let final : Maps × Bool :=
    if numThreads = 0 then (Maps.empty, success0)
    else iterate network alpha tolerance (threadRanges num_pages numThreads) iterations
      (build network schedule) success0
  if final.2 then collect network final.1.curr else .error .notConverged

/-- The maps at the start of round `i`, when no earlier round has converged. -/
def mapsAt (network : Network) (alpha : ℚ) (ranges : List (Nat × Nat)) (schedule : List Page) :
    Nat → Maps
  | 0 => build network schedule
  | i + 1 => advance network alpha ranges (mapsAt network alpha ranges schedule i)

/-- The residual `total` of round `i`. -/
def residual (network : Network) (alpha : ℚ) (ranges : List (Nat × Nat)) (schedule : List Page)
    (i : Nat) : ℚ :=
  total network alpha ranges (mapsAt network alpha ranges schedule i)

end MultiThreaded


/-- The locked section of `wait` / `wait_and_sum`, as it acts on the fields of the
barrier: the contribution is added, the counter is decremented, and the arrival that
brings the counter to zero runs `notify_all`. -/
def Barrier.arrive (b : Barrier) (call : Call) : Barrier :=
  let b1 : Barrier := { b with count_double := b.count_double + call.diff }
  let b2 : Barrier := { b1 with counter := Barrier.decrement b1.counter }
  if b2.counter = 0 then b2.notify_all else b2

/-- The barrier after the arrivals `calls`, in that order. -/
def Barrier.arrivals (b : Barrier) (calls : List Call) : Barrier :=
  calls.foldl Barrier.arrive b

/-- The sum of the values the calls `calls` contribute. -/
def contributed (calls : List Call) : ℚ := (calls.map Call.diff).sum

/-- The state of the barrier after `N * q + r` arrivals, `r < N`: `q` rounds have been
completed and `r` workers have arrived in the round in progress. -/
structure Barrier.After (N : Nat) (calls : List Call) (b : Barrier) (q r : Nat) : Prop where
  len : calls.length = N * q + r
  lt : r < N
  num : b.num_threads = N
  cnt : b.counter = N - r
  acc : b.count_double = contributed (calls.drop (N * q))
  gen : b.generation = decide (q % 2 = 1)
  res : 1 ≤ q → b.result_double = contributed ((calls.drop (N * (q - 1))).take N)

/-- What `thread_func` has done when it leaves the iteration loop: the barrier calls it
has made in the loop, the number of rounds it has run, and whether it has assigned
`success = true`. -/
structure MultiThreaded.Thread where
  calls : List Call
  rounds : Nat
  succeeded : Bool

/-- The iteration loop of `thread_func(start, end)` (lines 116-151) for the range `r`,
with `k` rounds left and `i` rounds run: `maps i` are the shared maps as the worker
finds them in round `i`, and `returned i` are the two values `wait_and_sum` returns to
it in round `i`. -/
def MultiThreaded.threadLoop (network : Network) (alpha tolerance : ℚ) (r : Nat × Nat)
    (maps : Nat → Maps) (returned : Nat → ℚ × ℚ) : Nat → Nat → MultiThreaded.Thread
  | 0, i => { calls := [], rounds := i, succeeded := false }
  | k + 1, i =>
    let m_dangling_addition :=
      dangleSumOver network (maps i).prev (MultiThreaded.slice network.pages r)
    let dangling_sum := (returned i).1 * alpha
    let m_difference_sum :=
      (updateOver network alpha (maps i) dangling_sum (MultiThreaded.slice network.pages r)
        (maps i).curr).1
    let total := (returned i).2
    if total < tolerance then
      { calls := [Call.wait_and_sum m_dangling_addition, Call.wait_and_sum m_difference_sum]
        rounds := i + 1
        succeeded := true }
    else
      let rest := MultiThreaded.threadLoop network alpha tolerance r maps returned k (i + 1)
      { rest with
        calls := Call.wait_and_sum m_dangling_addition :: Call.wait_and_sum m_difference_sum ::
          Call.wait :: rest.calls }

/-- All the barrier calls of `thread_func(start, end)` (lines 95-152): one `wait` after
the identifiers are generated, one after the build loop, then the iteration loop. -/
def MultiThreaded.threadFunc (network : Network) (alpha : ℚ) (iterations : Nat) (tolerance : ℚ)
    (r : Nat × Nat) (maps : Nat → Maps) (returned : Nat → ℚ × ℚ) : MultiThreaded.Thread :=
  let loop := MultiThreaded.threadLoop network alpha tolerance r maps returned iterations 0
  { loop with calls := Call.wait :: Call.wait :: loop.calls }

/-- The kinds of barrier calls a worker is to make, from the values `total` alone:
`true` for `wait_and_sum`, `false` for `wait`; per round two `wait_and_sum` and, when
`total` is not below `tolerance`, one `wait`. -/
def MultiThreaded.loopKinds (tolerance : ℚ) (totals : Nat → ℚ) : Nat → Nat → List Bool
  | 0, _ => []
  | k + 1, i =>
    true :: true ::
      (if totals i < tolerance then []
       else false :: MultiThreaded.loopKinds tolerance totals k (i + 1))

/-- The number of rounds a worker is to run, from the values `total` alone. -/
def MultiThreaded.loopRounds (tolerance : ℚ) (totals : Nat → ℚ) : Nat → Nat → Nat
  | 0, i => i
  | k + 1, i =>
    if totals i < tolerance then i + 1
    else MultiThreaded.loopRounds tolerance totals k (i + 1)

/-- Three pages, the first two with the same content, hence the same identifier 0: the
first has one link to the third page, the second has two links to it, and the third
links to the identifier 0. -/
def sharedId : Network :=
  { pages := [⟨"", [1]⟩, ⟨"", [1, 1]⟩, ⟨"a", [0]⟩], generator := String.length }

/-- The sum in the specification of the update: over every page `q` with a link to `p`,
once per link, `previous[q] / outDegree[q]`, the out-degree of `q` being the number of its
links. -/
def specIncoming (network : Network) (previous : HashMap PageRank) (p : PageId) : ℚ :=
  (network.pages.map (fun q =>
    (q.links.count p : ℚ) * (previous.get (network.getId q) / (q.links.length : ℚ)))).sum

/-- The rank the specification gives to `p` in a round that starts from the ranks
`previous`: `alpha * D / n + (1 - alpha) / n + alpha * (sum of previous[q] / outDegree[q])`,
`D` being the sum of `previous` over the pages without links. -/
def specRank (network : Network) (alpha : ℚ) (previous : HashMap PageRank) (p : PageId) : ℚ :=
  alpha * danglingMass network previous network.pages / (network.getSize : ℚ) +
    (1 - alpha) / (network.getSize : ℚ) + alpha * specIncoming network previous p

/-! # Theorems -/

/-! ## Maps -/

namespace HashMap

variable {V : Type}

@[simp] theorem get_set (m : HashMap V) (k k' : PageId) (v : V) :
    (m.set k v).get k' = if k' = k then v else m.get k' := by
  simp [get, set, Function.update_apply]

theorem mem_keys_set (m : HashMap V) (k k' : PageId) (v : V) :
    k' ∈ (m.set k v).keys ↔ k' = k ∨ k' ∈ m.keys := by
  unfold set
  by_cases h : k ∈ m.keys
  · simp only [h, if_true]
    constructor
    · intro h'; exact Or.inr h'
    · rintro (rfl | h')
      · exact h
      · exact h'
  · simp only [h, if_false, List.mem_append, List.mem_singleton]
    tauto

theorem keys_set_of_mem (m : HashMap V) (k : PageId) (v : V) (h : k ∈ m.keys) :
    (m.set k v).keys = m.keys := by
  simp [set, h]

theorem keys_set_of_not_mem (m : HashMap V) (k : PageId) (v : V) (h : k ∉ m.keys) :
    (m.set k v).keys = m.keys ++ [k] := by
  simp [set, h]

theorem nodup_keys_set (m : HashMap V) (k : PageId) (v : V) (h : m.keys.Nodup) :
    (m.set k v).keys.Nodup := by
  by_cases hk : k ∈ m.keys
  · rw [keys_set_of_mem m k v hk]; exact h
  · rw [keys_set_of_not_mem m k v hk]
    exact List.Nodup.append h (List.nodup_singleton k) (by simpa using hk)

theorem count_pos_iff (m : HashMap V) (k : PageId) : m.count k > 0 ↔ k ∈ m.keys := by
  unfold count
  split_ifs with h <;> simp [h]

end HashMap

/-! ## Sums computed by loops -/

theorem foldl_add_eq_sum {α : Type} (f : α → ℚ) (l : List α) (a : ℚ) :
    l.foldl (fun s x => s + f x) a = a + (l.map f).sum := by
  induction l generalizing a with
  | nil => simp
  | cons x l ih => simp [ih, add_assoc]

theorem dangleSumOver_eq (network : Network) (prev : HashMap PageRank) (ps : List Page) :
    dangleSumOver network prev ps = danglingMass network prev ps := by
  unfold dangleSumOver danglingMass
  suffices h : ∀ a : ℚ, ps.foldl (fun s page =>
      if page.links.isEmpty then s + prev.get (network.getId page) else s) a =
      a + ((ps.filter (fun d => d.links.isEmpty)).map (fun d => prev.get (network.getId d))).sum by
    simpa using h 0
  induction ps with
  | nil => simp
  | cons p ps ih =>
    intro a
    rw [List.foldl_cons, ih]
    by_cases hp : p.links.isEmpty = true
    · simp only [List.filter_cons, hp, if_true, List.map_cons, List.sum_cons]
      ring
    · simp only [List.filter_cons, hp, if_false]
      rfl

theorem danglingMass_append (network : Network) (prev : HashMap PageRank) (ps qs : List Page) :
    danglingMass network prev (ps ++ qs) =
      danglingMass network prev ps + danglingMass network prev qs := by
  simp [danglingMass]

/-! ## The build loop -/

theorem addEdges_get (page_id : PageId) (links : List PageId) (p : PageId) :
    ∀ edges : HashMap (List PageId),
    (addEdges edges page_id links).get p = edges.get p ++ List.replicate (links.count p) page_id := by
  induction links with
  | nil => intro edges; simp [addEdges]
  | cons l links ih =>
    intro edges
    have h := ih (edges.set l (edges.get l ++ [page_id]))
    simp only [addEdges, List.foldl_cons] at h ⊢
    rw [h, HashMap.get_set]
    by_cases hp : p = l
    · subst hp
      simp [List.replicate_succ, List.append_assoc]
    · have hp' : ¬ l = p := fun e => hp e.symm
      simp [hp, List.count_cons, hp']

theorem addEdges_mem_keys (page_id : PageId) (links : List PageId) (p : PageId) :
    ∀ edges : HashMap (List PageId),
    p ∈ (addEdges edges page_id links).keys ↔ p ∈ edges.keys ∨ p ∈ links := by
  induction links with
  | nil => intro edges; simp [addEdges]
  | cons l links ih =>
    intro edges
    have h := ih (edges.set l (edges.get l ++ [page_id]))
    simp only [addEdges, List.foldl_cons] at h ⊢
    rw [h, HashMap.mem_keys_set]
    simp only [List.mem_cons]
    tauto


theorem buildWith_cons (network : Network) (deg : Page → Nat) (q : Page) (order : List Page)
    (m : Maps) :
    buildWith network deg (q :: order) m =
      buildWith network deg order
        (initPage network.pages.length (network.getId q) (deg q) q.links m) := rfl

theorem buildWith_edges_get (network : Network) (deg : Page → Nat) (p : PageId)
    (order : List Page) : ∀ m : Maps,
    (buildWith network deg order m).edges.get p =
      m.edges.get p ++
        (order.map (fun q => List.replicate (q.links.count p) (network.getId q))).flatten := by
  induction order with
  | nil => intro m; simp [buildWith]
  | cons q order ih =>
    intro m
    rw [buildWith_cons, ih]
    simp [initPage, addEdges_get, List.append_assoc]

theorem buildWith_edges_mem_keys (network : Network) (deg : Page → Nat) (p : PageId)
    (order : List Page) : ∀ m : Maps,
    p ∈ (buildWith network deg order m).edges.keys ↔
      p ∈ m.edges.keys ∨ ∃ q ∈ order, p ∈ q.links := by
  induction order with
  | nil => intro m; simp [buildWith]
  | cons q order ih =>
    intro m
    rw [buildWith_cons, ih]
    simp only [initPage, addEdges_mem_keys, List.mem_cons, exists_eq_or_imp]
    tauto

theorem buildWith_prev_get (network : Network) (deg : Page → Nat) (k : PageId)
    (order : List Page) : ∀ m : Maps,
    (buildWith network deg order m).prev.get k =
      if k ∈ order.map network.getId then 1 / (network.pages.length : ℚ) else m.prev.get k := by
  induction order with
  | nil => intro m; simp [buildWith]
  | cons q order ih =>
    intro m
    rw [buildWith_cons, ih]
    by_cases h1 : k ∈ order.map network.getId
    · simp [h1]
    · by_cases h2 : k = network.getId q
      · simp [h2, initPage]
      · simp only [h1, if_false, initPage, HashMap.get_set, h2, List.map_cons, List.mem_cons,
          or_self]

theorem buildWith_curr_get (network : Network) (deg : Page → Nat) (k : PageId)
    (order : List Page) : ∀ m : Maps,
    (buildWith network deg order m).curr.get k =
      if k ∈ order.map network.getId then 1 / (network.pages.length : ℚ) else m.curr.get k := by
  induction order with
  | nil => intro m; simp [buildWith]
  | cons q order ih =>
    intro m
    rw [buildWith_cons, ih]
    by_cases h1 : k ∈ order.map network.getId
    · simp [h1]
    · by_cases h2 : k = network.getId q
      · simp [h2, initPage]
      · simp only [h1, if_false, initPage, HashMap.get_set, h2, List.map_cons, List.mem_cons,
          or_self]

theorem buildWith_numLinks_get_of_not_mem (network : Network) (deg : Page → Nat) (k : PageId)
    (order : List Page) : ∀ m : Maps, k ∉ order.map network.getId →
    (buildWith network deg order m).numLinks.get k = m.numLinks.get k := by
  induction order with
  | nil => intro m _; simp [buildWith]
  | cons q order ih =>
    intro m hk
    simp only [List.map_cons, List.mem_cons, not_or] at hk
    rw [buildWith_cons, ih _ hk.2]
    simp [initPage, hk.1]

theorem buildWith_numLinks_get (network : Network) (deg : Page → Nat)
    (order : List Page) : ∀ m : Maps, (order.map network.getId).Nodup →
    ∀ q ∈ order, (buildWith network deg order m).numLinks.get (network.getId q) = deg q := by
  induction order with
  | nil => intro m _ q hq; simp at hq
  | cons q0 order ih =>
    intro m hnd q hq
    simp only [List.map_cons, List.nodup_cons] at hnd
    rw [buildWith_cons]
    rcases List.mem_cons.1 hq with rfl | hq'
    · rw [buildWith_numLinks_get_of_not_mem _ _ _ _ _ hnd.1]
      simp [initPage]
    · exact ih _ hnd.2 q hq'

/-- The keys of the three maps indexed by the pages, after the build loop. -/
theorem buildWith_keys (network : Network) (deg : Page → Nat) (order : List Page) :
    ∀ m : Maps, m.curr.keys = m.prev.keys → m.numLinks.keys = m.prev.keys →
    (buildWith network deg order m).curr.keys = (buildWith network deg order m).prev.keys ∧
    (buildWith network deg order m).numLinks.keys = (buildWith network deg order m).prev.keys := by
  induction order with
  | nil => intro m h1 h2; exact ⟨h1, h2⟩
  | cons q order ih =>
    intro m h1 h2
    rw [buildWith_cons]
    apply ih
    · simp [initPage, HashMap.set, h1]
    · simp [initPage, HashMap.set, h2]

theorem buildWith_prev_mem_keys (network : Network) (deg : Page → Nat) (k : PageId)
    (order : List Page) : ∀ m : Maps,
    k ∈ (buildWith network deg order m).prev.keys ↔
      k ∈ m.prev.keys ∨ k ∈ order.map network.getId := by
  induction order with
  | nil => intro m; simp [buildWith]
  | cons q order ih =>
    intro m
    rw [buildWith_cons, ih]
    simp only [initPage, HashMap.mem_keys_set, List.map_cons, List.mem_cons]
    tauto

theorem buildWith_prev_keys_nodup (network : Network) (deg : Page → Nat)
    (order : List Page) : ∀ m : Maps, m.prev.keys.Nodup →
    (buildWith network deg order m).prev.keys.Nodup := by
  induction order with
  | nil => intro m h; exact h
  | cons q order ih =>
    intro m h
    rw [buildWith_cons]
    exact ih _ (HashMap.nodup_keys_set _ _ _ h)

theorem buildWith_prev_keys_of_nodup (network : Network) (deg : Page → Nat)
    (order : List Page) : ∀ m : Maps, (m.prev.keys ++ order.map network.getId).Nodup →
    (buildWith network deg order m).prev.keys = m.prev.keys ++ order.map network.getId := by
  induction order with
  | nil => intro m _; simp [buildWith]
  | cons q order ih =>
    intro m h
    have hq : network.getId q ∉ m.prev.keys := by
      intro hmem
      have := List.nodup_append.1 h
      exact this.2.2 hmem (by simp)
    have hk : (initPage network.pages.length (network.getId q) (deg q) q.links m).prev.keys =
        m.prev.keys ++ [network.getId q] := by
      simp [initPage, HashMap.keys_set_of_not_mem _ _ _ hq]
    rw [buildWith_cons, ih, hk]
    · simp
    · rw [hk]; simpa using h


/-! ## The update and copy loops -/

theorem sum_map_replicate (f : PageId → ℚ) (k : Nat) (a : PageId) :
    ((List.replicate k a).map f).sum = (k : ℚ) * f a := by
  induction k with
  | zero => simp
  | succ k ih => simp [List.replicate_succ, ih]; ring

theorem sum_map_flatten_replicate (f : PageId → ℚ) (c : Page → Nat) (g : Page → PageId)
    (order : List Page) :
    (((order.map (fun q => List.replicate (c q) (g q))).flatten).map f).sum =
      (order.map (fun q => (c q : ℚ) * f (g q))).sum := by
  induction order with
  | nil => simp
  | cons q order ih =>
    simp only [List.map_cons, List.flatten_cons, List.map_append, List.sum_append, List.sum_cons,
      ih, sum_map_replicate]

theorem edgesBuilt_buildWith (network : Network) (deg : Page → Nat) (order : List Page) :
    EdgesBuilt network order (buildWith network deg order Maps.empty) := by
  constructor
  · intro p
    rw [buildWith_edges_get]
    simp [Maps.empty, HashMap.empty, HashMap.get]
    rfl
  · intro p
    rw [buildWith_edges_mem_keys]
    simp [Maps.empty, HashMap.empty]

theorem EdgesBuilt.get_of_not_mem {network : Network} {order : List Page} {m : Maps}
    (h : EdgesBuilt network order m) (p : PageId) (hp : p ∉ m.edges.keys) :
    m.edges.get p = [] := by
  rw [h.1 p]
  have hq : ∀ q ∈ order, q.links.count p = 0 := by
    intro q hq
    apply List.count_eq_zero.2
    intro hmem
    exact hp ((h.2 p).2 ⟨q, hq, hmem⟩)
  clear hp h
  induction order with
  | nil => rfl
  | cons q order ih =>
    simp only [List.map_cons, List.flatten_cons]
    rw [hq q (List.mem_cons_self _ _), ih (fun q' h' => hq q' (List.mem_cons_of_mem _ h'))]
    rfl

theorem pageSum_eq_of_edgesBuilt {network : Network} {order : List Page} {m : Maps}
    (h : EdgesBuilt network order m) (alpha dangleSum : ℚ) (p : PageId) :
    pageSum network alpha m dangleSum p =
      dangleSum * (1 / (network.getSize : ℚ)) + (1 - alpha) / (network.getSize : ℚ) +
        alpha * (order.map (fun q => (q.links.count p : ℚ) *
          (m.prev.get (network.getId q) / (m.numLinks.get (network.getId q) : ℚ)))).sum := by
  have hsum : (m.edges.get p).foldl
      (fun s link => s + alpha * m.prev.get link / (m.numLinks.get link : ℚ))
      (dangleSum * (1 / (network.getSize : ℚ)) + (1 - alpha) / (network.getSize : ℚ)) =
      dangleSum * (1 / (network.getSize : ℚ)) + (1 - alpha) / (network.getSize : ℚ) +
        alpha * (order.map (fun q => (q.links.count p : ℚ) *
          (m.prev.get (network.getId q) / (m.numLinks.get (network.getId q) : ℚ)))).sum := by
    rw [foldl_add_eq_sum (fun link => alpha * m.prev.get link / (m.numLinks.get link : ℚ)),
      h.1 p, sum_map_flatten_replicate, ← List.sum_map_mul_left]
    congr 2
    apply List.map_congr_left
    intro q _
    ring
  unfold pageSum
  simp only []
  split_ifs with hc
  · exact hsum
  · have hp : p ∉ m.edges.keys := fun hmem => hc ((HashMap.count_pos_iff _ _).2 hmem)
    rw [← hsum, h.get_of_not_mem p hp]
    rfl

theorem updateOver_foldl (network : Network) (alpha : ℚ) (m : Maps) (dangleSum : ℚ)
    (ps : List Page) : ∀ acc : ℚ × HashMap PageRank,
    ps.foldl
      (fun acc page =>
        let page_id := network.getId page
        let m_sum := pageSum network alpha m dangleSum page_id
        (acc.1 + |m_sum - m.prev.get page_id|, acc.2.set page_id m_sum)) acc =
    (acc.1 + (ps.map (fun page => |pageSum network alpha m dangleSum (network.getId page) -
        m.prev.get (network.getId page)|)).sum,
      ps.foldl (fun c page => c.set (network.getId page)
        (pageSum network alpha m dangleSum (network.getId page))) acc.2) := by
  induction ps with
  | nil => intro acc; simp
  | cons p ps ih =>
    intro acc
    rw [List.foldl_cons, ih]
    simp [add_assoc]

theorem foldl_set_get (f : PageId → ℚ) (g : Page → PageId) (ps : List Page) (k : PageId) :
    ∀ c : HashMap PageRank,
    (ps.foldl (fun c page => c.set (g page) (f (g page))) c).get k =
      if k ∈ ps.map g then f k else c.get k := by
  induction ps with
  | nil => intro c; simp
  | cons p ps ih =>
    intro c
    rw [List.foldl_cons, ih]
    by_cases h1 : k ∈ ps.map g
    · simp [h1]
    · by_cases h2 : k = g p
      · simp [h2]
      · simp only [h1, if_false, HashMap.get_set, h2, List.map_cons, List.mem_cons, or_self]

theorem foldl_set_keys (f : PageId → ℚ) (g : Page → PageId) (ps : List Page) :
    ∀ c : HashMap PageRank, (∀ p ∈ ps, g p ∈ c.keys) →
    (ps.foldl (fun c page => c.set (g page) (f (g page))) c).keys = c.keys := by
  induction ps with
  | nil => intro c _; rfl
  | cons p ps ih =>
    intro c h
    have hp : g p ∈ c.keys := h p (List.mem_cons_self _ _)
    rw [List.foldl_cons, ih, HashMap.keys_set_of_mem _ _ _ hp]
    intro q hq
    rw [HashMap.keys_set_of_mem _ _ _ hp]
    exact h q (List.mem_cons_of_mem _ hq)

theorem updateOver_fst (network : Network) (alpha : ℚ) (m : Maps) (dangleSum : ℚ)
    (ps : List Page) (curr : HashMap PageRank) :
    (updateOver network alpha m dangleSum ps curr).1 =
      (ps.map (fun page => |pageSum network alpha m dangleSum (network.getId page) -
        m.prev.get (network.getId page)|)).sum := by
  unfold updateOver
  rw [updateOver_foldl]
  simp

theorem updateOver_snd_get (network : Network) (alpha : ℚ) (m : Maps) (dangleSum : ℚ)
    (ps : List Page) (curr : HashMap PageRank) (k : PageId) :
    (updateOver network alpha m dangleSum ps curr).2.get k =
      if k ∈ ps.map network.getId then pageSum network alpha m dangleSum k else curr.get k := by
  unfold updateOver
  rw [updateOver_foldl]
  exact foldl_set_get (pageSum network alpha m dangleSum) network.getId ps k curr

theorem updateOver_snd_keys (network : Network) (alpha : ℚ) (m : Maps) (dangleSum : ℚ)
    (ps : List Page) (curr : HashMap PageRank) (h : ∀ p ∈ ps, network.getId p ∈ curr.keys) :
    (updateOver network alpha m dangleSum ps curr).2.keys = curr.keys := by
  unfold updateOver
  rw [updateOver_foldl]
  exact foldl_set_keys (pageSum network alpha m dangleSum) network.getId ps curr h

theorem copyOver_get (network : Network) (curr : HashMap PageRank) (ps : List Page)
    (prev : HashMap PageRank) (k : PageId) :
    (copyOver network curr ps prev).get k =
      if k ∈ ps.map network.getId then curr.get k else prev.get k :=
  foldl_set_get curr.get network.getId ps k prev

theorem copyOver_keys (network : Network) (curr : HashMap PageRank) (ps : List Page)
    (prev : HashMap PageRank) (h : ∀ p ∈ ps, network.getId p ∈ prev.keys) :
    (copyOver network curr ps prev).keys = prev.keys :=
  foldl_set_keys curr.get network.getId ps prev h

theorem updateOver_eq (network : Network) (alpha : ℚ) (m : Maps) (dangleSum : ℚ)
    (ps : List Page) (curr : HashMap PageRank) :
    updateOver network alpha m dangleSum ps curr =
      ((ps.map (fun page => |pageSum network alpha m dangleSum (network.getId page) -
        m.prev.get (network.getId page)|)).sum,
      ps.foldl (fun c page => c.set (network.getId page)
        (pageSum network alpha m dangleSum (network.getId page))) curr) := by
  unfold updateOver
  rw [updateOver_foldl]
  simp

/-! ## The partition of the pages among the workers -/

namespace MultiThreaded

theorem rangeStart_succ (n w i : Nat) :
    rangeStart n w (i + 1) = rangeStart n w i + n / w + (if n % w > i then 1 else 0) := by
  unfold rangeStart
  split_ifs with h
  · rw [Nat.min_eq_left (by omega : i + 1 ≤ n % w), Nat.min_eq_left (by omega : i ≤ n % w)]
    ring
  · rw [Nat.min_eq_right (by omega : n % w ≤ i + 1), Nat.min_eq_right (by omega : n % w ≤ i)]
    ring

theorem rangeStart_mono (n w : Nat) {i j : Nat} (h : i ≤ j) :
    rangeStart n w i ≤ rangeStart n w j := by
  unfold rangeStart
  have h1 : i * (n / w) ≤ j * (n / w) := Nat.mul_le_mul_right _ h
  have h2 : min i (n % w) ≤ min j (n % w) := by omega
  omega

theorem rangeStart_zero (n w : Nat) : rangeStart n w 0 = 0 := by
  simp [rangeStart]

theorem rangeStart_total (n w : Nat) (h : 1 ≤ w) : rangeStart n w w = n := by
  unfold rangeStart
  have h1 : n % w < w := Nat.mod_lt _ h
  rw [Nat.min_eq_right (by omega)]
  have := Nat.div_add_mod n w
  linarith [Nat.mul_comm w (n / w)]

theorem threadRangesFrom_length (n w : Nat) : ∀ k i index,
    (threadRangesFrom n w k i index).length = k := by
  intro k
  induction k with
  | zero => intro i index; rfl
  | succ k ih => intro i index; simp [threadRangesFrom, ih]

theorem threadRangesFrom_getElem? (n w : Nat) : ∀ k i t, t < k →
    (threadRangesFrom n w k i (rangeStart n w i))[t]? =
      some (rangeStart n w (i + t), rangeStart n w (i + t + 1)) := by
  intro k
  induction k with
  | zero => intro i t ht; omega
  | succ k ih =>
    intro i t ht
    cases t with
    | zero => simp [threadRangesFrom, rangeStart_succ]
    | succ t =>
      have h := ih (i + 1) t (by omega)
      simp only [threadRangesFrom, List.getElem?_cons_succ]
      rw [← rangeStart_succ, h]
      have e : i + 1 + t = i + (t + 1) := by omega
      rw [e]

theorem threadRanges_getElem? (n w i : Nat) (h : i < w) :
    (threadRanges n w)[i]? = some (rangeStart n w i, rangeStart n w (i + 1)) := by
  have := threadRangesFrom_getElem? n w w 0 i h
  rw [rangeStart_zero] at this
  simpa [threadRanges] using this

theorem exists_range_of_lt (n w j : Nat) : ∀ k, j < rangeStart n w k →
    ∃ i, i < k ∧ rangeStart n w i ≤ j ∧ j < rangeStart n w (i + 1) := by
  intro k
  induction k with
  | zero => intro h; simp [rangeStart] at h
  | succ k ih =>
    intro h
    by_cases hk : j < rangeStart n w k
    · obtain ⟨i, hi, h1, h2⟩ := ih hk
      exact ⟨i, by omega, h1, h2⟩
    · exact ⟨k, by omega, by omega, h⟩

theorem slice_append (pages : List Page) (a b c : Nat) (hab : a ≤ b) (hbc : b ≤ c) :
    slice pages (a, b) ++ slice pages (b, c) = slice pages (a, c) := by
  unfold slice
  simp only []
  have e : c - a = (b - a) + (c - b) := by omega
  rw [e, List.take_add, List.drop_drop]
  have e2 : a + (b - a) = b := by omega
  rw [e2]

theorem slices_from (pages : List Page) (n w : Nat) : ∀ k i,
    ((threadRangesFrom n w k i (rangeStart n w i)).map (slice pages)).flatten =
      slice pages (rangeStart n w i, rangeStart n w (i + k)) := by
  intro k
  induction k with
  | zero => intro i; simp [threadRangesFrom, slice]
  | succ k ih =>
    intro i
    have h := ih (i + 1)
    simp only [threadRangesFrom, List.map_cons, List.flatten_cons]
    rw [← rangeStart_succ, h]
    have e : i + 1 + k = i + (k + 1) := by omega
    rw [e]
    exact slice_append pages _ _ _ (rangeStart_mono n w (by omega)) (rangeStart_mono n w (by omega))

theorem slices_flatten (pages : List Page) (w : Nat) (hw : 1 ≤ w) :
    ((threadRanges pages.length w).map (slice pages)).flatten = pages := by
  have h := slices_from pages pages.length w w 0
  rw [rangeStart_zero, Nat.zero_add, rangeStart_total _ _ hw] at h
  unfold threadRanges
  rw [h]
  simp [slice]

end MultiThreaded

namespace MultiThreaded

theorem threadRanges_length (n w : Nat) : (threadRanges n w).length = w :=
  threadRangesFrom_length n w w 0 0

theorem threadRanges_eq_of_getElem? (n w i : Nat) (r : Nat × Nat)
    (h : (threadRanges n w)[i]? = some r) :
    i < w ∧ r = (rangeStart n w i, rangeStart n w (i + 1)) := by
  have hi : i < w := by
    have := (List.getElem?_eq_some_iff.1 h).1
    rwa [threadRanges_length] at this
  rw [threadRanges_getElem? n w i hi] at h
  exact ⟨hi, (Option.some.inj h).symm⟩

/-- C3: for `workers >= 1` the spawning loop hands out exactly `workers` half-open
ranges; the first starts at 0, each starts where the previous one ends, the last ends
at `total`, range `i` has `total / workers + 1` elements when `i < total % workers` and
`total / workers` otherwise, every index below `total` lies in exactly one range, and
for 10 pages and 3 workers the ranges are [0,4), [4,7), [7,10). -/
theorem threadRanges_partition (total workers : Nat) (h : 1 ≤ workers) :
    (threadRanges total workers).length = workers ∧
    (∃ e, (threadRanges total workers)[0]? = some (0, e)) ∧
    (∀ i r r', (threadRanges total workers)[i]? = some r →
      (threadRanges total workers)[i + 1]? = some r' → r'.1 = r.2) ∧
    (∃ b, (threadRanges total workers)[workers - 1]? = some (b, total)) ∧
    (∀ i r, (threadRanges total workers)[i]? = some r →
      r.2 = r.1 + (total / workers + if i < total % workers then 1 else 0)) ∧
    (∀ j, j < total →
      ∃! i : Nat, ∃ r : Nat × Nat, (threadRanges total workers)[i]? = some r ∧ r.1 ≤ j ∧ j < r.2) ∧
    threadRanges 10 3 = [(0, 4), (4, 7), (7, 10)] := by
  refine ⟨threadRanges_length _ _, ?_, ?_, ?_, ?_, ?_, by decide⟩
  · refine ⟨rangeStart total workers 1, ?_⟩
    rw [threadRanges_getElem? total workers 0 (by omega), rangeStart_zero]
  · intro i r r' hr hr'
    obtain ⟨_, rfl⟩ := threadRanges_eq_of_getElem? _ _ _ _ hr
    obtain ⟨_, rfl⟩ := threadRanges_eq_of_getElem? _ _ _ _ hr'
    rfl
  · refine ⟨rangeStart total workers (workers - 1), ?_⟩
    rw [threadRanges_getElem? total workers (workers - 1) (by omega)]
    have e : workers - 1 + 1 = workers := by omega
    rw [e, rangeStart_total _ _ h]
  · intro i r hr
    obtain ⟨_, rfl⟩ := threadRanges_eq_of_getElem? _ _ _ _ hr
    simp only [rangeStart_succ]
    split_ifs <;> omega
  · intro j hj
    have hj' : j < rangeStart total workers workers := by rw [rangeStart_total _ _ h]; exact hj
    obtain ⟨i, hi, h1, h2⟩ := exists_range_of_lt total workers j workers hj'
    refine ⟨i, ⟨_, threadRanges_getElem? total workers i hi, h1, h2⟩, ?_⟩
    rintro i' ⟨r, hr, h1', h2'⟩
    obtain ⟨_, rfl⟩ := threadRanges_eq_of_getElem? _ _ _ _ hr
    simp only at h1' h2'
    by_contra hne
    rcases Nat.lt_or_gt_of_ne hne with hlt | hgt
    · have := rangeStart_mono total workers (by omega : i' + 1 ≤ i)
      omega
    · have := rangeStart_mono total workers (by omega : i + 1 ≤ i')
      omega

/-- Witness of C3 at 7 pages and 2 workers. -/
theorem threadRanges_partition_witness :
    1 ≤ 2 ∧ (threadRanges 7 2).length = 2 ∧
      (∃ b, (threadRanges 7 2)[2 - 1]? = some (b, 7)) :=
  ⟨by decide, (threadRanges_partition 7 2 (by decide)).1,
    (threadRanges_partition 7 2 (by decide)).2.2.2.1⟩

end MultiThreaded

/-! ## A round of the workers is a round of the sequential loop -/

namespace MultiThreaded

theorem barrierSum_eq (diffs : List ℚ) : barrierSum diffs = diffs.sum := by
  unfold barrierSum
  have h := foldl_add_eq_sum (fun x : ℚ => x) diffs 0
  simpa using h

theorem sum_danglingMass_slices (network : Network) (prev : HashMap PageRank)
    (L : List (List Page)) :
    (L.map (danglingMass network prev)).sum = danglingMass network prev L.flatten := by
  induction L with
  | nil => simp [danglingMass]
  | cons l L ih => simp [ih, danglingMass_append]

theorem danglingSum_eq (network : Network) (alpha : ℚ) (w : Nat) (m : Maps) (hw : 1 ≤ w) :
    danglingSum network alpha (threadRanges network.pages.length w) m =
      SingleThreaded.dangleSum network alpha m := by
  unfold danglingSum SingleThreaded.dangleSum
  rw [barrierSum_eq, dangleSumOver_eq]
  have h : (threadRanges network.pages.length w).map (danglingAddition network m) =
      ((threadRanges network.pages.length w).map (slice network.pages)).map
        (danglingMass network m.prev) := by
    rw [List.map_map]
    apply List.map_congr_left
    intro r _
    simp [danglingAddition, dangleSumOver_eq]
  rw [h, sum_danglingMass_slices, slices_flatten _ _ hw]

theorem updateAll_foldl (network : Network) (alpha : ℚ) (m : Maps) (ds : ℚ)
    (rs : List (Nat × Nat)) : ∀ acc : List ℚ × HashMap PageRank,
    rs.foldl
      (fun acc r =>
        let u := updateOver network alpha m ds (slice network.pages r) acc.2
        (acc.1 ++ [u.1], u.2)) acc =
    (acc.1 ++ rs.map (fun r => ((slice network.pages r).map (fun page =>
        |pageSum network alpha m ds (network.getId page) - m.prev.get (network.getId page)|)).sum),
      ((rs.map (slice network.pages)).flatten).foldl (fun c page => c.set (network.getId page)
        (pageSum network alpha m ds (network.getId page))) acc.2) := by
  induction rs with
  | nil => intro acc; simp
  | cons r rs ih =>
    intro acc
    rw [List.foldl_cons, ih]
    simp [updateOver_eq, List.foldl_append]

theorem updateAll_eq (network : Network) (alpha : ℚ) (m : Maps) (rs : List (Nat × Nat)) :
    updateAll network alpha rs m =
    (rs.map (fun r => ((slice network.pages r).map (fun page =>
        |pageSum network alpha m (danglingSum network alpha rs m) (network.getId page) -
          m.prev.get (network.getId page)|)).sum),
      (updateOver network alpha m (danglingSum network alpha rs m)
        ((rs.map (slice network.pages)).flatten) m.curr).2) := by
  unfold updateAll
  rw [updateAll_foldl, updateOver_eq]
  simp

theorem sum_map_sum_map (f : Page → ℚ) (L : List (List Page)) :
    (L.map (fun l => (l.map f).sum)).sum = (L.flatten.map f).sum := by
  induction L with
  | nil => simp
  | cons l L ih => simp [ih]

theorem updateAll_snd (network : Network) (alpha : ℚ) (w : Nat) (m : Maps) (hw : 1 ≤ w) :
    (updateAll network alpha (threadRanges network.pages.length w) m).2 =
      (SingleThreaded.update network alpha m).2 := by
  rw [updateAll_eq, slices_flatten _ _ hw, danglingSum_eq _ _ _ _ hw]
  rfl

theorem total_eq (network : Network) (alpha : ℚ) (w : Nat) (m : Maps) (hw : 1 ≤ w) :
    total network alpha (threadRanges network.pages.length w) m =
      (SingleThreaded.update network alpha m).1 := by
  unfold total SingleThreaded.update
  rw [updateAll_eq, barrierSum_eq, updateOver_fst, danglingSum_eq _ _ _ _ hw]
  have h := sum_map_sum_map (fun page =>
      |pageSum network alpha m (SingleThreaded.dangleSum network alpha m) (network.getId page) -
        m.prev.get (network.getId page)|)
    ((threadRanges network.pages.length w).map (slice network.pages))
  rw [slices_flatten _ _ hw, List.map_map] at h
  exact h

theorem copyAll_eq (network : Network) (curr : HashMap PageRank) (rs : List (Nat × Nat)) :
    ∀ prev : HashMap PageRank, copyAll network curr rs prev =
      copyOver network curr ((rs.map (slice network.pages)).flatten) prev := by
  induction rs with
  | nil => intro prev; rfl
  | cons r rs ih =>
    intro prev
    have h := ih (copyOver network curr (slice network.pages r) prev)
    unfold copyAll at h ⊢
    rw [List.foldl_cons, h]
    simp [copyOver, List.foldl_append]

theorem advance_eq (network : Network) (alpha : ℚ) (w : Nat) (m : Maps) (hw : 1 ≤ w) :
    advance network alpha (threadRanges network.pages.length w) m =
      SingleThreaded.advance network alpha m := by
  unfold advance SingleThreaded.advance
  simp only [updateAll_snd _ _ _ _ hw, copyAll_eq, slices_flatten _ _ hw]

theorem mapsAt_eq (network : Network) (alpha : ℚ) (w : Nat) (schedule : List Page)
    (hw : 1 ≤ w) (i : Nat) :
    mapsAt network alpha (threadRanges network.pages.length w) schedule i =
      SingleThreaded.roundsFrom network alpha (build network schedule) i := by
  induction i with
  | zero => rfl
  | succ i ih => simp only [mapsAt, SingleThreaded.roundsFrom, ih, advance_eq _ _ _ _ hw]

theorem par_build_eq (network : Network) (schedule : List Page) :
    build network schedule =
      buildWith network (fun page => page.links.length) schedule Maps.empty := rfl

end MultiThreaded

namespace SingleThreaded

theorem seq_build_eq (network : Network) :
    build network =
      buildWith network (fun page => page.links.length % 2 ^ 32) network.pages Maps.empty := rfl

end SingleThreaded

/-! ## Rounds -/

theorem pageSum_eq_roundRank {network : Network} {order : List Page} {m : Maps}
    (h : EdgesBuilt network order m) (hP : order.Perm network.pages) (alpha : ℚ) (p : PageId) :
    pageSum network alpha m (danglingMass network m.prev network.pages * alpha) p =
      roundRank network alpha m p := by
  rw [pageSum_eq_of_edgesBuilt h]
  unfold roundRank incoming
  rw [(hP.map _).sum_eq]
  ring

namespace SingleThreaded

theorem dangleSum_eq (network : Network) (alpha : ℚ) (m : Maps) :
    dangleSum network alpha m = danglingMass network m.prev network.pages * alpha := by
  unfold dangleSum
  rw [dangleSumOver_eq]

theorem update_snd_get (network : Network) (alpha : ℚ) (m : Maps) (k : PageId) :
    (update network alpha m).2.get k =
      if k ∈ network.ids then pageSum network alpha m (dangleSum network alpha m) k
      else m.curr.get k :=
  updateOver_snd_get _ _ _ _ _ _ _

theorem update_fst (network : Network) (alpha : ℚ) (m : Maps) :
    (update network alpha m).1 =
      (network.pages.map (fun page =>
        |pageSum network alpha m (dangleSum network alpha m) (network.getId page) -
          m.prev.get (network.getId page)|)).sum :=
  updateOver_fst _ _ _ _ _ _

theorem update_fst_nonneg (network : Network) (alpha : ℚ) (m : Maps) :
    0 ≤ (update network alpha m).1 := by
  rw [update_fst]
  apply List.sum_nonneg
  intro x hx
  obtain ⟨p, _, rfl⟩ := List.mem_map.1 hx
  exact abs_nonneg _

theorem advance_edges (network : Network) (alpha : ℚ) (m : Maps) :
    (advance network alpha m).edges = m.edges := rfl

theorem advance_numLinks (network : Network) (alpha : ℚ) (m : Maps) :
    (advance network alpha m).numLinks = m.numLinks := rfl

theorem advance_curr (network : Network) (alpha : ℚ) (m : Maps) :
    (advance network alpha m).curr = (update network alpha m).2 := rfl

theorem advance_prev_get (network : Network) (alpha : ℚ) (m : Maps) (k : PageId) :
    (advance network alpha m).prev.get k =
      if k ∈ network.ids then (update network alpha m).2.get k else m.prev.get k :=
  copyOver_get _ _ _ _ _

theorem advance_keys (network : Network) (alpha : ℚ) (m : Maps) (h : Keyed network m) :
    (advance network alpha m).prev.keys = m.prev.keys ∧
    (advance network alpha m).curr.keys = m.curr.keys :=
  ⟨copyOver_keys _ _ _ _ h.1, updateOver_snd_keys _ _ _ _ _ _ h.2⟩

theorem advance_keyed (network : Network) (alpha : ℚ) (m : Maps) (h : Keyed network m) :
    Keyed network (advance network alpha m) := by
  obtain ⟨h1, h2⟩ := advance_keys network alpha m h
  constructor
  · intro p hp; rw [h1]; exact h.1 p hp
  · intro p hp; rw [h2]; exact h.2 p hp

theorem roundsFrom_edges (network : Network) (alpha : ℚ) (m : Maps) (i : Nat) :
    (roundsFrom network alpha m i).edges = m.edges := by
  induction i with
  | zero => rfl
  | succ i ih => rw [roundsFrom, advance_edges, ih]

theorem roundsFrom_numLinks (network : Network) (alpha : ℚ) (m : Maps) (i : Nat) :
    (roundsFrom network alpha m i).numLinks = m.numLinks := by
  induction i with
  | zero => rfl
  | succ i ih => rw [roundsFrom, advance_numLinks, ih]

theorem roundsFrom_keyed (network : Network) (alpha : ℚ) (m : Maps) (h : Keyed network m)
    (i : Nat) : Keyed network (roundsFrom network alpha m i) := by
  induction i with
  | zero => exact h
  | succ i ih => exact advance_keyed _ _ _ ih

theorem roundsFrom_keys (network : Network) (alpha : ℚ) (m : Maps) (h : Keyed network m)
    (i : Nat) :
    (roundsFrom network alpha m i).prev.keys = m.prev.keys ∧
    (roundsFrom network alpha m i).curr.keys = m.curr.keys := by
  induction i with
  | zero => exact ⟨rfl, rfl⟩
  | succ i ih =>
    obtain ⟨h1, h2⟩ := advance_keys network alpha _ (roundsFrom_keyed network alpha m h i)
    exact ⟨by rw [roundsFrom, h1, ih.1], by rw [roundsFrom, h2, ih.2]⟩

theorem roundsFrom_advance (network : Network) (alpha : ℚ) (m : Maps) (i : Nat) :
    roundsFrom network alpha (advance network alpha m) i = roundsFrom network alpha m (i + 1) := by
  induction i with
  | zero => rfl
  | succ i ih => rw [roundsFrom, ih]; rfl

theorem roundsFrom_edgesBuilt {network : Network} {order : List Page} {m : Maps}
    (h : EdgesBuilt network order m) (alpha : ℚ) (i : Nat) :
    EdgesBuilt network order (roundsFrom network alpha m i) := by
  unfold EdgesBuilt
  rw [roundsFrom_edges]
  exact h

/-- The loop of the sequential computer when no round converges. -/
theorem seq_iterate_of_forall_not (network : Network) (alpha tolerance : ℚ) : ∀ (k : Nat) (m : Maps),
    (∀ i, i < k → ¬ (update network alpha (roundsFrom network alpha m i)).1 < tolerance) →
    iterate network alpha tolerance k m = .error .notConverged := by
  intro k
  induction k with
  | zero => intro m _; rfl
  | succ k ih =>
    intro m h
    have h0 := h 0 (by omega)
    simp only [roundsFrom] at h0
    rw [iterate, if_neg h0]
    apply ih
    intro i hi
    rw [roundsFrom_advance]
    exact h (i + 1) (by omega)

/-- The loop of the sequential computer when round `i` is the first to converge. -/
theorem seq_iterate_of_first (network : Network) (alpha tolerance : ℚ) : ∀ (k : Nat) (m : Maps)
    (i : Nat), i < k →
    (update network alpha (roundsFrom network alpha m i)).1 < tolerance →
    (∀ j, j < i → ¬ (update network alpha (roundsFrom network alpha m j)).1 < tolerance) →
    iterate network alpha tolerance k m = collect network (roundsFrom network alpha m i).prev := by
  intro k
  induction k with
  | zero => intro m i hi; omega
  | succ k ih =>
    intro m i hi hc hn
    cases i with
    | zero =>
      simp only [roundsFrom] at hc
      rw [iterate, if_pos hc]
      rfl
    | succ i =>
      have h0 := hn 0 (by omega)
      simp only [roundsFrom] at h0
      rw [iterate, if_neg h0, ih (advance network alpha m) i (by omega)]
      · rw [roundsFrom_advance]
      · rw [roundsFrom_advance]; exact hc
      · intro j hj
        rw [roundsFrom_advance]
        exact hn (j + 1) (by omega)

end SingleThreaded

namespace MultiThreaded

/-- The loop of the workers when no round converges. -/
theorem par_iterate_of_forall_not (network : Network) (alpha tolerance : ℚ) (w : Nat) (hw : 1 ≤ w)
    (success : Bool) : ∀ (k : Nat) (m : Maps),
    (∀ i, i < k → ¬ (SingleThreaded.update network alpha
      (SingleThreaded.roundsFrom network alpha m i)).1 < tolerance) →
    iterate network alpha tolerance (threadRanges network.pages.length w) k m success =
      (SingleThreaded.roundsFrom network alpha m k, success) := by
  intro k
  induction k with
  | zero => intro m _; rfl
  | succ k ih =>
    intro m h
    have h0 := h 0 (by omega)
    simp only [SingleThreaded.roundsFrom] at h0
    rw [iterate, total_eq _ _ _ _ hw, if_neg h0, advance_eq _ _ _ _ hw, ih]
    · rw [SingleThreaded.roundsFrom_advance]
    · intro i hi
      rw [SingleThreaded.roundsFrom_advance]
      exact h (i + 1) (by omega)

/-- The loop of the workers when round `i` is the first to converge. -/
theorem par_iterate_of_first (network : Network) (alpha tolerance : ℚ) (w : Nat) (hw : 1 ≤ w)
    (success : Bool) : ∀ (k : Nat) (m : Maps) (i : Nat), i < k →
    (SingleThreaded.update network alpha
      (SingleThreaded.roundsFrom network alpha m i)).1 < tolerance →
    (∀ j, j < i → ¬ (SingleThreaded.update network alpha
      (SingleThreaded.roundsFrom network alpha m j)).1 < tolerance) →
    iterate network alpha tolerance (threadRanges network.pages.length w) k m success =
      ({ SingleThreaded.roundsFrom network alpha m i with
          curr := (SingleThreaded.update network alpha
            (SingleThreaded.roundsFrom network alpha m i)).2 }, true) := by
  intro k
  induction k with
  | zero => intro m i hi; omega
  | succ k ih =>
    intro m i hi hc hn
    cases i with
    | zero =>
      simp only [SingleThreaded.roundsFrom] at hc ⊢
      rw [iterate, total_eq _ _ _ _ hw, if_pos hc, updateAll_snd _ _ _ _ hw]
    | succ i =>
      have h0 := hn 0 (by omega)
      simp only [SingleThreaded.roundsFrom] at h0
      rw [iterate, total_eq _ _ _ _ hw, if_neg h0, advance_eq _ _ _ _ hw,
        ih (SingleThreaded.advance network alpha m) i (by omega)]
      · rw [SingleThreaded.roundsFrom_advance]
      · rw [SingleThreaded.roundsFrom_advance]; exact hc
      · intro j hj
        rw [SingleThreaded.roundsFrom_advance]
        exact hn (j + 1) (by omega)

theorem par_residual_eq (network : Network) (alpha : ℚ) (w : Nat) (hw : 1 ≤ w)
    (schedule : List Page) (i : Nat) :
    residual network alpha (threadRanges network.pages.length w) schedule i =
      (SingleThreaded.update network alpha
        (SingleThreaded.roundsFrom network alpha (build network schedule) i)).1 := by
  unfold residual
  rw [total_eq _ _ _ _ hw, mapsAt_eq _ _ _ _ hw]

end MultiThreaded

/-! ## The maps after the build loop -/

theorem buildWith_keyed (network : Network) (deg : Page → Nat) (order : List Page)
    (hP : order.Perm network.pages) :
    Keyed network (buildWith network deg order Maps.empty) := by
  have hk := buildWith_keys network deg order Maps.empty rfl rfl
  have hp : ∀ p ∈ network.pages,
      network.getId p ∈ (buildWith network deg order Maps.empty).prev.keys := by
    intro p hp
    rw [buildWith_prev_mem_keys]
    exact Or.inr (List.mem_map_of_mem _ (hP.mem_iff.2 hp))
  exact ⟨hp, fun p h => by rw [hk.1]; exact hp p h⟩

theorem buildWith_prev_keys (network : Network) (deg : Page → Nat) (order : List Page)
    (hnd : (order.map network.getId).Nodup) :
    (buildWith network deg order Maps.empty).prev.keys = order.map network.getId := by
  rw [buildWith_prev_keys_of_nodup]
  · simp [Maps.empty, HashMap.empty]
  · simpa [Maps.empty, HashMap.empty] using hnd

theorem nodup_ids_of_perm {network : Network} {order : List Page}
    (hP : order.Perm network.pages) (hnd : network.ids.Nodup) :
    (order.map network.getId).Nodup :=
  ((hP.map network.getId).nodup_iff).2 hnd

theorem collect_of_length {network : Network} {ranks : HashMap PageRank}
    (h : ranks.keys.length = network.getSize) : collect network ranks = .ok ranks.entries := by
  simp [collect, HashMap.entries, h]

theorem collect_of_length_ne {network : Network} {ranks : HashMap PageRank}
    (h : ranks.keys.length ≠ network.getSize) :
    collect network ranks = .error .invalidResultSize := by
  simp [collect, HashMap.entries, h]

/-- The length of the key list of `prev` and `curr` in every round, for pairwise distinct
page identifiers. -/
theorem roundsFrom_buildWith_keys_length (network : Network) (deg : Page → Nat)
    (order : List Page) (hP : order.Perm network.pages) (hnd : network.ids.Nodup)
    (alpha : ℚ) (i : Nat) :
    (SingleThreaded.roundsFrom network alpha
      (buildWith network deg order Maps.empty) i).prev.keys.length = network.getSize ∧
    (SingleThreaded.roundsFrom network alpha
      (buildWith network deg order Maps.empty) i).curr.keys.length = network.getSize := by
  have hk := SingleThreaded.roundsFrom_keys network alpha _ (buildWith_keyed network deg order hP) i
  have hb := buildWith_keys network deg order Maps.empty rfl rfl
  have hl : (buildWith network deg order Maps.empty).prev.keys.length = network.getSize := by
    rw [buildWith_prev_keys _ _ _ (nodup_ids_of_perm hP hnd), List.length_map, hP.length_eq]
    rfl
  exact ⟨by rw [hk.1, hl], by rw [hk.2, hb.1, hl]⟩

/-! ## One round of the rank update -/

/-- One round in terms of the recorded map `numLinks`: in round `i` the sequential
computer gives every page `p` the rank `alpha * D / n + (1 - alpha) / n + alpha * (sum
over the pages q, once per link of q to p, of previous[q] / numLinks[q])`, `D` being the
sum of `previous` over the pages without links, and its residual is the sum over all
pages of `|current[p] - previous[p]|`; every worker of the parallel computer computes
the same rank for every page of its range, from the dangling sum the barrier returns,
its difference sum is the sum over its range, and the residual the barrier returns is
the sum over all pages. -/
theorem round_update (network : Network) (alpha : ℚ) (i : Nat) (numThreads : Nat)
    (schedule : List Page) (hT : 1 ≤ numThreads) (hS : schedule.Perm network.pages) :
    ((∀ p ∈ network.pages,
        (SingleThreaded.update network alpha (SingleThreaded.mapsAt network alpha i)).2.get
            (network.getId p) =
          alpha * danglingMass network (SingleThreaded.mapsAt network alpha i).prev network.pages
              / (network.getSize : ℚ) +
            (1 - alpha) / (network.getSize : ℚ) +
            alpha * incoming network (SingleThreaded.mapsAt network alpha i) (network.getId p)) ∧
      (SingleThreaded.update network alpha (SingleThreaded.mapsAt network alpha i)).1 =
        (network.pages.map (fun p =>
          |(SingleThreaded.update network alpha (SingleThreaded.mapsAt network alpha i)).2.get
              (network.getId p) -
            (SingleThreaded.mapsAt network alpha i).prev.get (network.getId p)|)).sum) ∧
    (MultiThreaded.danglingSum network alpha
        (MultiThreaded.threadRanges network.pages.length numThreads)
        (MultiThreaded.mapsAt network alpha
          (MultiThreaded.threadRanges network.pages.length numThreads) schedule i) =
      alpha * danglingMass network (MultiThreaded.mapsAt network alpha
        (MultiThreaded.threadRanges network.pages.length numThreads) schedule i).prev
        network.pages ∧
      (∀ r ∈ MultiThreaded.threadRanges network.pages.length numThreads,
        ∀ curr : HashMap PageRank,
        (∀ p ∈ MultiThreaded.slice network.pages r,
          (updateOver network alpha
              (MultiThreaded.mapsAt network alpha
                (MultiThreaded.threadRanges network.pages.length numThreads) schedule i)
              (MultiThreaded.danglingSum network alpha
                (MultiThreaded.threadRanges network.pages.length numThreads)
                (MultiThreaded.mapsAt network alpha
                  (MultiThreaded.threadRanges network.pages.length numThreads) schedule i))
              (MultiThreaded.slice network.pages r) curr).2.get (network.getId p) =
            roundRank network alpha
              (MultiThreaded.mapsAt network alpha
                (MultiThreaded.threadRanges network.pages.length numThreads) schedule i)
              (network.getId p)) ∧
        (updateOver network alpha
            (MultiThreaded.mapsAt network alpha
              (MultiThreaded.threadRanges network.pages.length numThreads) schedule i)
            (MultiThreaded.danglingSum network alpha
              (MultiThreaded.threadRanges network.pages.length numThreads)
              (MultiThreaded.mapsAt network alpha
                (MultiThreaded.threadRanges network.pages.length numThreads) schedule i))
            (MultiThreaded.slice network.pages r) curr).1 =
          ((MultiThreaded.slice network.pages r).map (fun p =>
            |roundRank network alpha
                (MultiThreaded.mapsAt network alpha
                  (MultiThreaded.threadRanges network.pages.length numThreads) schedule i)
                (network.getId p) -
              (MultiThreaded.mapsAt network alpha
                (MultiThreaded.threadRanges network.pages.length numThreads) schedule i).prev.get
                (network.getId p)|)).sum) ∧
      MultiThreaded.total network alpha
          (MultiThreaded.threadRanges network.pages.length numThreads)
          (MultiThreaded.mapsAt network alpha
            (MultiThreaded.threadRanges network.pages.length numThreads) schedule i) =
        (network.pages.map (fun p =>
          |roundRank network alpha
              (MultiThreaded.mapsAt network alpha
                (MultiThreaded.threadRanges network.pages.length numThreads) schedule i)
              (network.getId p) -
            (MultiThreaded.mapsAt network alpha
              (MultiThreaded.threadRanges network.pages.length numThreads) schedule i).prev.get
              (network.getId p)|)).sum) := by
  have hseq : EdgesBuilt network network.pages (SingleThreaded.mapsAt network alpha i) :=
    SingleThreaded.roundsFrom_edgesBuilt (edgesBuilt_buildWith network _ network.pages) alpha i
  have hpar : EdgesBuilt network schedule (MultiThreaded.mapsAt network alpha
      (MultiThreaded.threadRanges network.pages.length numThreads) schedule i) := by
    rw [MultiThreaded.mapsAt_eq _ _ _ _ hT]
    exact SingleThreaded.roundsFrom_edgesBuilt (edgesBuilt_buildWith network _ schedule) alpha i
  have hds := MultiThreaded.danglingSum_eq network alpha numThreads
    (MultiThreaded.mapsAt network alpha
      (MultiThreaded.threadRanges network.pages.length numThreads) schedule i) hT
  rw [SingleThreaded.dangleSum_eq] at hds
  have hval : ∀ p ∈ network.pages,
      (SingleThreaded.update network alpha (SingleThreaded.mapsAt network alpha i)).2.get
        (network.getId p) =
      roundRank network alpha (SingleThreaded.mapsAt network alpha i) (network.getId p) := by
    intro p hp
    have hmem : network.getId p ∈ network.ids := List.mem_map_of_mem _ hp
    rw [SingleThreaded.update_snd_get, if_pos hmem,
      SingleThreaded.dangleSum_eq, pageSum_eq_roundRank hseq (List.Perm.refl _)]
  refine ⟨⟨hval, ?_⟩, ?_, ?_, ?_⟩
  · rw [SingleThreaded.update_fst]
    apply congrArg
    apply List.map_congr_left
    intro p hp
    rw [hval p hp, SingleThreaded.dangleSum_eq, pageSum_eq_roundRank hseq (List.Perm.refl _)]
  · rw [hds]; ring
  · intro r _ curr
    rw [hds]
    constructor
    · intro p hp
      rw [updateOver_snd_get, if_pos (List.mem_map_of_mem _ hp), pageSum_eq_roundRank hpar hS]
    · rw [updateOver_fst]
      apply congrArg
      apply List.map_congr_left
      intro p _
      rw [pageSum_eq_roundRank hpar hS]
  · rw [MultiThreaded.total_eq _ _ _ _ hT, SingleThreaded.update_fst, SingleThreaded.dangleSum_eq]
    apply congrArg
    apply List.map_congr_left
    intro p _
    rw [pageSum_eq_roundRank hpar hS]

/-! ## What `computeForNetwork` returns -/

theorem exists_first {P : Nat → Prop} [DecidablePred P] {k : Nat} (h : ∃ i, i < k ∧ P i) :
    ∃ i, i < k ∧ P i ∧ ∀ j, j < i → ¬ P j := by
  have h' : ∃ i, P i := by
    obtain ⟨i, _, hi⟩ := h
    exact ⟨i, hi⟩
  refine ⟨Nat.find h', ?_, Nat.find_spec h', fun j hj => Nat.find_min h' hj⟩
  obtain ⟨i, hik, hi⟩ := h
  exact lt_of_le_of_lt (Nat.find_min' h' hi) hik

namespace SingleThreaded

theorem seq_residual_eq (network : Network) (alpha : ℚ) (i : Nat) :
    residual network alpha i =
      (update network alpha (roundsFrom network alpha (build network) i)).1 := rfl

/-- The sequential computer returns `prev` of the first converging round, after the size
assertion, and reports a convergence failure when no round converges. -/
theorem seq_computeForNetwork_cases (network : Network) (alpha : ℚ) (iterations : Nat)
    (tolerance : ℚ) :
    (∃ i, i < iterations ∧ residual network alpha i < tolerance ∧
      computeForNetwork network alpha iterations tolerance =
        collect network (mapsAt network alpha i).prev) ∨
    ((∀ i, i < iterations → ¬ residual network alpha i < tolerance) ∧
      computeForNetwork network alpha iterations tolerance = .error .notConverged) := by
  by_cases h : ∃ i, i < iterations ∧ residual network alpha i < tolerance
  · obtain ⟨i, hi, hc, hn⟩ := exists_first h
    exact Or.inl ⟨i, hi, hc, seq_iterate_of_first network alpha tolerance iterations _ i hi hc hn⟩
  · have h' : ∀ i, i < iterations → ¬ residual network alpha i < tolerance :=
      fun i hi hc => h ⟨i, hi, hc⟩
    exact Or.inr ⟨h', seq_iterate_of_forall_not network alpha tolerance iterations _ h'⟩

end SingleThreaded

namespace MultiThreaded

/-- The parallel computer returns `curr` of the first converging round, after the size
assertion; when no round converges the flag `success` still holds `success0`. -/
theorem par_computeForNetwork_cases (numThreads : Nat) (hT : 1 ≤ numThreads) (success0 : Bool)
    (schedule : List Page) (network : Network) (alpha : ℚ) (iterations : Nat) (tolerance : ℚ) :
    (∃ i, i < iterations ∧
      residual network alpha (threadRanges network.pages.length numThreads) schedule i
        < tolerance ∧
      computeForNetwork numThreads success0 schedule network alpha iterations tolerance =
        collect network (SingleThreaded.update network alpha
          (SingleThreaded.roundsFrom network alpha (build network schedule) i)).2) ∨
    ((∀ i, i < iterations →
        ¬ residual network alpha (threadRanges network.pages.length numThreads) schedule i
          < tolerance) ∧
      computeForNetwork numThreads success0 schedule network alpha iterations tolerance =
        if success0 then
          collect network
            (SingleThreaded.roundsFrom network alpha (build network schedule) iterations).curr
        else .error .notConverged) := by
  have hne : ¬ numThreads = 0 := by omega
  by_cases h : ∃ i, i < iterations ∧
      residual network alpha (threadRanges network.pages.length numThreads) schedule i < tolerance
  · obtain ⟨i, hi, hc, hn⟩ := exists_first h
    refine Or.inl ⟨i, hi, hc, ?_⟩
    simp only [par_residual_eq _ _ _ hT] at hc hn
    unfold computeForNetwork
    simp only [if_neg hne]
    rw [par_iterate_of_first network alpha tolerance numThreads hT success0 iterations _ i hi hc hn]
    simp
  · have h' : ∀ i, i < iterations →
        ¬ residual network alpha (threadRanges network.pages.length numThreads) schedule i
          < tolerance := fun i hi hc => h ⟨i, hi, hc⟩
    refine Or.inr ⟨h', ?_⟩
    simp only [par_residual_eq _ _ _ hT] at h'
    unfold computeForNetwork
    simp only [if_neg hne]
    rw [par_iterate_of_forall_not network alpha tolerance numThreads hT success0 iterations _ h']

end MultiThreaded

theorem collect_update_ok (network : Network) (deg : Page → Nat) (order : List Page)
    (hP : order.Perm network.pages) (hnd : network.ids.Nodup) (alpha : ℚ) (i : Nat) :
    ∃ result, collect network (SingleThreaded.update network alpha
        (SingleThreaded.roundsFrom network alpha
          (buildWith network deg order Maps.empty) i)).2 = .ok result ∧
      result.length = network.getSize := by
  have hk := SingleThreaded.roundsFrom_keyed network alpha _ (buildWith_keyed network deg order hP) i
  have hl := (roundsFrom_buildWith_keys_length network deg order hP hnd alpha i).2
  have hu : (SingleThreaded.update network alpha (SingleThreaded.roundsFrom network alpha
      (buildWith network deg order Maps.empty) i)).2.keys.length = network.getSize := by
    rw [SingleThreaded.update, updateOver_snd_keys _ _ _ _ _ _ hk.2, hl]
  exact ⟨_, collect_of_length hu, by simp [HashMap.entries, hu]⟩

theorem collect_prev_ok (network : Network) (deg : Page → Nat) (order : List Page)
    (hP : order.Perm network.pages) (hnd : network.ids.Nodup) (alpha : ℚ) (i : Nat) :
    ∃ result, collect network (SingleThreaded.roundsFrom network alpha
        (buildWith network deg order Maps.empty) i).prev = .ok result ∧
      result.length = network.getSize := by
  have hl := (roundsFrom_buildWith_keys_length network deg order hP hnd alpha i).1
  exact ⟨_, collect_of_length hl, by simp [HashMap.entries, hl]⟩

theorem collect_curr_ok (network : Network) (deg : Page → Nat) (order : List Page)
    (hP : order.Perm network.pages) (hnd : network.ids.Nodup) (alpha : ℚ) (i : Nat) :
    ∃ result, collect network (SingleThreaded.roundsFrom network alpha
        (buildWith network deg order Maps.empty) i).curr = .ok result ∧
      result.length = network.getSize := by
  have hl := (roundsFrom_buildWith_keys_length network deg order hP hnd alpha i).2
  exact ⟨_, collect_of_length hl, by simp [HashMap.entries, hl]⟩

/-! ## C5: convergence and failure -/

/-- C5, amended: for pairwise distinct page identifiers the sequential computer returns
a rank mapping if and only if some round `i < iterations` has a residual strictly below
`tolerance`, and reports a convergence failure otherwise; the parallel computer with
at least one worker returns a rank mapping whenever some round `i < iterations` has a
residual strictly below `tolerance`, and reports a convergence failure otherwise when
its flag `success` starts out false. -/
theorem converges_iff_of_distinct_ids (network : Network) (hnd : network.ids.Nodup)
    (alpha : ℚ) (iterations : Nat) (tolerance : ℚ) (numThreads : Nat) (hT : 1 ≤ numThreads)
    (schedule : List Page) (hS : schedule.Perm network.pages) :
    ((∃ result, SingleThreaded.computeForNetwork network alpha iterations tolerance
          = .ok result) ↔
        ∃ i, i < iterations ∧ SingleThreaded.residual network alpha i < tolerance) ∧
    ((¬ ∃ i, i < iterations ∧ SingleThreaded.residual network alpha i < tolerance) →
      SingleThreaded.computeForNetwork network alpha iterations tolerance
        = .error .notConverged) ∧
    (∀ success0 : Bool,
      (∃ i, i < iterations ∧ MultiThreaded.residual network alpha
        (MultiThreaded.threadRanges network.pages.length numThreads) schedule i < tolerance) →
      ∃ result, MultiThreaded.computeForNetwork numThreads success0 schedule network alpha
        iterations tolerance = .ok result) ∧
    ((¬ ∃ i, i < iterations ∧ MultiThreaded.residual network alpha
        (MultiThreaded.threadRanges network.pages.length numThreads) schedule i < tolerance) →
      MultiThreaded.computeForNetwork numThreads false schedule network alpha
        iterations tolerance = .error .notConverged) := by
  refine ⟨⟨?_, ?_⟩, ?_, ?_, ?_⟩
  · rintro ⟨result, hres⟩
    rcases SingleThreaded.seq_computeForNetwork_cases network alpha iterations tolerance with
      ⟨i, hi, hc, _⟩ | ⟨_, he⟩
    · exact ⟨i, hi, hc⟩
    · rw [he] at hres; cases hres
  · rintro ⟨i, hi, hc⟩
    rcases SingleThreaded.seq_computeForNetwork_cases network alpha iterations tolerance with
      ⟨j, _, _, he⟩ | ⟨hn, _⟩
    · obtain ⟨result, hok, _⟩ := collect_prev_ok network (fun page => page.links.length % 2 ^ 32)
        network.pages (List.Perm.refl _) hnd alpha j
      exact ⟨result, by rw [he]; exact hok⟩
    · exact absurd hc (hn i hi)
  · intro h
    rcases SingleThreaded.seq_computeForNetwork_cases network alpha iterations tolerance with
      ⟨i, hi, hc, _⟩ | ⟨_, he⟩
    · exact absurd ⟨i, hi, hc⟩ h
    · exact he
  · rintro success0 ⟨i, hi, hc⟩
    rcases MultiThreaded.par_computeForNetwork_cases numThreads hT success0 schedule network alpha
      iterations tolerance with ⟨j, _, _, he⟩ | ⟨hn, _⟩
    · obtain ⟨result, hok, _⟩ := collect_update_ok network (fun page => page.links.length)
        schedule hS hnd alpha j
      exact ⟨result, by rw [he]; exact hok⟩
    · exact absurd hc (hn i hi)
  · intro h
    rcases MultiThreaded.par_computeForNetwork_cases numThreads hT false schedule network alpha
      iterations tolerance with ⟨i, hi, hc, _⟩ | ⟨_, he⟩
    · exact absurd ⟨i, hi, hc⟩ h
    · rw [he]; rfl

/-! ## C7: the size of the result -/

/-- C7, amended: for pairwise distinct page identifiers and at least one worker, whenever
a round converges either computer returns a mapping with exactly `network.getSize`
entries, and the size assertion never fails. -/
theorem result_size_of_distinct_ids (network : Network) (hnd : network.ids.Nodup)
    (alpha : ℚ) (iterations : Nat) (tolerance : ℚ) (numThreads : Nat) (hT : 1 ≤ numThreads)
    (schedule : List Page) (hS : schedule.Perm network.pages) :
    ((∃ i, i < iterations ∧ SingleThreaded.residual network alpha i < tolerance) →
      ∃ result, SingleThreaded.computeForNetwork network alpha iterations tolerance
          = .ok result ∧ result.length = network.getSize) ∧
    SingleThreaded.computeForNetwork network alpha iterations tolerance
      ≠ .error .invalidResultSize ∧
    (∀ success0 : Bool,
      ((∃ i, i < iterations ∧ MultiThreaded.residual network alpha
          (MultiThreaded.threadRanges network.pages.length numThreads) schedule i < tolerance) →
        ∃ result, MultiThreaded.computeForNetwork numThreads success0 schedule network alpha
          iterations tolerance = .ok result ∧ result.length = network.getSize) ∧
      MultiThreaded.computeForNetwork numThreads success0 schedule network alpha
        iterations tolerance ≠ .error .invalidResultSize) := by
  refine ⟨?_, ?_, ?_⟩
  · rintro ⟨i, hi, hc⟩
    rcases SingleThreaded.seq_computeForNetwork_cases network alpha iterations tolerance with
      ⟨j, _, _, he⟩ | ⟨hn, _⟩
    · obtain ⟨result, hok, hlen⟩ := collect_prev_ok network
        (fun page => page.links.length % 2 ^ 32) network.pages (List.Perm.refl _) hnd alpha j
      exact ⟨result, by rw [he]; exact hok, hlen⟩
    · exact absurd hc (hn i hi)
  · rcases SingleThreaded.seq_computeForNetwork_cases network alpha iterations tolerance with
      ⟨j, _, _, he⟩ | ⟨_, he⟩
    · obtain ⟨result, hok, _⟩ := collect_prev_ok network
        (fun page => page.links.length % 2 ^ 32) network.pages (List.Perm.refl _) hnd alpha j
      have hok' : collect network (SingleThreaded.mapsAt network alpha j).prev = .ok result := hok
      rw [he, hok']
      intro h; cases h
    · rw [he]
      intro h; cases h
  · intro success0
    have hcases := MultiThreaded.par_computeForNetwork_cases numThreads hT success0 schedule network
      alpha iterations tolerance
    constructor
    · rintro ⟨i, hi, hc⟩
      rcases hcases with ⟨j, _, _, he⟩ | ⟨hn, _⟩
      · obtain ⟨result, hok, hlen⟩ := collect_update_ok network (fun page => page.links.length)
          schedule hS hnd alpha j
        exact ⟨result, by rw [he]; exact hok, hlen⟩
      · exact absurd hc (hn i hi)
    · rcases hcases with ⟨j, _, _, he⟩ | ⟨_, he⟩
      · obtain ⟨result, hok, _⟩ := collect_update_ok network (fun page => page.links.length)
          schedule hS hnd alpha j
        have hok' : collect network (SingleThreaded.update network alpha
          (SingleThreaded.roundsFrom network alpha (MultiThreaded.build network schedule) j)).2
            = .ok result := hok
        rw [he, hok']
        intro h; cases h
      · rw [he]
        cases success0
        · intro h; cases h
        · obtain ⟨result, hok, _⟩ := collect_curr_ok network (fun page => page.links.length)
            schedule hS hnd alpha iterations
          have hok' : collect network (SingleThreaded.roundsFrom network alpha
            (MultiThreaded.build network schedule) iterations).curr = .ok result := hok
          simp only [if_true]
          rw [hok']
          intro h; cases h

/-! ## C10: the denominators of the update -/

theorem EdgesBuilt.source_of_mem {network : Network} {order : List Page} {m : Maps}
    (h : EdgesBuilt network order m) {p q : PageId} (hq : q ∈ m.edges.get p) :
    ∃ page ∈ order, network.getId page = q ∧ p ∈ page.links := by
  rw [h.1 p] at hq
  obtain ⟨l, hl, hql⟩ := List.mem_flatten.1 hq
  obtain ⟨page, hpage, rfl⟩ := List.mem_map.1 hl
  obtain ⟨hc, rfl⟩ := List.mem_replicate.1 hql
  refine ⟨page, hpage, rfl, ?_⟩
  by_contra hp
  exact hc (List.count_eq_zero.2 hp)

/-- C10, amended: for pairwise distinct page identifiers, every `q` in a reversed-edge
list `edges[p]` is the identifier of a page with at least one link, and the out-degree
`numLinks[q]` used as a denominator is at least 1: in the parallel computer always, in
the sequential computer when every page has fewer than `2 ^ 32` links. -/
theorem numLinks_pos_of_distinct_ids (network : Network) (hnd : network.ids.Nodup)
    (alpha : ℚ) (i : Nat) (numThreads : Nat) (hT : 1 ≤ numThreads)
    (schedule : List Page) (hS : schedule.Perm network.pages) :
    ((∀ page ∈ network.pages, page.links.length < 2 ^ 32) →
      ∀ p q, q ∈ (SingleThreaded.mapsAt network alpha i).edges.get p →
        (∃ page ∈ network.pages, network.getId page = q ∧ page.links ≠ []) ∧
        1 ≤ (SingleThreaded.mapsAt network alpha i).numLinks.get q) ∧
    (∀ p q, q ∈ (MultiThreaded.mapsAt network alpha
        (MultiThreaded.threadRanges network.pages.length numThreads) schedule i).edges.get p →
      (∃ page ∈ network.pages, network.getId page = q ∧ page.links ≠ []) ∧
      1 ≤ (MultiThreaded.mapsAt network alpha
        (MultiThreaded.threadRanges network.pages.length numThreads) schedule i).numLinks.get q) := by
  constructor
  · intro hfit p q hq
    have hE : EdgesBuilt network network.pages (SingleThreaded.mapsAt network alpha i) :=
      SingleThreaded.roundsFrom_edgesBuilt (edgesBuilt_buildWith network _ network.pages) alpha i
    obtain ⟨page, hpage, rfl, hp⟩ := hE.source_of_mem hq
    have hne : page.links ≠ [] := List.ne_nil_of_mem hp
    refine ⟨⟨page, hpage, rfl, hne⟩, ?_⟩
    have hdeg : (SingleThreaded.mapsAt network alpha i).numLinks.get (network.getId page) =
        page.links.length % 2 ^ 32 := by
      unfold SingleThreaded.mapsAt
      rw [SingleThreaded.roundsFrom_numLinks, SingleThreaded.seq_build_eq]
      exact buildWith_numLinks_get network _ network.pages Maps.empty hnd page hpage
    rw [hdeg, Nat.mod_eq_of_lt (hfit page hpage)]
    exact List.length_pos.2 hne
  · intro p q hq
    rw [MultiThreaded.mapsAt_eq _ _ _ _ hT] at hq ⊢
    have hE : EdgesBuilt network schedule (SingleThreaded.roundsFrom network alpha
        (MultiThreaded.build network schedule) i) :=
      SingleThreaded.roundsFrom_edgesBuilt (edgesBuilt_buildWith network _ schedule) alpha i
    obtain ⟨page, hpage, rfl, hp⟩ := hE.source_of_mem hq
    have hne : page.links ≠ [] := List.ne_nil_of_mem hp
    refine ⟨⟨page, hS.mem_iff.1 hpage, rfl, hne⟩, ?_⟩
    have hdeg : (SingleThreaded.roundsFrom network alpha
        (MultiThreaded.build network schedule) i).numLinks.get (network.getId page) =
        page.links.length := by
      rw [SingleThreaded.roundsFrom_numLinks, MultiThreaded.par_build_eq]
      exact buildWith_numLinks_get network _ schedule Maps.empty (nodup_ids_of_perm hS hnd)
        page hpage
    rw [hdeg]
    exact List.length_pos.2 hne

/-! ## Tolerance zero -/

namespace SingleThreaded

/-- With `tolerance = 0` the sequential computer reports a convergence failure, for
every network. -/
theorem seq_computeForNetwork_zero_tolerance (network : Network) (alpha : ℚ) (iterations : Nat) :
    computeForNetwork network alpha iterations 0 = .error .notConverged :=
  seq_iterate_of_forall_not network alpha 0 iterations _
    (fun _ _ h => absurd h (not_lt.2 (update_fst_nonneg network alpha _)))

end SingleThreaded

namespace MultiThreaded

/-- With `tolerance = 0` no round converges, and the parallel computer answers according
to the value its flag `success` started with. -/
theorem par_computeForNetwork_zero_tolerance (numThreads : Nat) (hT : 1 ≤ numThreads)
    (success0 : Bool) (schedule : List Page) (network : Network) (alpha : ℚ)
    (iterations : Nat) :
    computeForNetwork numThreads success0 schedule network alpha iterations 0 =
      if success0 then
        collect network
          (SingleThreaded.roundsFrom network alpha (build network schedule) iterations).curr
      else .error .notConverged := by
  have hne : ¬ numThreads = 0 := by omega
  unfold computeForNetwork
  simp only [if_neg hne]
  rw [par_iterate_of_forall_not network alpha 0 numThreads hT success0 iterations _
    (fun _ _ h => absurd h (not_lt.2 (SingleThreaded.update_fst_nonneg network alpha _)))]

end MultiThreaded

/-! ## Evaluation on the example networks -/

theorem length_a : "a".length = 1 := rfl

theorem length_empty : "".length = 0 := rfl

theorem default_rat : (default : ℚ) = 0 := rfl

theorem default_list : (default : List PageId) = [] := rfl

theorem default_nat : (default : Nat) = 0 := rfl

theorem abs_one_eighth : |(1 / 8 : ℚ)| = 1 / 8 := abs_of_pos (by norm_num)

set_option maxRecDepth 4000 in
/-- C2 at the network `twoPages` with `alpha = 1/2`, one iteration and tolerance 10: the
first round converges; the sequential computer returns the ranks `previous` of that
round (1/2 and 1/2), the parallel computer returns the ranks `current` (3/8 and 5/8). -/
theorem sequential_returns_previous_ranks :
    SingleThreaded.computeForNetwork twoPages (1 / 2) 1 10 = .ok [(0, 1 / 2), (1, 1 / 2)] ∧
    MultiThreaded.computeForNetwork 2 false twoPages.pages twoPages (1 / 2) 1 10
      = .ok [(0, 3 / 8), (1, 5 / 8)] := by
  constructor
  · simp [SingleThreaded.computeForNetwork, SingleThreaded.iterate, SingleThreaded.build,
      twoPages, initPage, addEdges, HashMap.set, HashMap.get, HashMap.empty, Maps.empty,
      Network.getId, Network.getSize, SingleThreaded.update, updateOver, pageSum, HashMap.count,
      SingleThreaded.dangleSum, dangleSumOver, collect, HashMap.entries, Function.update_apply,
      length_a, length_empty, default_rat, default_list, default_nat]
    norm_num [abs_one_eighth]
  · simp [MultiThreaded.computeForNetwork, MultiThreaded.iterate, MultiThreaded.build,
      twoPages, initPage, addEdges, HashMap.set, HashMap.get, HashMap.empty, Maps.empty,
      Network.getId, Network.getSize, MultiThreaded.updateAll, MultiThreaded.total,
      MultiThreaded.danglingSum, MultiThreaded.danglingAddition, MultiThreaded.barrierSum,
      MultiThreaded.threadRanges, MultiThreaded.threadRangesFrom, MultiThreaded.slice,
      updateOver, pageSum, HashMap.count, dangleSumOver, collect, HashMap.entries,
      Function.update_apply, length_a, length_empty, default_rat, default_list, default_nat]
    norm_num [abs_one_eighth, Function.update_apply]

set_option maxRecDepth 4000 in
/-- Counterexample to C5: on the network `twins`, whose two pages have the same
identifier, round 0 has residual 0 < 10, yet the sequential computer returns no
mapping: the size assertion fails. -/
theorem twins_converges_without_result :
    SingleThreaded.residual twins (1 / 2) 0 < 10 ∧
    SingleThreaded.computeForNetwork twins (1 / 2) 1 10 = .error .invalidResultSize := by
  constructor
  · simp [SingleThreaded.residual, SingleThreaded.mapsAt, SingleThreaded.roundsFrom,
      SingleThreaded.build,
      twins, initPage, addEdges, HashMap.set, HashMap.get, HashMap.empty, Maps.empty,
      Network.getId, Network.getSize, SingleThreaded.update, updateOver, pageSum, HashMap.count,
      SingleThreaded.dangleSum, dangleSumOver, Function.update_apply,
      length_a, length_empty, default_rat, default_list, default_nat]
    norm_num
  · simp [SingleThreaded.computeForNetwork, SingleThreaded.iterate, SingleThreaded.build,
      twins, initPage, addEdges, HashMap.set, HashMap.get, HashMap.empty, Maps.empty,
      Network.getId, Network.getSize, SingleThreaded.update, updateOver, pageSum, HashMap.count,
      SingleThreaded.dangleSum, dangleSumOver, collect, HashMap.entries, Function.update_apply,
      length_a, length_empty, default_rat, default_list, default_nat]
    norm_num

set_option maxRecDepth 4000 in
/-- Counterexample to C7: on the network `twins`, whose two pages have the same
identifier, round 0 of the parallel computer with two workers converges and the size
assertion fails. -/
theorem twins_size_assertion_fails :
    MultiThreaded.residual twins (1 / 2) (MultiThreaded.threadRanges twins.pages.length 2)
      twins.pages 0 < 10 ∧
    MultiThreaded.computeForNetwork 2 false twins.pages twins (1 / 2) 1 10
      = .error .invalidResultSize := by
  constructor
  · simp [MultiThreaded.residual, MultiThreaded.mapsAt, MultiThreaded.build,
      twins, initPage, addEdges, HashMap.set, HashMap.get, HashMap.empty, Maps.empty,
      Network.getId, Network.getSize, MultiThreaded.updateAll, MultiThreaded.total,
      MultiThreaded.danglingSum, MultiThreaded.danglingAddition, MultiThreaded.barrierSum,
      MultiThreaded.threadRanges, MultiThreaded.threadRangesFrom, MultiThreaded.slice,
      updateOver, pageSum, HashMap.count, dangleSumOver,
      Function.update_apply, length_a, length_empty, default_rat, default_list, default_nat]
    norm_num
  · simp [MultiThreaded.computeForNetwork, MultiThreaded.iterate, MultiThreaded.build,
      twins, initPage, addEdges, HashMap.set, HashMap.get, HashMap.empty, Maps.empty,
      Network.getId, Network.getSize, MultiThreaded.updateAll, MultiThreaded.total,
      MultiThreaded.danglingSum, MultiThreaded.danglingAddition, MultiThreaded.barrierSum,
      MultiThreaded.threadRanges, MultiThreaded.threadRangesFrom, MultiThreaded.slice,
      updateOver, pageSum, HashMap.count, dangleSumOver, collect, HashMap.entries,
      Function.update_apply, length_a, length_empty, default_rat, default_list, default_nat]
    norm_num

set_option maxRecDepth 4000 in
/-- C8 at the network `twoPages` with `alpha = 1/2`, one iteration and tolerance 1/100:
the only round has residual 1/4; the sequential computer reports a convergence failure,
the parallel computer whose flag `success` starts out true returns the ranks of that
round. -/
theorem failure_not_shared :
    SingleThreaded.computeForNetwork twoPages (1 / 2) 1 (1 / 100) = .error .notConverged ∧
    MultiThreaded.computeForNetwork 2 true twoPages.pages twoPages (1 / 2) 1 (1 / 100)
      = .ok [(0, 3 / 8), (1, 5 / 8)] := by
  constructor
  · simp [SingleThreaded.computeForNetwork, SingleThreaded.iterate, SingleThreaded.build,
      twoPages, initPage, addEdges, HashMap.set, HashMap.get, HashMap.empty, Maps.empty,
      Network.getId, Network.getSize, SingleThreaded.update, updateOver, pageSum, HashMap.count,
      SingleThreaded.dangleSum, dangleSumOver, collect, HashMap.entries, Function.update_apply,
      length_a, length_empty, default_rat, default_list, default_nat]
    norm_num [abs_one_eighth]
  · simp [MultiThreaded.computeForNetwork, MultiThreaded.iterate, MultiThreaded.build,
      MultiThreaded.advance, MultiThreaded.copyAll, copyOver,
      twoPages, initPage, addEdges, HashMap.set, HashMap.get, HashMap.empty, Maps.empty,
      Network.getId, Network.getSize, MultiThreaded.updateAll, MultiThreaded.total,
      MultiThreaded.danglingSum, MultiThreaded.danglingAddition, MultiThreaded.barrierSum,
      MultiThreaded.threadRanges, MultiThreaded.threadRangesFrom, MultiThreaded.slice,
      updateOver, pageSum, HashMap.count, dangleSumOver, collect, HashMap.entries,
      Function.update_apply, length_a, length_empty, default_rat, default_list, default_nat]
    norm_num [abs_one_eighth, Function.update_apply]

set_option maxRecDepth 4000 in
/-- C9 at the network `twoPages` with one iteration and tolerance 0: the sequential
computer reports a convergence failure, the parallel computer whose flag `success`
starts out true returns the ranks of the round that did not converge. -/
theorem zero_tolerance_returns_mapping :
    SingleThreaded.computeForNetwork twoPages (1 / 2) 1 0 = .error .notConverged ∧
    MultiThreaded.computeForNetwork 1 true twoPages.pages twoPages (1 / 2) 1 0
      = .ok [(0, 3 / 8), (1, 5 / 8)] := by
  constructor
  · exact SingleThreaded.seq_computeForNetwork_zero_tolerance twoPages (1 / 2) 1
  · simp [MultiThreaded.computeForNetwork, MultiThreaded.iterate, MultiThreaded.build,
      MultiThreaded.advance, MultiThreaded.copyAll, copyOver,
      twoPages, initPage, addEdges, HashMap.set, HashMap.get, HashMap.empty, Maps.empty,
      Network.getId, Network.getSize, MultiThreaded.updateAll, MultiThreaded.total,
      MultiThreaded.danglingSum, MultiThreaded.danglingAddition, MultiThreaded.barrierSum,
      MultiThreaded.threadRanges, MultiThreaded.threadRangesFrom, MultiThreaded.slice,
      updateOver, pageSum, HashMap.count, dangleSumOver, collect, HashMap.entries,
      Function.update_apply, length_a, length_empty, default_rat, default_list, default_nat]
    norm_num [abs_one_eighth, Function.update_apply]

set_option maxRecDepth 4000 in
/-- Counterexample to C10: on the network `sameContent` the identifier 0 is in the
reversed-edge list of the identifier 1, and the out-degree recorded for 0 is 0, in both
computers. -/
theorem sameContent_zero_denominator :
    (0 ∈ (SingleThreaded.mapsAt sameContent (1 / 2) 0).edges.get 1 ∧
      (SingleThreaded.mapsAt sameContent (1 / 2) 0).numLinks.get 0 = 0) ∧
    (0 ∈ (MultiThreaded.mapsAt sameContent (1 / 2)
        (MultiThreaded.threadRanges sameContent.pages.length 2) sameContent.pages 0).edges.get 1 ∧
      (MultiThreaded.mapsAt sameContent (1 / 2)
        (MultiThreaded.threadRanges sameContent.pages.length 2) sameContent.pages 0).numLinks.get 0
        = 0) := by
  simp [SingleThreaded.mapsAt, SingleThreaded.roundsFrom, SingleThreaded.build,
    MultiThreaded.mapsAt, MultiThreaded.build,
    sameContent, initPage, addEdges, HashMap.set, HashMap.get, HashMap.empty, Maps.empty,
    Network.getId, Network.getSize, Function.update_apply,
    length_a, length_empty, default_rat, default_list, default_nat]

/-! ## C6: conservation of the rank mass -/

theorem sum_map_const_rat {α : Type} (l : List α) (c : ℚ) :
    (l.map (fun _ => c)).sum = (l.length : ℚ) * c := by
  induction l with
  | nil => simp
  | cons a l ih => simp [ih]; ring

theorem sum_map_sum_comm {α β : Type} (ps : List α) (qs : List β) (f : α → β → ℚ) :
    (ps.map (fun p => (qs.map (fun q => f p q)).sum)).sum =
      (qs.map (fun q => (ps.map (fun p => f p q)).sum)).sum := by
  induction ps with
  | nil => simp
  | cons p ps ih => simp [ih, List.sum_map_add]

theorem sum_map_indicator (ids : List PageId) (l : PageId) :
    (ids.map (fun k => if l = k then (1 : ℚ) else 0)).sum = (ids.count l : ℚ) := by
  induction ids with
  | nil => simp
  | cons k ids ih =>
    simp only [List.map_cons, List.sum_cons, ih, List.count_cons]
    by_cases h : l = k
    · subst h; simp; ring
    · have h' : ¬ k = l := fun e => h e.symm
      simp [h, h']

theorem sum_map_count (ids : List PageId) (hnd : ids.Nodup) (links : List PageId)
    (hsub : ∀ l ∈ links, l ∈ ids) :
    (ids.map (fun k => (links.count k : ℚ))).sum = (links.length : ℚ) := by
  induction links with
  | nil => simp
  | cons l links ih =>
    have h1 : ∀ k, ((l :: links).count k : ℚ) =
        (links.count k : ℚ) + (if l = k then (1 : ℚ) else 0) := by
      intro k
      rw [List.count_cons]
      by_cases h : l = k
      · simp [h]
      · simp [h]
    simp only [h1, List.sum_map_add, sum_map_indicator]
    rw [ih (fun x hx => hsub x (List.mem_cons_of_mem _ hx)),
      List.count_eq_one_of_mem hnd (hsub l (List.mem_cons_self _ _))]
    simp

theorem danglingMass_eq_sum_ite (network : Network) (prev : HashMap PageRank) (ps : List Page) :
    danglingMass network prev ps =
      (ps.map (fun d => if d.links.isEmpty then prev.get (network.getId d) else 0)).sum := by
  unfold danglingMass
  induction ps with
  | nil => simp
  | cons p ps ih =>
    by_cases hp : p.links.isEmpty = true
    · simp only [List.filter_cons, hp, if_true, List.map_cons, List.sum_cons, ih]
    · simp only [List.filter_cons, hp, Bool.false_eq_true, if_false, List.map_cons,
        List.sum_cons, ih, zero_add]

/-- One round keeps the sum of the ranks equal to 1. -/
theorem sum_roundRank_eq_one {network : Network} {m : Maps}
    (hn : 1 ≤ network.getSize) (hnd : network.ids.Nodup)
    (hlinks : ∀ page ∈ network.pages, ∀ l ∈ page.links, l ∈ network.ids)
    (hdeg : ∀ q ∈ network.pages, m.numLinks.get (network.getId q) = q.links.length)
    (hsum : (network.pages.map (fun p => m.prev.get (network.getId p))).sum = 1)
    (alpha : ℚ) :
    (network.pages.map (fun p => roundRank network alpha m (network.getId p))).sum = 1 := by
  have hn0 : (network.getSize : ℚ) ≠ 0 := by
    have : 0 < network.getSize := hn
    exact_mod_cast this.ne'
  have hin : (network.pages.map (fun p => incoming network m (network.getId p))).sum =
      (network.pages.map (fun q =>
        if q.links.isEmpty then (0 : ℚ) else m.prev.get (network.getId q))).sum := by
    unfold incoming
    rw [sum_map_sum_comm]
    apply congrArg
    apply List.map_congr_left
    intro q hq
    rw [List.sum_map_mul_right]
    have hc := sum_map_count network.ids hnd q.links (hlinks q hq)
    unfold Network.ids at hc
    rw [List.map_map] at hc
    have hc' : (network.pages.map (fun p => (q.links.count (network.getId p) : ℚ))).sum =
        (q.links.length : ℚ) := hc
    rw [hc', hdeg q hq]
    cases hl : q.links with
    | nil => simp
    | cons a l =>
      have : ((a :: l).length : ℚ) ≠ 0 := by
        have hpos : (0 : ℚ) < ((a :: l).length : ℚ) := by
          exact_mod_cast Nat.succ_pos l.length
        exact hpos.ne'
      simp only [List.isEmpty_cons, Bool.false_eq_true, if_false]
      field_simp
  have hD : danglingMass network m.prev network.pages +
      (network.pages.map (fun q =>
        if q.links.isEmpty then (0 : ℚ) else m.prev.get (network.getId q))).sum = 1 := by
    rw [danglingMass_eq_sum_ite, ← List.sum_map_add, ← hsum]
    apply congrArg
    apply List.map_congr_left
    intro q _
    by_cases h : q.links.isEmpty = true
    · simp [h]
    · simp [h]
  have hsplit : (network.pages.map (fun p => roundRank network alpha m (network.getId p))).sum =
      (network.getSize : ℚ) * (alpha * danglingMass network m.prev network.pages
          / (network.getSize : ℚ) + (1 - alpha) / (network.getSize : ℚ)) +
        alpha * (network.pages.map (fun p => incoming network m (network.getId p))).sum := by
    unfold roundRank
    rw [List.sum_map_add, sum_map_const_rat, List.sum_map_mul_left]
    rfl
  rw [hsplit, hin]
  have hD' : (network.pages.map (fun q =>
        if q.links.isEmpty then (0 : ℚ) else m.prev.get (network.getId q))).sum =
      1 - danglingMass network m.prev network.pages := by linarith
  rw [hD']
  field_simp
  ring

theorem pageSum_eq_roundRank_of_mem {network : Network} {order : List Page} {m : Maps}
    (hE : EdgesBuilt network order m) (hP : order.Perm network.pages) (alpha : ℚ)
    (p : Page) (hp : p ∈ network.pages) :
    (SingleThreaded.update network alpha m).2.get (network.getId p) =
      roundRank network alpha m (network.getId p) := by
  have hmem : network.getId p ∈ network.ids := List.mem_map_of_mem _ hp
  rw [SingleThreaded.update_snd_get, if_pos hmem, SingleThreaded.dangleSum_eq,
    pageSum_eq_roundRank hE hP]

/-- The sums of `prev`, of `curr` and of the ranks the update computes are 1 in every
round, when the build loop records the true number of links of every page. -/
theorem rounds_mass (network : Network) (deg : Page → Nat) (order : List Page)
    (hP : order.Perm network.pages) (hn : 1 ≤ network.getSize) (hnd : network.ids.Nodup)
    (hlinks : ∀ page ∈ network.pages, ∀ l ∈ page.links, l ∈ network.ids)
    (hdeg : ∀ q ∈ network.pages, deg q = q.links.length) (alpha : ℚ) (i : Nat) :
    (network.pages.map (fun p => (SingleThreaded.roundsFrom network alpha
        (buildWith network deg order Maps.empty) i).prev.get (network.getId p))).sum = 1 ∧
    (network.pages.map (fun p => (SingleThreaded.roundsFrom network alpha
        (buildWith network deg order Maps.empty) i).curr.get (network.getId p))).sum = 1 ∧
    (network.pages.map (fun p => (SingleThreaded.update network alpha
        (SingleThreaded.roundsFrom network alpha
          (buildWith network deg order Maps.empty) i)).2.get (network.getId p))).sum = 1 := by
  have hn0 : (network.pages.length : ℚ) ≠ 0 := by
    have : 0 < network.pages.length := hn
    exact_mod_cast this.ne'
  have hmem : ∀ p ∈ network.pages, network.getId p ∈ order.map network.getId :=
    fun p hp => List.mem_map_of_mem _ (hP.mem_iff.2 hp)
  have hE : ∀ j, EdgesBuilt network order (SingleThreaded.roundsFrom network alpha
      (buildWith network deg order Maps.empty) j) :=
    fun j => SingleThreaded.roundsFrom_edgesBuilt (edgesBuilt_buildWith network deg order) alpha j
  have hD : ∀ j, ∀ q ∈ network.pages, (SingleThreaded.roundsFrom network alpha
      (buildWith network deg order Maps.empty) j).numLinks.get (network.getId q)
        = q.links.length := by
    intro j q hq
    rw [SingleThreaded.roundsFrom_numLinks,
      buildWith_numLinks_get network deg order Maps.empty (nodup_ids_of_perm hP hnd) q
        (hP.mem_iff.2 hq)]
    exact hdeg q hq
  have hstep : ∀ j, (network.pages.map (fun p => (SingleThreaded.roundsFrom network alpha
        (buildWith network deg order Maps.empty) j).prev.get (network.getId p))).sum = 1 →
      (network.pages.map (fun p => (SingleThreaded.update network alpha
        (SingleThreaded.roundsFrom network alpha
          (buildWith network deg order Maps.empty) j)).2.get (network.getId p))).sum = 1 := by
    intro j hj
    rw [← sum_roundRank_eq_one hn hnd hlinks (hD j) hj alpha]
    apply congrArg
    apply List.map_congr_left
    intro p hp
    exact pageSum_eq_roundRank_of_mem (hE j) hP alpha p hp
  have hinit : (network.pages.map (fun _ : Page => 1 / (network.pages.length : ℚ))).sum = 1 := by
    rw [sum_map_const_rat]
    field_simp
  induction i with
  | zero =>
    have hprev : (network.pages.map (fun p => (SingleThreaded.roundsFrom network alpha
        (buildWith network deg order Maps.empty) 0).prev.get (network.getId p))).sum = 1 := by
      rw [← hinit]
      apply congrArg
      apply List.map_congr_left
      intro p hp
      simp only [SingleThreaded.roundsFrom]
      rw [buildWith_prev_get, if_pos (hmem p hp)]
    refine ⟨hprev, ?_, hstep 0 hprev⟩
    rw [← hinit]
    apply congrArg
    apply List.map_congr_left
    intro p hp
    simp only [SingleThreaded.roundsFrom]
    rw [buildWith_curr_get, if_pos (hmem p hp)]
  | succ i ih =>
    have hcurr : (network.pages.map (fun p => (SingleThreaded.roundsFrom network alpha
        (buildWith network deg order Maps.empty) (i + 1)).curr.get (network.getId p))).sum = 1 := by
      rw [← ih.2.2]
      rfl
    have hprev : (network.pages.map (fun p => (SingleThreaded.roundsFrom network alpha
        (buildWith network deg order Maps.empty) (i + 1)).prev.get (network.getId p))).sum = 1 := by
      rw [← ih.2.2]
      apply congrArg
      apply List.map_congr_left
      intro p hp
      have hid : network.getId p ∈ network.ids := List.mem_map_of_mem _ hp
      simp only [SingleThreaded.roundsFrom]
      rw [SingleThreaded.advance_prev_get, if_pos hid]
    exact ⟨hprev, hcurr, hstep (i + 1) hprev⟩

theorem collect_eq_ok {network : Network} {ranks : HashMap PageRank}
    {result : List PageIdAndRank} (h : collect network ranks = .ok result) :
    result = ranks.entries := by
  unfold collect at h
  simp only [] at h
  split_ifs at h
  exact (Except.ok.inj h).symm

theorem entries_sum (network : Network) (ranks : HashMap PageRank) (order : List Page)
    (hP : order.Perm network.pages) (hk : ranks.keys = order.map network.getId) :
    (ranks.entries.map Prod.snd).sum =
      (network.pages.map (fun p => ranks.get (network.getId p))).sum := by
  unfold HashMap.entries
  rw [hk, List.map_map, List.map_map]
  exact (hP.map _).sum_eq

theorem roundsFrom_buildWith_keys (network : Network) (deg : Page → Nat)
    (order : List Page) (hP : order.Perm network.pages) (hnd : network.ids.Nodup)
    (alpha : ℚ) (i : Nat) :
    (SingleThreaded.roundsFrom network alpha
      (buildWith network deg order Maps.empty) i).prev.keys = order.map network.getId ∧
    (SingleThreaded.roundsFrom network alpha
      (buildWith network deg order Maps.empty) i).curr.keys = order.map network.getId ∧
    (SingleThreaded.update network alpha (SingleThreaded.roundsFrom network alpha
      (buildWith network deg order Maps.empty) i)).2.keys = order.map network.getId := by
  have hk := SingleThreaded.roundsFrom_keys network alpha _ (buildWith_keyed network deg order hP) i
  have hkd := SingleThreaded.roundsFrom_keyed network alpha _ (buildWith_keyed network deg order hP) i
  have hb := buildWith_keys network deg order Maps.empty rfl rfl
  have hl := buildWith_prev_keys network deg order (nodup_ids_of_perm hP hnd)
  refine ⟨by rw [hk.1, hl], by rw [hk.2, hb.1, hl], ?_⟩
  rw [SingleThreaded.update, updateOver_snd_keys _ _ _ _ _ _ hkd.2, hk.2, hb.1, hl]

theorem linkedPair_ids (L : List PageId) : (linkedPair L).ids = [0, 1] := rfl

theorem linkedPair_nodup (L : List PageId) : (linkedPair L).ids.Nodup := by
  rw [linkedPair_ids]
  decide

theorem linkedPair_getSize (L : List PageId) : (linkedPair L).getSize = 2 := rfl

theorem linkedPair_update (L : List PageId) (p : Page) (hp : p ∈ (linkedPair L).pages) :
    (SingleThreaded.update (linkedPair L) (1 / 2)
        (SingleThreaded.mapsAt (linkedPair L) (1 / 2) 0)).2.get ((linkedPair L).getId p) =
      roundRank (linkedPair L) (1 / 2) (SingleThreaded.mapsAt (linkedPair L) (1 / 2) 0)
        ((linkedPair L).getId p) :=
  pageSum_eq_roundRank_of_mem
    (SingleThreaded.roundsFrom_edgesBuilt
      (edgesBuilt_buildWith (linkedPair L) _ (linkedPair L).pages) (1 / 2) 0)
    (List.Perm.refl _) (1 / 2) p hp

theorem linkedPair_prev (L : List PageId) (k : PageId) (hk : k ∈ (linkedPair L).ids) :
    (SingleThreaded.mapsAt (linkedPair L) (1 / 2) 0).prev.get k = 1 / 2 := by
  have h := buildWith_prev_get (linkedPair L) (fun page => page.links.length % 2 ^ 32) k
    (linkedPair L).pages Maps.empty
  have hk' : k ∈ (linkedPair L).pages.map (linkedPair L).getId := hk
  rw [if_pos hk'] at h
  have e : (SingleThreaded.mapsAt (linkedPair L) (1 / 2) 0).prev.get k =
      1 / (((linkedPair L).pages.length : ℕ) : ℚ) := h
  rw [e]
  have : (linkedPair L).pages.length = 2 := rfl
  rw [this]
  norm_num

theorem linkedPair_numLinks_zero (L : List PageId) (hL : L.length = 2 ^ 32) :
    (SingleThreaded.mapsAt (linkedPair L) (1 / 2) 0).numLinks.get 0 = 0 := by
  have h := buildWith_numLinks_get (linkedPair L) (fun page => page.links.length % 2 ^ 32)
    (linkedPair L).pages Maps.empty (linkedPair_nodup L) ⟨"", L⟩ (List.mem_cons_self _ _)
  have e : (SingleThreaded.mapsAt (linkedPair L) (1 / 2) 0).numLinks.get 0 =
      L.length % 2 ^ 32 := h
  rw [e, hL, Nat.mod_self]

theorem linkedPair_numLinks_one (L : List PageId) :
    (SingleThreaded.mapsAt (linkedPair L) (1 / 2) 0).numLinks.get 1 = 1 :=
  buildWith_numLinks_get (linkedPair L) (fun page => page.links.length % 2 ^ 32)
    (linkedPair L).pages Maps.empty (linkedPair_nodup L) ⟨"a", [0]⟩
    (List.mem_cons_of_mem _ (List.mem_cons_self _ _))

/-- On `linkedPair L` with `2 ^ 32` links, all to the second page, the ranks `current`
of round 0 of the sequential computer sum to 3/4. -/
theorem linkedPair_mass (L : List PageId) (hL : L.length = 2 ^ 32) (hall : ∀ l ∈ L, l = 1) :
    ((linkedPair L).pages.map (fun p =>
      (SingleThreaded.update (linkedPair L) (1 / 2)
        (SingleThreaded.mapsAt (linkedPair L) (1 / 2) 0)).2.get ((linkedPair L).getId p))).sum
      = 3 / 4 := by
  have e : (linkedPair L).pages = [⟨"", L⟩, ⟨"a", [0]⟩] := rfl
  have h0 := linkedPair_update L ⟨"", L⟩ (List.mem_cons_self _ _)
  have h1 := linkedPair_update L ⟨"a", [0]⟩ (List.mem_cons_of_mem _ (List.mem_cons_self _ _))
  have p0 := linkedPair_prev L 0 (by rw [linkedPair_ids]; decide)
  have p1 := linkedPair_prev L 1 (by rw [linkedPair_ids]; decide)
  have g0 : (linkedPair L).getId ⟨"", L⟩ = 0 := rfl
  have g1 : (linkedPair L).getId ⟨"a", [0]⟩ = 1 := rfl
  have hne : L.isEmpty = false := by
    cases L with
    | nil => simp at hL
    | cons a l => rfl
  have hc0 : L.count 0 = 0 :=
    List.count_eq_zero.2 (fun h => absurd (hall 0 h) (by decide))
  rw [e]
  simp only [List.map_cons, List.map_nil, List.sum_cons, List.sum_nil]
  rw [h0, h1]
  simp only [roundRank, incoming, danglingMass, e, List.map_cons, List.map_nil, List.sum_cons,
    List.sum_nil, List.filter_cons, List.filter_nil, hne, g0, g1, p0, p1, linkedPair_getSize,
    linkedPair_numLinks_zero L hL, linkedPair_numLinks_one, hc0,
    List.isEmpty_cons, Bool.false_eq_true, if_false]
  norm_num

/-- C6 at the network `manyLinks`: it has two pages with distinct
identifiers and every link target is a page, yet after round 0 of the sequential
computer the ranks `current` sum to 3/4: the out-degree `2 ^ 32` of the first page is
recorded as 0 in the `uint32_t` map `numLinks`. -/
theorem manyLinks_mass_lost :
    1 ≤ manyLinks.getSize ∧ manyLinks.ids.Nodup ∧
    (∀ page ∈ manyLinks.pages, ∀ l ∈ page.links, l ∈ manyLinks.ids) ∧
    (manyLinks.pages.map (fun p =>
      (SingleThreaded.update manyLinks (1 / 2)
        (SingleThreaded.mapsAt manyLinks (1 / 2) 0)).2.get (manyLinks.getId p))).sum = 3 / 4 := by
  refine ⟨?_, linkedPair_nodup _, ?_,
    linkedPair_mass _ (List.length_replicate _ _) (fun l hl => List.eq_of_mem_replicate hl)⟩
  · rw [manyLinks, linkedPair_getSize]
    decide
  · intro page hpage l hl
    rw [manyLinks, linkedPair_ids]
    have hmem : page ∈ [(⟨"", List.replicate (2 ^ 32) 1⟩ : Page), ⟨"a", [0]⟩] := hpage
    rcases List.mem_cons.1 hmem with rfl | hmem'
    · rw [List.eq_of_mem_replicate hl]; decide
    · have hp : page = ⟨"a", [0]⟩ := List.mem_singleton.1 hmem'
      subst hp
      rw [List.mem_singleton.1 hl]; decide

/-- Conservation of the rank mass: for a network with at least one page, pairwise distinct page identifiers
and every link target the identifier of a page, the ranks `previous` sum to 1 right
after initialisation and at the start of every round, the ranks `current` sum to 1 after
every round, and the ranks of every returned result sum to 1: in the parallel computer
always, in the sequential computer when every page has fewer than `2 ^ 32` links. -/
theorem mass_conservation (network : Network) (hn : 1 ≤ network.getSize)
    (hnd : network.ids.Nodup)
    (hlinks : ∀ page ∈ network.pages, ∀ l ∈ page.links, l ∈ network.ids)
    (alpha : ℚ) (iterations : Nat) (tolerance : ℚ) (numThreads : Nat) (hT : 1 ≤ numThreads)
    (schedule : List Page) (hS : schedule.Perm network.pages) :
    ((∀ page ∈ network.pages, page.links.length < 2 ^ 32) →
      (∀ i, (network.pages.map (fun p =>
            (SingleThreaded.mapsAt network alpha i).prev.get (network.getId p))).sum = 1 ∧
          (network.pages.map (fun p =>
            (SingleThreaded.update network alpha
              (SingleThreaded.mapsAt network alpha i)).2.get (network.getId p))).sum = 1) ∧
      (∀ result, SingleThreaded.computeForNetwork network alpha iterations tolerance
          = .ok result → (result.map Prod.snd).sum = 1)) ∧
    ((∀ i, (network.pages.map (fun p =>
          (MultiThreaded.mapsAt network alpha
            (MultiThreaded.threadRanges network.pages.length numThreads) schedule i).prev.get
            (network.getId p))).sum = 1 ∧
        (network.pages.map (fun p =>
          (MultiThreaded.updateAll network alpha
            (MultiThreaded.threadRanges network.pages.length numThreads)
            (MultiThreaded.mapsAt network alpha
              (MultiThreaded.threadRanges network.pages.length numThreads) schedule i)).2.get
            (network.getId p))).sum = 1) ∧
      (∀ success0 result, MultiThreaded.computeForNetwork numThreads success0 schedule network
          alpha iterations tolerance = .ok result → (result.map Prod.snd).sum = 1)) := by
  constructor
  · intro hfit
    have hdeg : ∀ q ∈ network.pages,
        (fun page : Page => page.links.length % 2 ^ 32) q = q.links.length :=
      fun q hq => Nat.mod_eq_of_lt (hfit q hq)
    have hm := rounds_mass network (fun page => page.links.length % 2 ^ 32) network.pages
      (List.Perm.refl _) hn hnd hlinks hdeg alpha
    refine ⟨fun i => ⟨(hm i).1, (hm i).2.2⟩, ?_⟩
    intro result hres
    rcases SingleThreaded.seq_computeForNetwork_cases network alpha iterations tolerance with
      ⟨i, _, _, he⟩ | ⟨_, he⟩
    · rw [he] at hres
      rw [collect_eq_ok hres]
      exact (entries_sum network _ network.pages (List.Perm.refl _)
        (roundsFrom_buildWith_keys network _ network.pages (List.Perm.refl _) hnd alpha i).1).trans
        (hm i).1
    · rw [he] at hres; cases hres
  · have hdeg : ∀ q ∈ network.pages,
        (fun page : Page => page.links.length) q = q.links.length := fun _ _ => rfl
    have hm := rounds_mass network (fun page => page.links.length) schedule
      hS hn hnd hlinks hdeg alpha
    refine ⟨fun i => ?_, ?_⟩
    · rw [MultiThreaded.mapsAt_eq _ _ _ _ hT, MultiThreaded.updateAll_snd _ _ _ _ hT]
      exact ⟨(hm i).1, (hm i).2.2⟩
    · intro success0 result hres
      rcases MultiThreaded.par_computeForNetwork_cases numThreads hT success0 schedule network alpha
        iterations tolerance with ⟨i, _, _, he⟩ | ⟨_, he⟩
      · rw [he] at hres
        rw [collect_eq_ok hres]
        exact (entries_sum network _ schedule hS
          (roundsFrom_buildWith_keys network _ schedule hS hnd alpha i).2.2).trans (hm i).2.2
      · rw [he] at hres
        cases success0
        · cases hres
        · simp only [if_true] at hres
          rw [collect_eq_ok hres]
          exact (entries_sum network _ schedule hS
            (roundsFrom_buildWith_keys network _ schedule hS hnd alpha iterations).2.1).trans
            (hm iterations).2.1

/-! ## The barrier -/

namespace System

theorem init_inv (next : Nat → Nat → Call) (N : Nat) (hN : 1 ≤ N) : Inv next N (init N) 0 := by
  have hc : (init N).current N = ∅ := by
    simp [current, init]
  refine ⟨rfl, rfl, ?_, hN, ?_, ?_, ?_, ?_, ?_, ?_⟩
  · rw [hc]; simp [init, Barrier.new]
  · rw [hc]; simp [init, Barrier.new]
  · intro h; omega
  · intro i _ _; rfl
  · intro i _ h; simp [init] at h
  · intro i _ h; simp [init] at h
  · intro i _ r hr; simp [init] at hr

theorem decrement_eq (c : Nat) (h1 : 1 ≤ c) (h2 : c < 2 ^ 32) : Barrier.decrement c = c - 1 := by
  unfold Barrier.decrement
  have e : c + 2 ^ 32 - 1 = (c - 1) + 2 ^ 32 := by omega
  rw [e, Nat.add_mod_right, Nat.mod_eq_of_lt (by omega)]

theorem current_update_waiting (s : System) (N i : Nat) (hi : i < N) (b : Barrier)
    (hb : b.generation = s.barrier.generation) (ret : List (Option ℚ)) :
    current ⟨b, Function.update s.workers i ⟨Status.waiting s.barrier.generation, ret⟩⟩ N =
      insert i (s.current N) := by
  ext j
  simp only [current, Finset.mem_filter, Finset.mem_range, Finset.mem_insert, hb,
    Function.update_apply]
  by_cases hj : j = i
  · subst hj; simp [hi]
  · simp [hj]

theorem current_update_running (s : System) (N i : Nat) (b : Barrier)
    (hb : b.generation = s.barrier.generation) (ret : List (Option ℚ)) :
    current ⟨b, Function.update s.workers i ⟨Status.running, ret⟩⟩ N = (s.current N).erase i := by
  ext j
  simp only [current, Finset.mem_filter, Finset.mem_range, Finset.mem_erase, hb,
    Function.update_apply]
  by_cases hj : j = i
  · subst hj; simp
  · simp [hj]

theorem not_mem_current_of_running (s : System) (N i : Nat)
    (h : (s.workers i).status = Status.running) : i ∉ s.current N := by
  simp [current, h]

theorem flip_gen (R : Nat) : (!decide (R % 2 = 1)) = decide ((R + 1) % 2 = 1) := by
  rcases Nat.mod_two_eq_zero_or_one R with h | h
  · have : (R + 1) % 2 = 1 := by omega
    simp [h, this]
  · have : (R + 1) % 2 = 0 := by omega
    simp [h, this]

theorem arrive_of_ne_zero (s : System) (i : Nat) (c : Call)
    (h : Barrier.decrement s.barrier.counter ≠ 0) :
    arrive s i c =
      { barrier := { s.barrier with
          count_double := s.barrier.count_double + c.diff
          counter := Barrier.decrement s.barrier.counter }
        workers := Function.update s.workers i
          ⟨Status.waiting s.barrier.generation, (s.workers i).returned⟩ } := by
  simp [arrive, h]

theorem arrive_of_eq_zero (s : System) (i : Nat) (c : Call)
    (h : Barrier.decrement s.barrier.counter = 0) :
    arrive s i c =
      { barrier :=
          { num_threads := s.barrier.num_threads
            counter := s.barrier.num_threads
            generation := !s.barrier.generation
            result_double := s.barrier.count_double + c.diff
            count_double := 0 }
        workers := Function.update s.workers i
          ⟨Status.running,
            (s.workers i).returned ++ [handBack c (s.barrier.count_double + c.diff)]⟩ } := by
  simp [arrive, h, Barrier.notify_all]

/-- A worker that arrives and blocks. -/
theorem arrive_block_inv (next : Nat → Nat → Call) (N : Nat) (hN : N < 2 ^ 32) (s : System)
    (R : Nat) (h : Inv next N s R) (i : Nat) (hi : i < N)
    (hst : (s.workers i).status = Status.running)
    (hd : Barrier.decrement s.barrier.counter ≠ 0) :
    Inv next N (arrive s i (next i (s.workers i).returned.length)) R := by
  have hlen := h.run i hi hst
  have hnot := not_mem_current_of_running s N i hst
  have hcard := Finset.card_le_card (Finset.filter_subset
    (fun j => (s.workers j).status = Status.waiting s.barrier.generation) (Finset.range N))
  have hc1 : s.barrier.counter ≤ N := by have := h.cnt; omega
  have hdec := decrement_eq s.barrier.counter h.pos (by omega)
  rw [arrive_of_ne_zero s i _ hd]
  rw [hdec] at hd ⊢
  clear hdec
  have hcur := current_update_waiting s N i hi
    { s.barrier with
      count_double := s.barrier.count_double + (next i (s.workers i).returned.length).diff
      counter := s.barrier.counter - 1 } rfl (s.workers i).returned
  refine ⟨h.num, h.gen, ?_, ?_, ?_, h.res, ?_, ?_, ?_, ?_⟩
  · rw [hcur, Finset.card_insert_of_not_mem hnot]
    have := h.cnt
    have := h.pos
    simp only []
    omega
  · simp only []
    omega
  · rw [hcur, Finset.sum_insert hnot, ← h.acc, hlen]
    simp only []
    ring
  · intro j hj hs
    by_cases hji : j = i
    · subst hji; simp at hs
    · simp only [Function.update_apply, hji, if_false] at hs ⊢
      exact h.run j hj hs
  · intro j hj hs
    by_cases hji : j = i
    · subst hji; simpa using hlen
    · simp only [Function.update_apply, hji, if_false] at hs ⊢
      exact h.now j hj hs
  · intro j hj hs
    by_cases hji : j = i
    · subst hji; simp at hs
    · simp only [Function.update_apply, hji, if_false] at hs ⊢
      exact h.old j hj hs
  · intro j hj r hr
    by_cases hji : j = i
    · subst hji
      simp only [Function.update_same] at hr ⊢
      exact h.hist j hj r hr
    · simp only [Function.update_apply, hji, if_false] at hr ⊢
      exact h.hist j hj r hr

theorem bool_ne_not (g : Bool) : Status.waiting g ≠ Status.waiting (!g) := by
  cases g <;> decide

/-- The worker whose arrival completes the round. -/
theorem arrive_last_inv (next : Nat → Nat → Call) (N : Nat) (hN1 : 1 ≤ N) (hN : N < 2 ^ 32)
    (s : System) (R : Nat) (h : Inv next N s R) (i : Nat) (hi : i < N)
    (hst : (s.workers i).status = Status.running)
    (hd : Barrier.decrement s.barrier.counter = 0) :
    Inv next N (arrive s i (next i (s.workers i).returned.length)) (R + 1) := by
  have hlen := h.run i hi hst
  have hnot := not_mem_current_of_running s N i hst
  have hcard := Finset.card_le_card (Finset.filter_subset
    (fun j => (s.workers j).status = Status.waiting s.barrier.generation) (Finset.range N))
  have hc1 : s.barrier.counter ≤ N := by have := h.cnt; omega
  have hdec := decrement_eq s.barrier.counter h.pos (by omega)
  rw [arrive_of_eq_zero s i _ hd]
  rw [hdec] at hd
  clear hdec
  have hone : s.barrier.counter = 1 := by have := h.pos; omega
  have hsub : s.current N ⊆ (Finset.range N).erase i := by
    intro j hj
    rw [Finset.mem_erase]
    refine ⟨fun e => hnot (e ▸ hj), ?_⟩
    exact (Finset.mem_filter.1 hj).1
  have hcur : s.current N = (Finset.range N).erase i := by
    apply Finset.eq_of_subset_of_card_le hsub
    rw [Finset.card_erase_of_mem (Finset.mem_range.2 hi), Finset.card_range]
    have := h.cnt
    omega
  have hwait : ∀ j, j < N → j ≠ i → (s.workers j).status = Status.waiting s.barrier.generation := by
    intro j hj hji
    have : j ∈ s.current N := by
      rw [hcur, Finset.mem_erase]
      exact ⟨hji, Finset.mem_range.2 hj⟩
    exact (Finset.mem_filter.1 this).2
  have hsum : s.barrier.count_double + (next i (s.workers i).returned.length).diff =
      roundSum next N R := by
    rw [h.acc, hcur, hlen]
    unfold roundSum
    exact Finset.sum_erase_add _ _ (Finset.mem_range.2 hi)
  have hempty : current
      { barrier :=
          { num_threads := s.barrier.num_threads
            counter := s.barrier.num_threads
            generation := !s.barrier.generation
            result_double := s.barrier.count_double + (next i (s.workers i).returned.length).diff
            count_double := 0 }
        workers := Function.update s.workers i
          ⟨Status.running, (s.workers i).returned ++
            [handBack (next i (s.workers i).returned.length)
              (s.barrier.count_double + (next i (s.workers i).returned.length).diff)]⟩ } N
      = ∅ := by
    apply Finset.filter_eq_empty_iff.2
    intro j hj
    have hjN := Finset.mem_range.1 hj
    by_cases hji : j = i
    · subst hji; simp
    · simp only [Function.update_apply, hji, if_false]
      rw [hwait j hjN hji]
      exact bool_ne_not _
  refine ⟨h.num, ?_, ?_, ?_, ?_, ?_, ?_, ?_, ?_, ?_⟩
  · simp only []
    rw [h.gen]
    exact flip_gen R
  · rw [hempty]
    simp only [Finset.card_empty]
    exact h.num
  · simp only []
    rw [h.num]
    exact hN1
  · rw [hempty]
    simp
  · intro _
    simp only [Nat.add_sub_cancel]
    exact hsum
  · intro j hj hs
    by_cases hji : j = i
    · subst hji
      simp only [Function.update_same, List.length_append, List.length_singleton]
      omega
    · simp only [Function.update_apply, hji, if_false] at hs
      rw [hwait j hj hji] at hs
      cases hs
  · intro j hj hs
    by_cases hji : j = i
    · subst hji; simp at hs
    · simp only [Function.update_apply, hji, if_false] at hs
      rw [hwait j hj hji] at hs
      exact absurd hs (bool_ne_not _)
  · intro j hj hs
    by_cases hji : j = i
    · subst hji; simp at hs
    · simp only [Function.update_apply, hji, if_false] at hs ⊢
      rw [h.now j hj (hwait j hj hji)]
  · intro j hj r hr
    by_cases hji : j = i
    · subst hji
      simp only [Function.update_same, List.length_append, List.length_singleton] at hr ⊢
      by_cases hrR : r < (s.workers j).returned.length
      · rw [List.getElem?_append_left hrR]
        exact h.hist j hj r hrR
      · have hr' : r = (s.workers j).returned.length := by omega
        subst hr'
        rw [List.getElem?_append_right (le_refl _)]
        simp only [Nat.sub_self, List.getElem?_cons_zero]
        rw [hsum, hlen]
    · simp only [Function.update_apply, hji, if_false] at hr ⊢
      exact h.hist j hj r hr

/-- A blocked worker that leaves `cv.wait`. -/
theorem wake_inv (next : Nat → Nat → Call) (N : Nat) (s : System) (R : Nat)
    (h : Inv next N s R) (i : Nat) (hi : i < N) (g : Bool)
    (hst : (s.workers i).status = Status.waiting g) (hg : g ≠ s.barrier.generation) :
    Inv next N
      { s with
        workers := Function.update s.workers i
          { status := Status.running
            returned := (s.workers i).returned ++
              [handBack (next i (s.workers i).returned.length) s.barrier.result_double] } } R := by
  have hg' : g = !s.barrier.generation := by
    cases g <;> cases hb : s.barrier.generation <;> simp_all
  rw [hg'] at hst
  have hlen := h.old i hi hst
  have hnot : i ∉ s.current N := by
    intro hmem
    have := (Finset.mem_filter.1 hmem).2
    rw [hst] at this
    exact bool_ne_not _ this.symm
  have hres : s.barrier.result_double = roundSum next N (s.workers i).returned.length := by
    rw [h.res (by omega)]
    congr 1
    omega
  have hcur := current_update_running s N i s.barrier rfl
    ((s.workers i).returned ++
      [handBack (next i (s.workers i).returned.length) s.barrier.result_double])
  rw [Finset.erase_eq_of_not_mem hnot] at hcur
  refine ⟨h.num, h.gen, ?_, h.pos, ?_, h.res, ?_, ?_, ?_, ?_⟩
  · rw [hcur]; exact h.cnt
  · rw [hcur]; exact h.acc
  · intro j hj hs
    by_cases hji : j = i
    · subst hji
      simp only [Function.update_same, List.length_append, List.length_singleton]
      exact hlen
    · simp only [Function.update_apply, hji, if_false] at hs ⊢
      exact h.run j hj hs
  · intro j hj hs
    by_cases hji : j = i
    · subst hji; simp at hs
    · simp only [Function.update_apply, hji, if_false] at hs ⊢
      exact h.now j hj hs
  · intro j hj hs
    by_cases hji : j = i
    · subst hji; simp at hs
    · simp only [Function.update_apply, hji, if_false] at hs ⊢
      exact h.old j hj hs
  · intro j hj r hr
    by_cases hji : j = i
    · subst hji
      simp only [Function.update_same, List.length_append, List.length_singleton] at hr ⊢
      by_cases hrR : r < (s.workers j).returned.length
      · rw [List.getElem?_append_left hrR]
        exact h.hist j hj r hrR
      · have hr' : r = (s.workers j).returned.length := by omega
        subst hr'
        rw [List.getElem?_append_right (le_refl _)]
        simp only [Nat.sub_self, List.getElem?_cons_zero]
        rw [hres]
    · simp only [Function.update_apply, hji, if_false] at hr ⊢
      exact h.hist j hj r hr

/-- Every step keeps the invariant. -/
theorem step_inv (next : Nat → Nat → Call) (N : Nat) (hN1 : 1 ≤ N) (hN : N < 2 ^ 32)
    (s : System) (R : Nat) (h : Inv next N s R) (i : Nat) :
    ∃ R', Inv next N (step next s i) R' := by
  unfold step
  by_cases hi : i < s.barrier.num_threads
  · rw [if_pos hi]
    have hiN : i < N := by rw [← h.num]; exact hi
    cases hst : (s.workers i).status with
    | running =>
      simp only []
      by_cases hd : Barrier.decrement s.barrier.counter = 0
      · exact ⟨R + 1, arrive_last_inv next N hN1 hN s R h i hiN hst hd⟩
      · exact ⟨R, arrive_block_inv next N hN s R h i hiN hst hd⟩
    | waiting g =>
      simp only []
      by_cases hg : g = s.barrier.generation
      · simp only [hg, bne_self_eq_false, Bool.false_eq_true, if_false]
        exact ⟨R, h⟩
      · have hb : (g != s.barrier.generation) = true := by simpa using hg
        rw [if_pos hb]
        exact ⟨R, wake_inv next N s R h i hiN g hst hg⟩
  · rw [if_neg hi]
    exact ⟨R, h⟩

/-- Every state a schedule reaches from the initial state satisfies the invariant. -/
theorem run_inv (next : Nat → Nat → Call) (N : Nat) (hN1 : 1 ≤ N) (hN : N < 2 ^ 32)
    (schedule : List Nat) : ∀ (s : System) (R : Nat), Inv next N s R →
    ∃ R', Inv next N (run next s schedule) R' := by
  induction schedule with
  | nil => intro s R h; exact ⟨R, h⟩
  | cons i schedule ih =>
    intro s R h
    obtain ⟨R1, h1⟩ := step_inv next N hN1 hN s R h i
    exact ih _ R1 h1

theorem run_append (next : Nat → Nat → Call) (s : System) (l1 l2 : List Nat) :
    run next s (l1 ++ l2) = run next (run next s l1) l2 := by
  simp [run, List.foldl_append]

/-- Some worker can always take a step: the barrier does not deadlock. -/
theorem exists_enabled (next : Nat → Nat → Call) (N : Nat) (s : System) (R : Nat)
    (h : Inv next N s R) : ∃ i, i < N ∧ s.enabled i = true := by
  by_contra hcon
  have hall : ∀ i, i < N → (s.workers i).status = Status.waiting s.barrier.generation := by
    intro i hi
    have hne : ¬ s.enabled i = true := fun he => hcon ⟨i, hi, he⟩
    unfold enabled at hne
    cases hst : (s.workers i).status with
    | running => rw [hst] at hne; simp at hne
    | waiting g =>
      rw [hst] at hne
      simp only [bne_iff_ne, ne_eq, not_not] at hne
      rw [hne]
  have hcur : s.current N = Finset.range N := by
    apply Finset.filter_true_of_mem
    intro i hi
    exact hall i (Finset.mem_range.1 hi)
  have := h.cnt
  have := h.pos
  rw [hcur, Finset.card_range] at *
  omega

theorem progress_update (s : System) (N i : Nat) (hi : i < N) (b : Barrier) (w : Worker) :
    progress ⟨b, Function.update s.workers i w⟩ N + (s.workers i).steps =
      s.progress N + w.steps := by
  unfold progress
  rw [← Finset.add_sum_erase _ _ (Finset.mem_range.2 hi),
    ← Finset.add_sum_erase (Finset.range N) (fun j => (s.workers j).steps)
      (Finset.mem_range.2 hi)]
  have hrest : ∑ j in (Finset.range N).erase i,
      ((⟨b, Function.update s.workers i w⟩ : System).workers j).steps =
      ∑ j in (Finset.range N).erase i, (s.workers j).steps := by
    apply Finset.sum_congr rfl
    intro j hj
    have hji : j ≠ i := (Finset.mem_erase.1 hj).1
    simp only [Function.update_apply, hji, if_false]
  rw [hrest]
  simp only [Function.update_same]
  omega

/-- A step of a worker that can take one is a step forward. -/
theorem step_progress (next : Nat → Nat → Call) (N : Nat) (s : System) (R : Nat)
    (h : Inv next N s R) (i : Nat) (hi : i < N) (he : s.enabled i = true) :
    s.progress N + 1 ≤ (step next s i).progress N := by
  have hi' : i < s.barrier.num_threads := by rw [h.num]; exact hi
  unfold step
  rw [if_pos hi']
  unfold enabled at he
  cases hst : (s.workers i).status with
  | running =>
    simp only []
    have hold : (s.workers i).steps = 2 * (s.workers i).returned.length := by
      simp [Worker.steps, hst]
    by_cases hd : Barrier.decrement s.barrier.counter = 0
    · rw [arrive_of_eq_zero s i _ hd]
      have := progress_update s N i hi
        { num_threads := s.barrier.num_threads
          counter := s.barrier.num_threads
          generation := !s.barrier.generation
          result_double := s.barrier.count_double + (next i (s.workers i).returned.length).diff
          count_double := 0 }
        ⟨Status.running, (s.workers i).returned ++
          [handBack (next i (s.workers i).returned.length)
            (s.barrier.count_double + (next i (s.workers i).returned.length).diff)]⟩
      simp only [Worker.steps, List.length_append, List.length_singleton, if_true] at this hold
      omega
    · rw [arrive_of_ne_zero s i _ hd]
      have := progress_update s N i hi
        { s.barrier with
          count_double := s.barrier.count_double + (next i (s.workers i).returned.length).diff
          counter := Barrier.decrement s.barrier.counter }
        ⟨Status.waiting s.barrier.generation, (s.workers i).returned⟩
      have hnew : (⟨Status.waiting s.barrier.generation, (s.workers i).returned⟩ : Worker).steps =
          2 * (s.workers i).returned.length + 1 := by
        simp [Worker.steps]
      rw [hnew, hold] at this
      generalize progress _ N = x at this ⊢
      omega
  | waiting g =>
    rw [hst] at he
    simp only [] at he ⊢
    rw [if_pos he]
    have hold : (s.workers i).steps = 2 * (s.workers i).returned.length + 1 := by
      simp [Worker.steps, hst]
    have := progress_update s N i hi s.barrier
      ⟨Status.running, (s.workers i).returned ++
        [handBack (next i (s.workers i).returned.length) s.barrier.result_double]⟩
    simp only [Worker.steps, List.length_append, List.length_singleton, if_true] at this hold
    omega

/-- From every state that satisfies the invariant the workers can take as many steps
forward as wanted. -/
theorem exists_progress (next : Nat → Nat → Call) (N : Nat) (hN1 : 1 ≤ N) (hN : N < 2 ^ 32)
    (s : System) (R : Nat) (h : Inv next N s R) : ∀ m : Nat,
    ∃ more : List Nat, m ≤ (run next s more).progress N := by
  intro m
  induction m with
  | zero => exact ⟨[], Nat.zero_le _⟩
  | succ m ih =>
    obtain ⟨more, hm⟩ := ih
    obtain ⟨R1, h1⟩ := run_inv next N hN1 hN more s R h
    obtain ⟨i, hi, he⟩ := exists_enabled next N _ R1 h1
    refine ⟨more ++ [i], ?_⟩
    rw [run_append]
    have := step_progress next N _ R1 h1 i hi he
    have hrun : run next (run next s more) [i] = step next (run next s more) i := rfl
    rw [hrun]
    omega

theorem Inv.length_le {next : Nat → Nat → Call} {N : Nat} {s : System} {R : Nat}
    (h : Inv next N s R) (i : Nat) (hi : i < N) :
    (s.workers i).returned.length ≤ R ∧ R ≤ (s.workers i).returned.length + 1 := by
  cases hst : (s.workers i).status with
  | running => have := h.run i hi hst; omega
  | waiting g =>
    by_cases hg : g = s.barrier.generation
    · rw [hg] at hst
      have := h.now i hi hst
      omega
    · have hg' : g = !s.barrier.generation := by
        cases g <;> cases hb : s.barrier.generation <;> simp_all
      rw [hg'] at hst
      have := h.old i hi hst
      omega

theorem Inv.progress_le {next : Nat → Nat → Call} {N : Nat} {s : System} {R : Nat}
    (h : Inv next N s R) : s.progress N ≤ N * (2 * R + 1) := by
  unfold progress
  have hle : ∀ i ∈ Finset.range N, (s.workers i).steps ≤ 2 * R + 1 := by
    intro i hi
    have := (h.length_le i (Finset.mem_range.1 hi)).1
    unfold Worker.steps
    split_ifs <;> omega
  have := Finset.sum_le_card_nsmul (Finset.range N) (fun i => (s.workers i).steps) (2 * R + 1) hle
  simpa using this

/-- From every state that satisfies the invariant there is a continuation after which
every worker has returned from at least `k` calls. -/
theorem exists_returns (next : Nat → Nat → Call) (N : Nat) (hN1 : 1 ≤ N) (hN : N < 2 ^ 32)
    (s : System) (R : Nat) (h : Inv next N s R) (k : Nat) :
    ∃ more : List Nat, ∀ i, i < N → k ≤ ((run next s more).workers i).returned.length := by
  obtain ⟨more, hm⟩ := exists_progress next N hN1 hN s R h (N * (2 * k + 3))
  obtain ⟨R1, h1⟩ := run_inv next N hN1 hN more s R h
  refine ⟨more, fun i hi => ?_⟩
  have hle := h1.progress_le
  have hmul : N * (2 * k + 3) ≤ N * (2 * R1 + 1) := le_trans hm hle
  have hk : 2 * k + 3 ≤ 2 * R1 + 1 := Nat.le_of_mul_le_mul_left hmul (by omega)
  have := (h1.length_le i hi).2
  omega

theorem sum_range_cast (N : Nat) :
    ∑ j in Finset.range N, (j : ℚ) = (N : ℚ) * ((N : ℚ) - 1) / 2 := by
  induction N with
  | zero => simp
  | succ n ih =>
    rw [Finset.sum_range_succ, ih]
    push_cast
    ring

theorem hist_wait_and_sum (N : Nat) (hN1 : 1 ≤ N) (hN : N < 2 ^ 32) (v : Nat → Nat → ℚ)
    (schedule : List Nat) (i : Nat) (hi : i < N) (r : Nat)
    (hr : r < ((run (fun i r => Call.wait_and_sum (v i r)) (init N) schedule).workers
      i).returned.length) :
    ((run (fun i r => Call.wait_and_sum (v i r)) (init N) schedule).workers i).returned[r]? =
      some (some (∑ j in Finset.range N, v j r)) := by
  obtain ⟨R, h⟩ := run_inv (fun i r => Call.wait_and_sum (v i r)) N hN1 hN schedule _ 0
    (init_inv _ N hN1)
  rw [h.hist i hi r hr]
  simp [handBack, Call.summing, roundSum, Call.diff]

end System

/-- C4: for a barrier constructed for `N >= 1` workers (`N` a `uint32_t`), whatever the
order in which the workers take their steps, every call of `wait_and_sum` that has
returned in round `r` has returned the sum of the `N` values contributed in round `r`,
in every round; from every reachable state the workers can go on until each of them has
returned from as many calls as wanted; and for the values `0, ..., N - 1` the sum is
`N (N - 1) / 2`. -/
theorem wait_and_sum_returns_round_sum (N : Nat) (hN1 : 1 ≤ N) (hN : N < 2 ^ 32)
    (v : Nat → Nat → ℚ) (schedule : List Nat) :
    (∀ i, i < N → ∀ r,
      r < ((System.run (fun i r => Call.wait_and_sum (v i r)) (System.init N)
        schedule).workers i).returned.length →
      ((System.run (fun i r => Call.wait_and_sum (v i r)) (System.init N)
        schedule).workers i).returned[r]? = some (some (∑ j in Finset.range N, v j r))) ∧
    (∀ k, ∃ more : List Nat, ∀ i, i < N →
      k ≤ ((System.run (fun i r => Call.wait_and_sum (v i r)) (System.init N)
        (schedule ++ more)).workers i).returned.length) ∧
    ((∀ j r, v j r = (j : ℚ)) → ∀ i, i < N → ∀ r,
      r < ((System.run (fun i r => Call.wait_and_sum (v i r)) (System.init N)
        schedule).workers i).returned.length →
      ((System.run (fun i r => Call.wait_and_sum (v i r)) (System.init N)
        schedule).workers i).returned[r]? = some (some ((N : ℚ) * ((N : ℚ) - 1) / 2))) := by
  refine ⟨fun i hi r hr => System.hist_wait_and_sum N hN1 hN v schedule i hi r hr, ?_, ?_⟩
  · intro k
    obtain ⟨R, h⟩ := System.run_inv (fun i r => Call.wait_and_sum (v i r)) N hN1 hN schedule _ 0
      (System.init_inv _ N hN1)
    obtain ⟨more, hmore⟩ := System.exists_returns _ N hN1 hN _ R h k
    exact ⟨more, fun i hi => by rw [System.run_append]; exact hmore i hi⟩
  · intro hv i hi r hr
    rw [System.hist_wait_and_sum N hN1 hN v schedule i hi r hr, ← System.sum_range_cast]
    simp only [hv]

/-- Witness of C4: two workers contributing `i + 10 r`, scheduled 0, 1, 1, 0. -/
theorem wait_and_sum_returns_round_sum_witness :
    1 ≤ 2 ∧ 2 < 2 ^ 32 ∧
    ∀ k, ∃ more : List Nat, ∀ i, i < 2 →
      k ≤ ((System.run (fun i r => Call.wait_and_sum ((i : ℚ) + 10 * (r : ℚ))) (System.init 2)
        ([0, 1, 1, 0] ++ more)).workers i).returned.length :=
  ⟨by decide, by decide,
    (wait_and_sum_returns_round_sum 2 (by decide) (by decide)
      (fun i r => (i : ℚ) + 10 * (r : ℚ)) [0, 1, 1, 0]).2.1⟩

/-! ## Witnesses -/

theorem twoPages_ids : twoPages.ids = [0, 1] := rfl

theorem twoPages_nodup : twoPages.ids.Nodup := by
  rw [twoPages_ids]
  decide

/-- Witness of C5: the network `twoPages` with two workers, one iteration, tolerance 10. -/
theorem converges_iff_of_distinct_ids_witness :
    twoPages.ids.Nodup ∧ 1 ≤ 2 ∧ twoPages.pages.Perm twoPages.pages ∧
    ((∃ result, SingleThreaded.computeForNetwork twoPages (1 / 2) 1 10 = .ok result) ↔
      ∃ i, i < 1 ∧ SingleThreaded.residual twoPages (1 / 2) i < 10) :=
  ⟨twoPages_nodup, by decide, List.Perm.refl _,
    (converges_iff_of_distinct_ids twoPages twoPages_nodup (1 / 2) 1 10 2 (by decide)
      twoPages.pages (List.Perm.refl _)).1⟩

/-- Witness of C7: the network `twoPages` with two workers, one iteration, tolerance 10. -/
theorem result_size_of_distinct_ids_witness :
    twoPages.ids.Nodup ∧ 1 ≤ 2 ∧ twoPages.pages.Perm twoPages.pages ∧
    SingleThreaded.computeForNetwork twoPages (1 / 2) 1 10 ≠ .error .invalidResultSize :=
  ⟨twoPages_nodup, by decide, List.Perm.refl _,
    (result_size_of_distinct_ids twoPages twoPages_nodup (1 / 2) 1 10 2 (by decide)
      twoPages.pages (List.Perm.refl _)).2.1⟩

/-- Witness of C10: the network `twoPages` with two workers, round 0. -/
theorem numLinks_pos_of_distinct_ids_witness :
    twoPages.ids.Nodup ∧ 1 ≤ 2 ∧ twoPages.pages.Perm twoPages.pages ∧
    ∀ p q, q ∈ (MultiThreaded.mapsAt twoPages (1 / 2)
        (MultiThreaded.threadRanges twoPages.pages.length 2) twoPages.pages 0).edges.get p →
      (∃ page ∈ twoPages.pages, twoPages.getId page = q ∧ page.links ≠ []) ∧
      1 ≤ (MultiThreaded.mapsAt twoPages (1 / 2)
        (MultiThreaded.threadRanges twoPages.pages.length 2) twoPages.pages 0).numLinks.get q :=
  ⟨twoPages_nodup, by decide, List.Perm.refl _,
    (numLinks_pos_of_distinct_ids twoPages twoPages_nodup (1 / 2) 0 2 (by decide)
      twoPages.pages (List.Perm.refl _)).2⟩

/-! ## C13: pages without incoming links -/

theorem pageSum_of_not_mem (network : Network) (alpha : ℚ) (m : Maps) (ds : ℚ) (p : PageId)
    (hp : p ∉ m.edges.keys) :
    pageSum network alpha m ds p =
      ds * (1 / (network.getSize : ℚ)) + (1 - alpha) / (network.getSize : ℚ) := by
  have hc : ¬ m.edges.count p > 0 := fun h => hp ((HashMap.count_pos_iff _ _).1 h)
  unfold pageSum
  simp only [if_neg hc]

theorem not_mem_edges_keys_of_no_link {network : Network} {order : List Page} {m : Maps}
    (hE : EdgesBuilt network order m) (hP : order.Perm network.pages) (k : PageId)
    (hno : ∀ q ∈ network.pages, k ∉ q.links) : k ∉ m.edges.keys := by
  intro hmem
  obtain ⟨q, hq, hk⟩ := (hE.2 k).1 hmem
  exact hno q (hP.mem_iff.1 hq) hk

/-- C13: when no page links to the page `p`, the identifier of `p` is not a key of the
reversed-edge map in any round, and in every round the rank computed for `p` is
`alpha * D / n + (1 - alpha) / n`, in the sequential computer and, for at least one
worker, in the parallel computer. -/
theorem rank_without_incoming_links (network : Network) (alpha : ℚ) (i : Nat)
    (numThreads : Nat) (hT : 1 ≤ numThreads) (schedule : List Page)
    (hS : schedule.Perm network.pages) (p : Page) (hp : p ∈ network.pages)
    (hno : ∀ q ∈ network.pages, network.getId p ∉ q.links) :
    (network.getId p ∉ (SingleThreaded.mapsAt network alpha i).edges.keys ∧
      (SingleThreaded.update network alpha (SingleThreaded.mapsAt network alpha i)).2.get
          (network.getId p) =
        alpha * danglingMass network (SingleThreaded.mapsAt network alpha i).prev network.pages
            / (network.getSize : ℚ) + (1 - alpha) / (network.getSize : ℚ)) ∧
    (network.getId p ∉ (MultiThreaded.mapsAt network alpha
        (MultiThreaded.threadRanges network.pages.length numThreads) schedule i).edges.keys ∧
      (MultiThreaded.updateAll network alpha
          (MultiThreaded.threadRanges network.pages.length numThreads)
          (MultiThreaded.mapsAt network alpha
            (MultiThreaded.threadRanges network.pages.length numThreads) schedule i)).2.get
          (network.getId p) =
        alpha * danglingMass network (MultiThreaded.mapsAt network alpha
            (MultiThreaded.threadRanges network.pages.length numThreads) schedule i).prev
            network.pages / (network.getSize : ℚ) + (1 - alpha) / (network.getSize : ℚ)) := by
  have hid : network.getId p ∈ network.ids := List.mem_map_of_mem _ hp
  have hseq : EdgesBuilt network network.pages (SingleThreaded.mapsAt network alpha i) :=
    SingleThreaded.roundsFrom_edgesBuilt (edgesBuilt_buildWith network _ network.pages) alpha i
  have hpar : EdgesBuilt network schedule (MultiThreaded.mapsAt network alpha
      (MultiThreaded.threadRanges network.pages.length numThreads) schedule i) := by
    rw [MultiThreaded.mapsAt_eq _ _ _ _ hT]
    exact SingleThreaded.roundsFrom_edgesBuilt (edgesBuilt_buildWith network _ schedule) alpha i
  have k1 := not_mem_edges_keys_of_no_link hseq (List.Perm.refl _) _ hno
  have k2 := not_mem_edges_keys_of_no_link hpar hS _ hno
  refine ⟨⟨k1, ?_⟩, k2, ?_⟩
  · rw [SingleThreaded.update_snd_get, if_pos hid, pageSum_of_not_mem _ _ _ _ _ k1,
      SingleThreaded.dangleSum_eq]
    ring
  · rw [MultiThreaded.updateAll_snd _ _ _ _ hT, SingleThreaded.update_snd_get, if_pos hid,
      pageSum_of_not_mem _ _ _ _ _ k2, SingleThreaded.dangleSum_eq]
    ring

/-- Witness of C13: the first page of `twoPages`, which no page links to. -/
theorem rank_without_incoming_links_witness :
    1 ≤ 2 ∧ twoPages.pages.Perm twoPages.pages ∧
    (⟨"", [1]⟩ : Page) ∈ twoPages.pages ∧
    (∀ q ∈ twoPages.pages, twoPages.getId ⟨"", [1]⟩ ∉ q.links) ∧
    twoPages.getId ⟨"", [1]⟩ ∉ (SingleThreaded.mapsAt twoPages (1 / 2) 0).edges.keys :=
  ⟨by decide, List.Perm.refl _, by decide, by decide,
    (rank_without_incoming_links twoPages (1 / 2) 0 2 (by decide) twoPages.pages
      (List.Perm.refl _) ⟨"", [1]⟩ (by decide) (by decide)).1.1⟩

/-! ## C15: ranks are not negative -/

theorem danglingMass_nonneg (network : Network) (prev : HashMap PageRank) (ps : List Page)
    (h : ∀ k, 0 ≤ prev.get k) : 0 ≤ danglingMass network prev ps := by
  unfold danglingMass
  apply List.sum_nonneg
  intro x hx
  obtain ⟨d, _, rfl⟩ := List.mem_map.1 hx
  exact h _

theorem pageSum_ge (network : Network) (alpha : ℚ) (m : Maps) (ds : ℚ) (p : PageId)
    (hα : 0 ≤ alpha) (hds : 0 ≤ ds) (hprev : ∀ k, 0 ≤ m.prev.get k) :
    (1 - alpha) / (network.getSize : ℚ) ≤ pageSum network alpha m ds p := by
  have hw : 0 ≤ ds * (1 / (network.getSize : ℚ)) :=
    mul_nonneg hds (div_nonneg zero_le_one (Nat.cast_nonneg _))
  unfold pageSum
  simp only []
  split_ifs
  · rw [foldl_add_eq_sum (fun link => alpha * m.prev.get link / (m.numLinks.get link : ℚ))]
    have hs : 0 ≤ ((m.edges.get p).map
        (fun link => alpha * m.prev.get link / (m.numLinks.get link : ℚ))).sum := by
      apply List.sum_nonneg
      intro x hx
      obtain ⟨link, _, rfl⟩ := List.mem_map.1 hx
      exact div_nonneg (mul_nonneg hα (hprev link)) (Nat.cast_nonneg _)
    linarith
  · linarith

/-- In every round all the values of `prev` and `curr` are at least 0, and the update
gives every page at least `(1 - alpha) / n`. -/
theorem rounds_nonneg (network : Network) (deg : Page → Nat) (order : List Page) (alpha : ℚ)
    (hα : 0 ≤ alpha) (hα1 : alpha ≤ 1) (i : Nat) :
    (∀ k, 0 ≤ (SingleThreaded.roundsFrom network alpha
      (buildWith network deg order Maps.empty) i).prev.get k) ∧
    (∀ k, 0 ≤ (SingleThreaded.roundsFrom network alpha
      (buildWith network deg order Maps.empty) i).curr.get k) ∧
    (∀ k, k ∈ network.ids → (1 - alpha) / (network.getSize : ℚ) ≤
      (SingleThreaded.update network alpha (SingleThreaded.roundsFrom network alpha
        (buildWith network deg order Maps.empty) i)).2.get k) ∧
    (∀ k, 0 ≤ (SingleThreaded.update network alpha (SingleThreaded.roundsFrom network alpha
        (buildWith network deg order Maps.empty) i)).2.get k) := by
  have hinit : (0 : ℚ) ≤ 1 / (network.pages.length : ℚ) :=
    div_nonneg zero_le_one (Nat.cast_nonneg _)
  have hb : 0 ≤ (1 - alpha) / (network.getSize : ℚ) :=
    div_nonneg (by linarith) (Nat.cast_nonneg _)
  have hstep : ∀ m : Maps, (∀ k, 0 ≤ m.prev.get k) → (∀ k, 0 ≤ m.curr.get k) →
      (∀ k, k ∈ network.ids → (1 - alpha) / (network.getSize : ℚ) ≤
        (SingleThreaded.update network alpha m).2.get k) ∧
      (∀ k, 0 ≤ (SingleThreaded.update network alpha m).2.get k) := by
    intro m hp hc
    have hds : 0 ≤ SingleThreaded.dangleSum network alpha m := by
      rw [SingleThreaded.dangleSum_eq]
      exact mul_nonneg (danglingMass_nonneg network m.prev network.pages hp) hα
    constructor
    · intro k hk
      rw [SingleThreaded.update_snd_get, if_pos hk]
      exact pageSum_ge network alpha m _ k hα hds hp
    · intro k
      rw [SingleThreaded.update_snd_get]
      split_ifs
      · exact le_trans hb (pageSum_ge network alpha m _ k hα hds hp)
      · exact hc k
  have hall : ∀ j, (∀ k, 0 ≤ (SingleThreaded.roundsFrom network alpha
        (buildWith network deg order Maps.empty) j).prev.get k) ∧
      (∀ k, 0 ≤ (SingleThreaded.roundsFrom network alpha
        (buildWith network deg order Maps.empty) j).curr.get k) := by
    intro j
    induction j with
    | zero =>
      constructor
      · intro k
        simp only [SingleThreaded.roundsFrom]
        rw [buildWith_prev_get]
        split_ifs
        · exact hinit
        · exact le_refl _
      · intro k
        simp only [SingleThreaded.roundsFrom]
        rw [buildWith_curr_get]
        split_ifs
        · exact hinit
        · exact le_refl _
    | succ j ih =>
      have hs := hstep _ ih.1 ih.2
      constructor
      · intro k
        simp only [SingleThreaded.roundsFrom]
        rw [SingleThreaded.advance_prev_get]
        split_ifs
        · exact hs.2 k
        · exact ih.1 k
      · intro k
        exact hs.2 k
  have hs := hstep _ (hall i).1 (hall i).2
  exact ⟨(hall i).1, (hall i).2, hs.1, hs.2⟩

theorem collect_nonneg {network : Network} {ranks : HashMap PageRank}
    {result : List PageIdAndRank} (h : collect network ranks = .ok result)
    (hr : ∀ k, 0 ≤ ranks.get k) : ∀ e ∈ result, 0 ≤ e.2 := by
  rw [collect_eq_ok h]
  intro e he
  obtain ⟨k, _, rfl⟩ := List.mem_map.1 he
  exact hr k

/-- C15: for a network with at least one page and `0 < alpha < 1`, in both computers
`previous` and `current` are `1 / n > 0` for every page after initialisation, after every
round `current` is at least `(1 - alpha) / n > 0` for every page, `previous` and `current`
are never negative, and every rank of a returned result is at least 0. -/
theorem ranks_nonneg (network : Network) (hn : 1 ≤ network.getSize) (alpha : ℚ)
    (h0 : 0 < alpha) (h1 : alpha < 1) (iterations : Nat) (tolerance : ℚ) (numThreads : Nat)
    (hT : 1 ≤ numThreads) (schedule : List Page) (hS : schedule.Perm network.pages) :
    (0 < 1 / (network.getSize : ℚ) ∧ 0 < (1 - alpha) / (network.getSize : ℚ)) ∧
    ((∀ p ∈ network.pages,
        (SingleThreaded.mapsAt network alpha 0).prev.get (network.getId p)
          = 1 / (network.getSize : ℚ) ∧
        (SingleThreaded.mapsAt network alpha 0).curr.get (network.getId p)
          = 1 / (network.getSize : ℚ)) ∧
      (∀ i, ∀ p ∈ network.pages, (1 - alpha) / (network.getSize : ℚ) ≤
        (SingleThreaded.update network alpha (SingleThreaded.mapsAt network alpha i)).2.get
          (network.getId p)) ∧
      (∀ i k, 0 ≤ (SingleThreaded.mapsAt network alpha i).prev.get k ∧
        0 ≤ (SingleThreaded.mapsAt network alpha i).curr.get k) ∧
      (∀ result, SingleThreaded.computeForNetwork network alpha iterations tolerance
        = .ok result → ∀ e ∈ result, 0 ≤ e.2)) ∧
    ((∀ p ∈ network.pages,
        (MultiThreaded.mapsAt network alpha
          (MultiThreaded.threadRanges network.pages.length numThreads) schedule 0).prev.get
          (network.getId p) = 1 / (network.getSize : ℚ) ∧
        (MultiThreaded.mapsAt network alpha
          (MultiThreaded.threadRanges network.pages.length numThreads) schedule 0).curr.get
          (network.getId p) = 1 / (network.getSize : ℚ)) ∧
      (∀ i, ∀ p ∈ network.pages, (1 - alpha) / (network.getSize : ℚ) ≤
        (MultiThreaded.updateAll network alpha
          (MultiThreaded.threadRanges network.pages.length numThreads)
          (MultiThreaded.mapsAt network alpha
            (MultiThreaded.threadRanges network.pages.length numThreads) schedule i)).2.get
          (network.getId p)) ∧
      (∀ i k, 0 ≤ (MultiThreaded.mapsAt network alpha
          (MultiThreaded.threadRanges network.pages.length numThreads) schedule i).prev.get k ∧
        0 ≤ (MultiThreaded.mapsAt network alpha
          (MultiThreaded.threadRanges network.pages.length numThreads) schedule i).curr.get k) ∧
      (∀ success0 result, MultiThreaded.computeForNetwork numThreads success0 schedule network
        alpha iterations tolerance = .ok result → ∀ e ∈ result, 0 ≤ e.2)) := by
  have hnpos : (0 : ℚ) < (network.getSize : ℚ) := by exact_mod_cast hn
  have hseq := rounds_nonneg network (fun page => page.links.length % 2 ^ 32) network.pages
    alpha h0.le h1.le
  have hpar := rounds_nonneg network (fun page => page.links.length) schedule alpha h0.le h1.le
  refine ⟨⟨div_pos zero_lt_one hnpos, div_pos (by linarith) hnpos⟩, ⟨?_, ?_, ?_, ?_⟩,
    ⟨?_, ?_, ?_, ?_⟩⟩
  · intro p hp
    have hmem : network.getId p ∈ network.pages.map network.getId := List.mem_map_of_mem _ hp
    constructor
    · have h := buildWith_prev_get network (fun page => page.links.length % 2 ^ 32)
        (network.getId p) network.pages Maps.empty
      rw [if_pos hmem] at h
      exact h
    · have h := buildWith_curr_get network (fun page => page.links.length % 2 ^ 32)
        (network.getId p) network.pages Maps.empty
      rw [if_pos hmem] at h
      exact h
  · intro i p hp
    exact (hseq i).2.2.1 _ (List.mem_map_of_mem _ hp)
  · intro i k
    exact ⟨(hseq i).1 k, (hseq i).2.1 k⟩
  · intro result hres
    rcases SingleThreaded.seq_computeForNetwork_cases network alpha iterations tolerance with
      ⟨i, _, _, he⟩ | ⟨_, he⟩
    · rw [he] at hres
      exact collect_nonneg hres (hseq i).1
    · rw [he] at hres; cases hres
  · intro p hp
    have hmem : network.getId p ∈ schedule.map network.getId :=
      List.mem_map_of_mem _ (hS.mem_iff.2 hp)
    constructor
    · have h := buildWith_prev_get network (fun page => page.links.length)
        (network.getId p) schedule Maps.empty
      rw [if_pos hmem] at h
      exact h
    · have h := buildWith_curr_get network (fun page => page.links.length)
        (network.getId p) schedule Maps.empty
      rw [if_pos hmem] at h
      exact h
  · intro i p hp
    rw [MultiThreaded.mapsAt_eq _ _ _ _ hT, MultiThreaded.updateAll_snd _ _ _ _ hT]
    exact (hpar i).2.2.1 _ (List.mem_map_of_mem _ hp)
  · intro i k
    rw [MultiThreaded.mapsAt_eq _ _ _ _ hT]
    exact ⟨(hpar i).1 k, (hpar i).2.1 k⟩
  · intro success0 result hres
    rcases MultiThreaded.par_computeForNetwork_cases numThreads hT success0 schedule network
      alpha iterations tolerance with ⟨i, _, _, he⟩ | ⟨_, he⟩
    · rw [he] at hres
      exact collect_nonneg hres (hpar i).2.2.2
    · rw [he] at hres
      cases success0
      · cases hres
      · simp only [if_true] at hres
        exact collect_nonneg hres (hpar iterations).2.1

/-- Witness of C15: the network `twoPages` with `alpha = 1/2` and two workers. -/
theorem ranks_nonneg_witness :
    1 ≤ twoPages.getSize ∧ (0 : ℚ) < 1 / 2 ∧ (1 / 2 : ℚ) < 1 ∧ 1 ≤ 2 ∧
    twoPages.pages.Perm twoPages.pages ∧
    ∀ result, SingleThreaded.computeForNetwork twoPages (1 / 2) 1 10 = .ok result →
      ∀ e ∈ result, 0 ≤ e.2 :=
  ⟨by decide, by norm_num, by norm_num, by decide, List.Perm.refl _,
    (ranks_nonneg twoPages (by decide) (1 / 2) (by norm_num) (by norm_num) 1 10 2 (by decide)
      twoPages.pages (List.Perm.refl _)).2.1.2.2.2⟩

/-! ## C16: the keys of the result -/

theorem length_eq_iff_nodup (keys ids : List PageId) (hk : keys.Nodup)
    (hmem : ∀ k, k ∈ keys ↔ k ∈ ids) : keys.length = ids.length ↔ ids.Nodup := by
  have hfin : keys.toFinset = ids.toFinset := by
    ext k
    simp [hmem k]
  have hcard : keys.length = ids.toFinset.card := by
    rw [← hfin, List.toFinset_card_of_nodup hk]
  rw [hcard]
  have h : (ids : Multiset PageId).toFinset.card = Multiset.card (ids : Multiset PageId) ↔
      (ids : Multiset PageId).Nodup := Multiset.toFinset_card_eq_card_iff_nodup
  exact h

/-- The keys of `prev`, of `curr` and of the map the update produces, in every round. -/
theorem rounds_keys (network : Network) (deg : Page → Nat) (order : List Page)
    (hP : order.Perm network.pages) (alpha : ℚ) (i : Nat) :
    ((SingleThreaded.roundsFrom network alpha
        (buildWith network deg order Maps.empty) i).prev.keys.Nodup ∧
      ∀ k, k ∈ (SingleThreaded.roundsFrom network alpha
        (buildWith network deg order Maps.empty) i).prev.keys ↔ k ∈ network.ids) ∧
    ((SingleThreaded.roundsFrom network alpha
        (buildWith network deg order Maps.empty) i).curr.keys.Nodup ∧
      ∀ k, k ∈ (SingleThreaded.roundsFrom network alpha
        (buildWith network deg order Maps.empty) i).curr.keys ↔ k ∈ network.ids) ∧
    ((SingleThreaded.update network alpha (SingleThreaded.roundsFrom network alpha
        (buildWith network deg order Maps.empty) i)).2.keys.Nodup ∧
      ∀ k, k ∈ (SingleThreaded.update network alpha (SingleThreaded.roundsFrom network alpha
        (buildWith network deg order Maps.empty) i)).2.keys ↔ k ∈ network.ids) := by
  have hk := SingleThreaded.roundsFrom_keys network alpha _ (buildWith_keyed network deg order hP) i
  have hkd := SingleThreaded.roundsFrom_keyed network alpha _ (buildWith_keyed network deg order hP) i
  have hb := buildWith_keys network deg order Maps.empty rfl rfl
  have hnd : (buildWith network deg order Maps.empty).prev.keys.Nodup :=
    buildWith_prev_keys_nodup network deg order Maps.empty List.nodup_nil
  have hmem : ∀ k, k ∈ (buildWith network deg order Maps.empty).prev.keys ↔ k ∈ network.ids := by
    intro k
    rw [buildWith_prev_mem_keys]
    have he : k ∉ Maps.empty.prev.keys := by simp [Maps.empty, HashMap.empty]
    have hp : k ∈ order.map network.getId ↔ k ∈ network.ids := (hP.map network.getId).mem_iff
    simp only [he, false_or, hp]
  have hu : (SingleThreaded.update network alpha (SingleThreaded.roundsFrom network alpha
      (buildWith network deg order Maps.empty) i)).2.keys =
      (buildWith network deg order Maps.empty).prev.keys := by
    rw [SingleThreaded.update, updateOver_snd_keys _ _ _ _ _ _ hkd.2, hk.2, hb.1]
  refine ⟨?_, ?_, ?_⟩
  · rw [hk.1]; exact ⟨hnd, hmem⟩
  · rw [hk.2, hb.1]; exact ⟨hnd, hmem⟩
  · rw [hu]; exact ⟨hnd, hmem⟩

theorem collect_keys {network : Network} {ranks : HashMap PageRank}
    {result : List PageIdAndRank} (h : collect network ranks = .ok result) :
    result.map Prod.fst = ranks.keys := by
  rw [collect_eq_ok h]
  simp [HashMap.entries, Function.comp_def]

/-- C16: in both computers (the parallel one with at least one worker) the keys of the
rank map the result is read from are, in every round, exactly the identifiers of the
pages of the network, each once; the map has `network.getSize` entries exactly when the
page identifiers are pairwise distinct; and the keys of every returned result are
exactly the identifiers of the pages. -/
theorem result_keys (network : Network) (alpha : ℚ) (iterations : Nat) (tolerance : ℚ)
    (numThreads : Nat) (hT : 1 ≤ numThreads) (schedule : List Page)
    (hS : schedule.Perm network.pages) :
    ((∀ i, (SingleThreaded.mapsAt network alpha i).prev.keys.Nodup ∧
        (∀ k, k ∈ (SingleThreaded.mapsAt network alpha i).prev.keys ↔ k ∈ network.ids) ∧
        ((SingleThreaded.mapsAt network alpha i).prev.size = network.getSize ↔
          network.ids.Nodup)) ∧
      (∀ result, SingleThreaded.computeForNetwork network alpha iterations tolerance
        = .ok result → ∀ k, k ∈ result.map Prod.fst ↔ k ∈ network.ids)) ∧
    ((∀ i, (MultiThreaded.updateAll network alpha
          (MultiThreaded.threadRanges network.pages.length numThreads)
          (MultiThreaded.mapsAt network alpha
            (MultiThreaded.threadRanges network.pages.length numThreads) schedule i)).2.keys.Nodup ∧
        (∀ k, k ∈ (MultiThreaded.updateAll network alpha
          (MultiThreaded.threadRanges network.pages.length numThreads)
          (MultiThreaded.mapsAt network alpha
            (MultiThreaded.threadRanges network.pages.length numThreads) schedule i)).2.keys ↔
          k ∈ network.ids) ∧
        ((MultiThreaded.updateAll network alpha
          (MultiThreaded.threadRanges network.pages.length numThreads)
          (MultiThreaded.mapsAt network alpha
            (MultiThreaded.threadRanges network.pages.length numThreads) schedule i)).2.size
            = network.getSize ↔ network.ids.Nodup)) ∧
      (∀ success0 result, MultiThreaded.computeForNetwork numThreads success0 schedule network
        alpha iterations tolerance = .ok result →
        ∀ k, k ∈ result.map Prod.fst ↔ k ∈ network.ids)) := by
  have hseq := rounds_keys network (fun page => page.links.length % 2 ^ 32) network.pages
    (List.Perm.refl _) alpha
  have hpar := rounds_keys network (fun page => page.links.length) schedule hS alpha
  have hlen : network.getSize = network.ids.length := by
    simp [Network.getSize, Network.ids]
  refine ⟨⟨?_, ?_⟩, ?_, ?_⟩
  · intro i
    refine ⟨(hseq i).1.1, (hseq i).1.2, ?_⟩
    rw [hlen]
    exact length_eq_iff_nodup _ _ (hseq i).1.1 (hseq i).1.2
  · intro result hres k
    rcases SingleThreaded.seq_computeForNetwork_cases network alpha iterations tolerance with
      ⟨i, _, _, he⟩ | ⟨_, he⟩
    · rw [he] at hres
      rw [collect_keys hres]
      exact (hseq i).1.2 k
    · rw [he] at hres; cases hres
  · intro i
    rw [MultiThreaded.mapsAt_eq _ _ _ _ hT, MultiThreaded.updateAll_snd _ _ _ _ hT]
    refine ⟨(hpar i).2.2.1, (hpar i).2.2.2, ?_⟩
    rw [hlen]
    exact length_eq_iff_nodup _ _ (hpar i).2.2.1 (hpar i).2.2.2
  · intro success0 result hres k
    rcases MultiThreaded.par_computeForNetwork_cases numThreads hT success0 schedule network
      alpha iterations tolerance with ⟨i, _, _, he⟩ | ⟨_, he⟩
    · rw [he] at hres
      rw [collect_keys hres]
      exact (hpar i).2.2.2 k
    · rw [he] at hres
      cases success0
      · cases hres
      · simp only [if_true] at hres
        rw [collect_keys hres]
        exact (hpar iterations).2.1.2 k

/-- Witness of C16: the network `twins`, whose two pages share one identifier. -/
theorem result_keys_witness :
    1 ≤ 2 ∧ twins.pages.Perm twins.pages ∧
    ((SingleThreaded.mapsAt twins (1 / 2) 0).prev.size = twins.getSize ↔ twins.ids.Nodup) :=
  ⟨by decide, List.Perm.refl _,
    ((result_keys twins (1 / 2) 1 10 2 (by decide) twins.pages (List.Perm.refl _)).1.1 0).2.2⟩

/-! ## C11: the barrier as a state machine -/

namespace Barrier

theorem arrive_eq_of_ne_zero (b : Barrier) (call : Call) (h : decrement b.counter ≠ 0) :
    b.arrive call =
      { b with
        count_double := b.count_double + call.diff
        counter := decrement b.counter } := by
  simp [arrive, h]

theorem arrive_eq_of_eq_zero (b : Barrier) (call : Call) (h : decrement b.counter = 0) :
    b.arrive call =
      { num_threads := b.num_threads
        counter := b.num_threads
        generation := !b.generation
        result_double := b.count_double + call.diff
        count_double := 0 } := by
  simp [arrive, h, notify_all]

theorem arrive_barrier (s : System) (i : Nat) (call : Call) :
    (System.arrive s i call).barrier = s.barrier.arrive call := by
  by_cases h : decrement s.barrier.counter = 0
  · rw [System.arrive_of_eq_zero s i call h, arrive_eq_of_eq_zero _ _ h]
  · rw [System.arrive_of_ne_zero s i call h, arrive_eq_of_ne_zero _ _ h]

theorem arrivals_append (b : Barrier) (calls : List Call) (call : Call) :
    b.arrivals (calls ++ [call]) = (b.arrivals calls).arrive call := by
  unfold arrivals
  rw [List.foldl_append, List.foldl_cons, List.foldl_nil]

theorem after_new (N : Nat) (hN : 1 ≤ N) : After N [] (new N) 0 0 := by
  refine ⟨by simp, hN, rfl, by simp [new], by simp [new, contributed], rfl, ?_⟩
  intro h
  omega

theorem flip_gen_eq (q : Nat) : (!decide (q % 2 = 1)) = decide ((q + 1) % 2 = 1) :=
  System.flip_gen q

theorem contributed_append (l : List Call) (call : Call) :
    contributed (l ++ [call]) = contributed l + call.diff := by
  simp [contributed]

theorem mul_pred_add (N q : Nat) (hq : 1 ≤ q) : N * (q - 1) + N = N * q := by
  cases q with
  | zero => omega
  | succ q => simp [Nat.mul_succ]

/-- An arrival that does not complete the round. -/
theorem After.arrive_next {N : Nat} {calls : List Call} {b : Barrier} {q r : Nat}
    (hN : N < 2 ^ 32) (h : After N calls b q r) (call : Call) (hr : r + 1 < N) :
    After N (calls ++ [call]) (b.arrive call) q (r + 1) := by
  have hc := h.cnt
  have hc1 : 1 ≤ b.counter := by omega
  have hc2 : b.counter < 2 ^ 32 := by omega
  have hc3 : b.counter - 1 ≠ 0 := by omega
  have hc4 : b.counter - 1 = N - (r + 1) := by omega
  have hlen := h.len
  have hle : N * q ≤ calls.length := by omega
  have hd : decrement b.counter ≠ 0 := by
    rw [System.decrement_eq _ hc1 hc2]
    exact hc3
  rw [arrive_eq_of_ne_zero b call hd]
  refine ⟨?_, hr, h.num, ?_, ?_, h.gen, ?_⟩
  · rw [List.length_append, List.length_singleton, hlen]
    omega
  · show decrement b.counter = N - (r + 1)
    rw [System.decrement_eq _ hc1 hc2]
    exact hc4
  · show b.count_double + call.diff = _
    rw [List.drop_append_of_le_length hle, contributed_append, h.acc]
  · intro hq
    show b.result_double = _
    have hm := mul_pred_add N q hq
    have hle' : N * (q - 1) ≤ calls.length := by omega
    have hlen' : N ≤ (calls.drop (N * (q - 1))).length := by
      rw [List.length_drop]
      omega
    rw [List.drop_append_of_le_length hle', List.take_append_of_le_length hlen']
    exact h.res hq

/-- The arrival that completes the round. -/
theorem After.arrive_last {N : Nat} {calls : List Call} {b : Barrier} {q r : Nat}
    (hN : N < 2 ^ 32) (h : After N calls b q r) (call : Call) (hr : r + 1 = N) :
    After N (calls ++ [call]) (b.arrive call) (q + 1) 0 := by
  have hc := h.cnt
  have hc1 : 1 ≤ b.counter := by omega
  have hc2 : b.counter < 2 ^ 32 := by omega
  have hc3 : b.counter - 1 = 0 := by omega
  have hlen := h.len
  have hle : N * q ≤ calls.length := by omega
  have hd : decrement b.counter = 0 := by
    rw [System.decrement_eq _ hc1 hc2]
    exact hc3
  have hmul : N * (q + 1) = N * q + N := Nat.mul_succ N q
  rw [arrive_eq_of_eq_zero b call hd]
  refine ⟨?_, by omega, h.num, ?_, ?_, ?_, ?_⟩
  · rw [List.length_append, List.length_singleton, hlen]
    omega
  · show b.num_threads = N - 0
    rw [h.num]
    rfl
  · show (0 : ℚ) = _
    have hnil : (calls ++ [call]).drop (N * (q + 1)) = [] := by
      apply List.drop_eq_nil_of_le
      rw [List.length_append, List.length_singleton, hlen]
      omega
    rw [hnil]
    simp [contributed]
  · show (!b.generation) = _
    rw [h.gen]
    exact System.flip_gen q
  · intro _
    show b.count_double + call.diff = _
    have hq : q + 1 - 1 = q := by omega
    rw [hq, List.drop_append_of_le_length hle]
    have hall : (calls.drop (N * q) ++ [call]).length ≤ N := by
      rw [List.length_append, List.length_drop, List.length_singleton]
      omega
    rw [List.take_of_length_le hall, contributed_append, h.acc]

/-- After any sequence of arrivals the barrier is in a state `After`. -/
theorem arrivals_after (N : Nat) (hN1 : 1 ≤ N) (hN : N < 2 ^ 32) (calls : List Call) :
    ∃ q r, After N calls ((new N).arrivals calls) q r := by
  induction calls using List.reverseRecOn with
  | nil => exact ⟨0, 0, after_new N hN1⟩
  | append_singleton calls call ih =>
    obtain ⟨q, r, h⟩ := ih
    rw [arrivals_append]
    by_cases hr : r + 1 < N
    · exact ⟨q, r + 1, h.arrive_next hN call hr⟩
    · have hlt := h.lt
      exact ⟨q + 1, 0, h.arrive_last hN call (by omega)⟩

theorem After.div_mod {N : Nat} {calls : List Call} {b : Barrier} {q r : Nat}
    (h : After N calls b q r) : calls.length / N = q ∧ calls.length % N = r := by
  have hpos : 0 < N := by have := h.lt; omega
  exact (Nat.div_mod_unique hpos).2 ⟨by rw [h.len]; omega, h.lt⟩

end Barrier

/-- C11: starting from a barrier constructed for `N >= 1` workers (`N` a `uint32_t`),
after every sequence of arrivals the counter is between 1 and `N` and equals `N` minus
the number of arrivals modulo `N`; the arrival that finds the counter at 1 sets
`result_double` to the sum of the values of the last `N` arrivals, `count_double` to 0,
the counter to `N`, and flips `generation`; after `k * N` arrivals the barrier is the
freshly constructed one except for `result_double` and for `generation`, flipped `k`
times; and every call of a worker acts on the barrier as such an arrival. -/
theorem barrier_state_machine (N : Nat) (hN1 : 1 ≤ N) (hN : N < 2 ^ 32) (calls : List Call) :
    (1 ≤ ((Barrier.new N).arrivals calls).counter ∧
      ((Barrier.new N).arrivals calls).counter ≤ N ∧
      ((Barrier.new N).arrivals calls).counter = N - calls.length % N) ∧
    (∀ call, ((Barrier.new N).arrivals calls).counter = 1 →
      ((Barrier.new N).arrivals (calls ++ [call])).result_double =
          contributed ((calls ++ [call]).drop (calls.length + 1 - N)) ∧
        ((Barrier.new N).arrivals (calls ++ [call])).count_double = 0 ∧
        ((Barrier.new N).arrivals (calls ++ [call])).counter = N ∧
        ((Barrier.new N).arrivals (calls ++ [call])).generation =
          !((Barrier.new N).arrivals calls).generation) ∧
    (∀ k, calls.length = k * N →
      (Barrier.new N).arrivals calls =
        { Barrier.new N with
          result_double := ((Barrier.new N).arrivals calls).result_double
          generation := decide (k % 2 = 1) }) ∧
    (∀ (s : System) (i : Nat) (call : Call),
      (System.arrive s i call).barrier = s.barrier.arrive call) := by
  obtain ⟨q, r, h⟩ := Barrier.arrivals_after N hN1 hN calls
  have hdm := h.div_mod
  have hlt := h.lt
  have hcnt := h.cnt
  refine ⟨⟨by omega, by omega, by rw [hdm.2]; exact hcnt⟩, ?_, ?_, Barrier.arrive_barrier⟩
  · intro call hone
    have hr : r + 1 = N := by omega
    have h' := h.arrive_last hN call hr
    rw [Barrier.arrivals_append]
    have hlen := h.len
    have hres := h'.res (by omega)
    have hq : q + 1 - 1 = q := by omega
    rw [hq] at hres
    have hcut : calls.length + 1 - N = N * q := by omega
    have hall : ((calls ++ [call]).drop (N * q)).length ≤ N := by
      rw [List.length_drop, List.length_append, List.length_singleton]
      omega
    rw [List.take_of_length_le hall] at hres
    have hgen := h'.gen
    rw [← Barrier.flip_gen_eq q, ← h.gen] at hgen
    refine ⟨by rw [hres, hcut], ?_, ?_, hgen⟩
    · rw [h'.acc]
      have hnil : (calls ++ [call]).drop (N * (q + 1)) = [] := by
        apply List.drop_eq_nil_of_le
        rw [List.length_append, List.length_singleton, Nat.mul_succ]
        omega
      rw [hnil]
      rfl
    · rw [h'.cnt]
      rfl
  · intro k hk
    have hpos : 0 < N := hN1
    have hr0 : r = 0 := by
      rw [← hdm.2, hk, Nat.mul_mod_left]
    have hqk : q = k := by
      rw [← hdm.1, hk, Nat.mul_div_cancel _ hpos]
    have hacc := h.acc
    have hnil : calls.drop (N * q) = [] := by
      apply List.drop_eq_nil_of_le
      have := h.len
      omega
    rw [hnil] at hacc
    have hnum := h.num
    have hgen := h.gen
    rw [hqk] at hgen
    rw [hr0] at hcnt
    generalize (Barrier.new N).arrivals calls = b at hacc hnum hgen hcnt ⊢
    obtain ⟨nt, c, g, res, cd⟩ := b
    simp only [Barrier.new, Barrier.mk.injEq]
    exact ⟨hnum, hcnt, hgen, trivial, hacc⟩

/-- Witness of C11: three workers and four arrivals. -/
theorem barrier_state_machine_witness :
    1 ≤ 3 ∧ 3 < 2 ^ 32 ∧
    ((Barrier.new 3).arrivals
        [Call.wait_and_sum 1, Call.wait, Call.wait_and_sum 2, Call.wait]).counter =
      3 - [Call.wait_and_sum 1, Call.wait, Call.wait_and_sum 2, Call.wait].length % 3 :=
  ⟨by decide, by decide,
    (barrier_state_machine 3 (by decide) (by decide)
      [Call.wait_and_sum 1, Call.wait, Call.wait_and_sum 2, Call.wait]).1.2.2⟩

/-! ## C14: the barrier calls of a worker -/

namespace MultiThreaded

theorem threadLoop_kinds (network : Network) (alpha tolerance : ℚ) (r : Nat × Nat)
    (maps : Nat → Maps) (returned : Nat → ℚ × ℚ) : ∀ k i,
    (threadLoop network alpha tolerance r maps returned k i).calls.map Call.summing =
        loopKinds tolerance (fun j => (returned j).2) k i ∧
      (threadLoop network alpha tolerance r maps returned k i).rounds =
        loopRounds tolerance (fun j => (returned j).2) k i := by
  intro k
  induction k with
  | zero => intro i; exact ⟨rfl, rfl⟩
  | succ k ih =>
    intro i
    by_cases h : (returned i).2 < tolerance
    · simp [threadLoop, loopKinds, loopRounds, h, Call.summing]
    · simp [threadLoop, loopKinds, loopRounds, h, Call.summing, ih (i + 1)]

theorem threadLoop_succeeded (network : Network) (alpha tolerance : ℚ) (r₁ r₂ : Nat × Nat)
    (maps₁ maps₂ : Nat → Maps) (returned : Nat → ℚ × ℚ) : ∀ k i,
    (threadLoop network alpha tolerance r₁ maps₁ returned k i).succeeded =
      (threadLoop network alpha tolerance r₂ maps₂ returned k i).succeeded := by
  intro k
  induction k with
  | zero => intro i; rfl
  | succ k ih =>
    intro i
    by_cases h : (returned i).2 < tolerance
    · simp [threadLoop, h]
    · simp [threadLoop, h, ih (i + 1)]

end MultiThreaded

/-- C14: whatever its range (an empty one included) and whatever it finds in the shared
maps, a worker makes two `wait` calls and then, per round, two `wait_and_sum` calls and,
only when the value `total` the barrier returns is not below `tolerance`, one `wait`;
so two workers that are returned the same values make the same kinds of calls in the
same order, the same number of calls, leave the loop after the same number of rounds,
and agree on whether they assign `success`. -/
theorem thread_calls_independent_of_range (network : Network) (alpha : ℚ) (iterations : Nat)
    (tolerance : ℚ) (r₁ r₂ : Nat × Nat) (maps₁ maps₂ : Nat → Maps) (returned : Nat → ℚ × ℚ) :
    (MultiThreaded.threadFunc network alpha iterations tolerance r₁ maps₁ returned).calls.map
        Call.summing =
      false :: false ::
        MultiThreaded.loopKinds tolerance (fun j => (returned j).2) iterations 0 ∧
    (MultiThreaded.threadFunc network alpha iterations tolerance r₁ maps₁ returned).calls.map
        Call.summing =
      (MultiThreaded.threadFunc network alpha iterations tolerance r₂ maps₂ returned).calls.map
        Call.summing ∧
    (MultiThreaded.threadFunc network alpha iterations tolerance r₁ maps₁ returned).calls.length =
      (MultiThreaded.threadFunc network alpha iterations tolerance r₂ maps₂
        returned).calls.length ∧
    (MultiThreaded.threadFunc network alpha iterations tolerance r₁ maps₁ returned).rounds =
      (MultiThreaded.threadFunc network alpha iterations tolerance r₂ maps₂ returned).rounds ∧
    (MultiThreaded.threadFunc network alpha iterations tolerance r₁ maps₁ returned).succeeded =
      (MultiThreaded.threadFunc network alpha iterations tolerance r₂ maps₂
        returned).succeeded := by
  have h₁ := MultiThreaded.threadLoop_kinds network alpha tolerance r₁ maps₁ returned iterations 0
  have h₂ := MultiThreaded.threadLoop_kinds network alpha tolerance r₂ maps₂ returned iterations 0
  have e₁ : (MultiThreaded.threadFunc network alpha iterations tolerance r₁ maps₁
      returned).calls.map Call.summing =
      false :: false ::
        MultiThreaded.loopKinds tolerance (fun j => (returned j).2) iterations 0 := by
    simp only [MultiThreaded.threadFunc, List.map_cons, h₁.1]
    rfl
  have e₂ : (MultiThreaded.threadFunc network alpha iterations tolerance r₂ maps₂
      returned).calls.map Call.summing =
      false :: false ::
        MultiThreaded.loopKinds tolerance (fun j => (returned j).2) iterations 0 := by
    simp only [MultiThreaded.threadFunc, List.map_cons, h₂.1]
    rfl
  refine ⟨e₁, e₁.trans e₂.symm, ?_, ?_,
    MultiThreaded.threadLoop_succeeded network alpha tolerance r₁ r₂ maps₁ maps₂ returned
      iterations 0⟩
  · have := congrArg List.length (e₁.trans e₂.symm)
    simpa using this
  · show (MultiThreaded.threadLoop network alpha tolerance r₁ maps₁ returned iterations 0).rounds
      = (MultiThreaded.threadLoop network alpha tolerance r₂ maps₂ returned iterations 0).rounds
    rw [h₁.2, h₂.2]

/-! ## C12: the rounds of the two computers -/

theorem roundRank_congr (network : Network) (alpha : ℚ) (m₁ m₂ : Maps)
    (hprev : ∀ k, m₁.prev.get k = m₂.prev.get k)
    (hnum : ∀ q ∈ network.pages,
      m₁.numLinks.get (network.getId q) = m₂.numLinks.get (network.getId q))
    (p : PageId) : roundRank network alpha m₁ p = roundRank network alpha m₂ p := by
  have hd : danglingMass network m₁.prev network.pages =
      danglingMass network m₂.prev network.pages := by
    unfold danglingMass
    apply congrArg
    apply List.map_congr_left
    intro d _
    exact hprev _
  have hi : incoming network m₁ p = incoming network m₂ p := by
    unfold incoming
    apply congrArg
    apply List.map_congr_left
    intro q hq
    rw [hprev, hnum q hq]
  unfold roundRank
  rw [hd, hi]

theorem update_congr {network : Network} {order₁ order₂ : List Page} {m₁ m₂ : Maps}
    (h₁ : EdgesBuilt network order₁ m₁) (hP₁ : order₁.Perm network.pages)
    (h₂ : EdgesBuilt network order₂ m₂) (hP₂ : order₂.Perm network.pages) (alpha : ℚ)
    (hprev : ∀ k, m₁.prev.get k = m₂.prev.get k)
    (hcurr : ∀ k, m₁.curr.get k = m₂.curr.get k)
    (hnum : ∀ q ∈ network.pages,
      m₁.numLinks.get (network.getId q) = m₂.numLinks.get (network.getId q)) :
    (∀ k, (SingleThreaded.update network alpha m₁).2.get k =
      (SingleThreaded.update network alpha m₂).2.get k) ∧
    (SingleThreaded.update network alpha m₁).1 = (SingleThreaded.update network alpha m₂).1 := by
  have hps : ∀ k, pageSum network alpha m₁ (SingleThreaded.dangleSum network alpha m₁) k =
      pageSum network alpha m₂ (SingleThreaded.dangleSum network alpha m₂) k := by
    intro k
    rw [SingleThreaded.dangleSum_eq, SingleThreaded.dangleSum_eq,
      pageSum_eq_roundRank h₁ hP₁, pageSum_eq_roundRank h₂ hP₂]
    exact roundRank_congr network alpha m₁ m₂ hprev hnum k
  constructor
  · intro k
    rw [SingleThreaded.update_snd_get, SingleThreaded.update_snd_get, hps, hcurr]
  · rw [SingleThreaded.update_fst, SingleThreaded.update_fst]
    apply congrArg
    apply List.map_congr_left
    intro p _
    rw [hps, hprev]

/-- Two build loops that record the same out-degrees give, round after round, the same
values of `prev` and `curr`, the same new ranks and the same residual. -/
theorem rounds_agree (network : Network) (deg₁ deg₂ : Page → Nat) (order₁ order₂ : List Page)
    (hP₁ : order₁.Perm network.pages) (hP₂ : order₂.Perm network.pages)
    (hnd : network.ids.Nodup) (hdeg : ∀ q ∈ network.pages, deg₁ q = deg₂ q) (alpha : ℚ)
    (i : Nat) :
    (∀ k, (SingleThreaded.roundsFrom network alpha
        (buildWith network deg₁ order₁ Maps.empty) i).prev.get k =
      (SingleThreaded.roundsFrom network alpha
        (buildWith network deg₂ order₂ Maps.empty) i).prev.get k) ∧
    (∀ k, (SingleThreaded.roundsFrom network alpha
        (buildWith network deg₁ order₁ Maps.empty) i).curr.get k =
      (SingleThreaded.roundsFrom network alpha
        (buildWith network deg₂ order₂ Maps.empty) i).curr.get k) ∧
    (∀ k, (SingleThreaded.update network alpha (SingleThreaded.roundsFrom network alpha
        (buildWith network deg₁ order₁ Maps.empty) i)).2.get k =
      (SingleThreaded.update network alpha (SingleThreaded.roundsFrom network alpha
        (buildWith network deg₂ order₂ Maps.empty) i)).2.get k) ∧
    (SingleThreaded.update network alpha (SingleThreaded.roundsFrom network alpha
        (buildWith network deg₁ order₁ Maps.empty) i)).1 =
      (SingleThreaded.update network alpha (SingleThreaded.roundsFrom network alpha
        (buildWith network deg₂ order₂ Maps.empty) i)).1 := by
  have hE₁ : ∀ j, EdgesBuilt network order₁ (SingleThreaded.roundsFrom network alpha
      (buildWith network deg₁ order₁ Maps.empty) j) :=
    fun j => SingleThreaded.roundsFrom_edgesBuilt (edgesBuilt_buildWith network deg₁ order₁) alpha j
  have hE₂ : ∀ j, EdgesBuilt network order₂ (SingleThreaded.roundsFrom network alpha
      (buildWith network deg₂ order₂ Maps.empty) j) :=
    fun j => SingleThreaded.roundsFrom_edgesBuilt (edgesBuilt_buildWith network deg₂ order₂) alpha j
  have hnum : ∀ j, ∀ q ∈ network.pages,
      (SingleThreaded.roundsFrom network alpha
        (buildWith network deg₁ order₁ Maps.empty) j).numLinks.get (network.getId q) =
      (SingleThreaded.roundsFrom network alpha
        (buildWith network deg₂ order₂ Maps.empty) j).numLinks.get (network.getId q) := by
    intro j q hq
    rw [SingleThreaded.roundsFrom_numLinks, SingleThreaded.roundsFrom_numLinks,
      buildWith_numLinks_get network deg₁ order₁ Maps.empty (nodup_ids_of_perm hP₁ hnd) q
        (hP₁.mem_iff.2 hq),
      buildWith_numLinks_get network deg₂ order₂ Maps.empty (nodup_ids_of_perm hP₂ hnd) q
        (hP₂.mem_iff.2 hq)]
    exact hdeg q hq
  have hmem : ∀ k, k ∈ order₁.map network.getId ↔ k ∈ order₂.map network.getId := by
    intro k
    rw [(hP₁.map network.getId).mem_iff, (hP₂.map network.getId).mem_iff]
  have hall : ∀ j, (∀ k, (SingleThreaded.roundsFrom network alpha
        (buildWith network deg₁ order₁ Maps.empty) j).prev.get k =
      (SingleThreaded.roundsFrom network alpha
        (buildWith network deg₂ order₂ Maps.empty) j).prev.get k) ∧
    (∀ k, (SingleThreaded.roundsFrom network alpha
        (buildWith network deg₁ order₁ Maps.empty) j).curr.get k =
      (SingleThreaded.roundsFrom network alpha
        (buildWith network deg₂ order₂ Maps.empty) j).curr.get k) := by
    intro j
    induction j with
    | zero =>
      constructor
      · intro k
        simp only [SingleThreaded.roundsFrom]
        rw [buildWith_prev_get, buildWith_prev_get]
        simp only [hmem k]
      · intro k
        simp only [SingleThreaded.roundsFrom]
        rw [buildWith_curr_get, buildWith_curr_get]
        simp only [hmem k]
    | succ j ih =>
      have hu := update_congr (hE₁ j) hP₁ (hE₂ j) hP₂ alpha ih.1 ih.2 (hnum j)
      constructor
      · intro k
        simp only [SingleThreaded.roundsFrom]
        rw [SingleThreaded.advance_prev_get, SingleThreaded.advance_prev_get, hu.1 k, ih.1 k]
      · intro k
        exact hu.1 k
  have hu := update_congr (hE₁ i) hP₁ (hE₂ i) hP₂ alpha (hall i).1 (hall i).2 (hnum i)
  exact ⟨(hall i).1, (hall i).2, hu.1, hu.2⟩

/-- Round-by-round refinement: for pairwise distinct page identifiers, pages with fewer
than `2 ^ 32` links and at least one worker, in every round the dangling mass summed by
the barrier is the dangling sum of the sequential computer, the residual summed by the
barrier is the sequential residual, and `prev`, `curr` and the new ranks of the
parallel computer have the values they have in the sequential computer. -/
theorem rounds_refine (network : Network) (hnd : network.ids.Nodup)
    (hfit : ∀ page ∈ network.pages, page.links.length < 2 ^ 32) (alpha : ℚ)
    (numThreads : Nat) (hT : 1 ≤ numThreads) (schedule : List Page)
    (hS : schedule.Perm network.pages) (i : Nat) :
    MultiThreaded.barrierSum ((MultiThreaded.threadRanges network.pages.length numThreads).map
        (MultiThreaded.danglingAddition network (MultiThreaded.mapsAt network alpha
          (MultiThreaded.threadRanges network.pages.length numThreads) schedule i))) =
      dangleSumOver network (SingleThreaded.mapsAt network alpha i).prev network.pages ∧
    MultiThreaded.residual network alpha
        (MultiThreaded.threadRanges network.pages.length numThreads) schedule i =
      SingleThreaded.residual network alpha i ∧
    (∀ k, (MultiThreaded.mapsAt network alpha
        (MultiThreaded.threadRanges network.pages.length numThreads) schedule i).prev.get k =
      (SingleThreaded.mapsAt network alpha i).prev.get k) ∧
    (∀ k, (MultiThreaded.mapsAt network alpha
        (MultiThreaded.threadRanges network.pages.length numThreads) schedule i).curr.get k =
      (SingleThreaded.mapsAt network alpha i).curr.get k) ∧
    (∀ k, (MultiThreaded.updateAll network alpha
        (MultiThreaded.threadRanges network.pages.length numThreads)
        (MultiThreaded.mapsAt network alpha
          (MultiThreaded.threadRanges network.pages.length numThreads) schedule i)).2.get k =
      (SingleThreaded.update network alpha (SingleThreaded.mapsAt network alpha i)).2.get k) := by
  have hdeg : ∀ q ∈ network.pages,
      (fun page : Page => page.links.length) q =
        (fun page : Page => page.links.length % 2 ^ 32) q :=
    fun q hq => (Nat.mod_eq_of_lt (hfit q hq)).symm
  have h := rounds_agree network (fun page => page.links.length)
    (fun page => page.links.length % 2 ^ 32) schedule network.pages hS (List.Perm.refl _)
    hnd hdeg alpha i
  have hds := MultiThreaded.danglingSum_eq network 1 numThreads
    (MultiThreaded.mapsAt network alpha
      (MultiThreaded.threadRanges network.pages.length numThreads) schedule i) hT
  unfold MultiThreaded.danglingSum SingleThreaded.dangleSum at hds
  rw [mul_one, mul_one] at hds
  refine ⟨?_, ?_, ?_, ?_, ?_⟩
  · rw [hds, dangleSumOver_eq, dangleSumOver_eq]
    unfold danglingMass
    apply congrArg
    apply List.map_congr_left
    intro d _
    rw [MultiThreaded.mapsAt_eq _ _ _ _ hT]
    exact h.1 _
  · rw [MultiThreaded.par_residual_eq _ _ _ hT]
    exact h.2.2.2
  · intro k
    rw [MultiThreaded.mapsAt_eq _ _ _ _ hT]
    exact h.1 k
  · intro k
    rw [MultiThreaded.mapsAt_eq _ _ _ _ hT]
    exact h.2.1 k
  · intro k
    rw [MultiThreaded.mapsAt_eq _ _ _ _ hT, MultiThreaded.updateAll_snd _ _ _ _ hT]
    exact h.2.2.1 k

theorem linkedPair_ranks (L : List PageId) (m : Maps) (d : Nat) (hne : L.isEmpty = false)
    (hall : ∀ l ∈ L, l = 1) (p0 : m.prev.get 0 = 1 / 2) (p1 : m.prev.get 1 = 1 / 2)
    (n0 : m.numLinks.get 0 = d) (n1 : m.numLinks.get 1 = 1) :
    roundRank (linkedPair L) (1 / 2) m 0 = 1 / 2 ∧
    roundRank (linkedPair L) (1 / 2) m 1 =
      1 / 4 + 1 / 2 * ((L.length : ℚ) * (1 / 2 / (d : ℚ))) := by
  have e : (linkedPair L).pages = [⟨"", L⟩, ⟨"a", [0]⟩] := rfl
  have g0 : (linkedPair L).getId ⟨"", L⟩ = 0 := rfl
  have g1 : (linkedPair L).getId ⟨"a", [0]⟩ = 1 := rfl
  have hc0 : L.count 0 = 0 :=
    List.count_eq_zero.2 (fun h => absurd (hall 0 h) (by decide))
  have hc1 : L.count 1 = L.length :=
    List.count_eq_length.2 (fun l hl => (hall l hl).symm)
  have hz0 : ([0] : List PageId).count 0 = 1 := by decide
  have hz1 : ([0] : List PageId).count 1 = 0 := by decide
  constructor
  · simp only [roundRank, incoming, danglingMass, e, List.map_cons, List.map_nil, List.sum_cons,
      List.sum_nil, List.filter_cons, List.filter_nil, hne, g0, g1, p0, p1, linkedPair_getSize,
      n0, n1, hc0, hc1, hz0, hz1, List.isEmpty_cons, Bool.false_eq_true, if_false]
    norm_num
  · simp only [roundRank, incoming, danglingMass, e, List.map_cons, List.map_nil, List.sum_cons,
      List.sum_nil, List.filter_cons, List.filter_nil, hne, g0, g1, p0, p1, linkedPair_getSize,
      n0, n1, hc0, hc1, hz0, hz1, List.isEmpty_cons, Bool.false_eq_true, if_false]
    norm_num

/-- Round 0 on `linkedPair L` from the maps built with the out-degrees `deg`: the new
rank of the second page, the residual, and `prev` of the second page in round 1. -/
theorem linkedPair_round (L : List PageId) (deg : Page → Nat) (hne : L.isEmpty = false)
    (hall : ∀ l ∈ L, l = 1) (h1 : deg ⟨"a", [0]⟩ = 1) (x : ℚ)
    (hx : 1 / 4 + 1 / 2 * ((L.length : ℚ) * (1 / 2 / (deg ⟨"", L⟩ : ℚ))) = x) :
    (SingleThreaded.update (linkedPair L) (1 / 2)
        (buildWith (linkedPair L) deg (linkedPair L).pages Maps.empty)).2.get 1 = x ∧
    (SingleThreaded.update (linkedPair L) (1 / 2)
        (buildWith (linkedPair L) deg (linkedPair L).pages Maps.empty)).1 = |x - 1 / 2| ∧
    (SingleThreaded.roundsFrom (linkedPair L) (1 / 2)
        (buildWith (linkedPair L) deg (linkedPair L).pages Maps.empty) 1).prev.get 1 = x := by
  have g0 : (linkedPair L).getId ⟨"", L⟩ = 0 := rfl
  have g1 : (linkedPair L).getId ⟨"a", [0]⟩ = 1 := rfl
  have hE := edgesBuilt_buildWith (linkedPair L) deg (linkedPair L).pages
  have hp : ∀ k ∈ (linkedPair L).ids,
      (buildWith (linkedPair L) deg (linkedPair L).pages Maps.empty).prev.get k = 1 / 2 := by
    intro k hk
    have h := buildWith_prev_get (linkedPair L) deg k (linkedPair L).pages Maps.empty
    have hk' : k ∈ (linkedPair L).pages.map (linkedPair L).getId := hk
    rw [if_pos hk'] at h
    rw [h]
    have : (linkedPair L).pages.length = 2 := rfl
    rw [this]
    norm_num
  have m1 : (1 : PageId) ∈ (linkedPair L).ids := by rw [linkedPair_ids]; decide
  have m0 : (0 : PageId) ∈ (linkedPair L).ids := by rw [linkedPair_ids]; decide
  have p0 := hp 0 m0
  have p1 := hp 1 m1
  have n0 : (buildWith (linkedPair L) deg (linkedPair L).pages Maps.empty).numLinks.get 0 =
      deg ⟨"", L⟩ :=
    buildWith_numLinks_get (linkedPair L) deg (linkedPair L).pages Maps.empty
      (linkedPair_nodup L) ⟨"", L⟩ (List.mem_cons_self _ _)
  have n1 : (buildWith (linkedPair L) deg (linkedPair L).pages Maps.empty).numLinks.get 1 =
      1 := by
    have h := buildWith_numLinks_get (linkedPair L) deg (linkedPair L).pages Maps.empty
      (linkedPair_nodup L) ⟨"a", [0]⟩ (List.mem_cons_of_mem _ (List.mem_cons_self _ _))
    rw [h1] at h
    exact h
  clear hp
  generalize buildWith (linkedPair L) deg (linkedPair L).pages Maps.empty = m at hE p0 p1 n0 n1 ⊢
  have hr := linkedPair_ranks L m (deg ⟨"", L⟩) hne hall p0 p1 n0 n1
  rw [hx] at hr
  have hps : ∀ k, pageSum (linkedPair L) (1 / 2) m
      (SingleThreaded.dangleSum (linkedPair L) (1 / 2) m) k =
      roundRank (linkedPair L) (1 / 2) m k := by
    intro k
    rw [SingleThreaded.dangleSum_eq, pageSum_eq_roundRank hE (List.Perm.refl _)]
  have hu : (SingleThreaded.update (linkedPair L) (1 / 2) m).2.get 1 = x := by
    rw [SingleThreaded.update_snd_get, if_pos m1, hps, hr.2]
  have e : (linkedPair L).pages = [⟨"", L⟩, ⟨"a", [0]⟩] := rfl
  refine ⟨hu, ?_, ?_⟩
  · rw [SingleThreaded.update_fst, e]
    simp only [List.map_cons, List.map_nil, List.sum_cons, List.sum_nil, g0, g1, hps, hr.1,
      hr.2, p0, p1]
    norm_num
  · simp only [SingleThreaded.roundsFrom]
    rw [SingleThreaded.advance_prev_get, if_pos m1, hu]

/-- The two computers on `linkedPair L` with `2 ^ 32 + 1` links, all to the second page,
and two workers. -/
theorem linkedPair_rounds (L : List PageId) (hL : L.length = 2 ^ 32 + 1)
    (hall : ∀ l ∈ L, l = 1) :
    (SingleThreaded.update (linkedPair L) (1 / 2)
        (SingleThreaded.mapsAt (linkedPair L) (1 / 2) 0)).2.get 1 = 2 ^ 30 + 1 / 2 ∧
    (MultiThreaded.updateAll (linkedPair L) (1 / 2)
        (MultiThreaded.threadRanges (linkedPair L).pages.length 2)
        (MultiThreaded.mapsAt (linkedPair L) (1 / 2)
          (MultiThreaded.threadRanges (linkedPair L).pages.length 2)
          (linkedPair L).pages 0)).2.get 1 = 1 / 2 ∧
    SingleThreaded.residual (linkedPair L) (1 / 2) 0 = 2 ^ 30 ∧
    MultiThreaded.residual (linkedPair L) (1 / 2)
        (MultiThreaded.threadRanges (linkedPair L).pages.length 2) (linkedPair L).pages 0 = 0 ∧
    (SingleThreaded.mapsAt (linkedPair L) (1 / 2) 1).prev.get 1 = 2 ^ 30 + 1 / 2 ∧
    (MultiThreaded.mapsAt (linkedPair L) (1 / 2)
        (MultiThreaded.threadRanges (linkedPair L).pages.length 2)
        (linkedPair L).pages 1).prev.get 1 = 1 / 2 := by
  have hne : L.isEmpty = false := by
    cases L with
    | nil => simp at hL
    | cons a l => rfl
  have hlen : (L.length : ℚ) = 2 ^ 32 + 1 := by
    rw [hL]
    norm_num
  have hmod : L.length % 2 ^ 32 = 1 := by
    rw [hL]
    norm_num
  have hs := linkedPair_round L (fun page => page.links.length % 2 ^ 32) hne hall rfl
    (2 ^ 30 + 1 / 2)
    (by
      show 1 / 4 + 1 / 2 * ((L.length : ℚ) * (1 / 2 / ((L.length % 2 ^ 32 : ℕ) : ℚ))) =
        2 ^ 30 + 1 / 2
      rw [hmod, hlen]
      norm_num)
  have hp := linkedPair_round L (fun page => page.links.length) hne hall rfl (1 / 2)
    (by
      show 1 / 4 + 1 / 2 * ((L.length : ℚ) * (1 / 2 / ((L.length : ℕ) : ℚ))) = 1 / 2
      rw [hlen]
      norm_num)
  have a1 : |(2 ^ 30 + 1 / 2 : ℚ) - 1 / 2| = 2 ^ 30 := by
    rw [add_sub_cancel_right]
    exact abs_of_pos (by norm_num)
  have a2 : |(1 / 2 : ℚ) - 1 / 2| = 0 := by norm_num
  rw [a1] at hs
  rw [a2] at hp
  refine ⟨hs.1, ?_, hs.2.1, ?_, hs.2.2, ?_⟩
  · rw [MultiThreaded.mapsAt_eq _ _ _ _ (by decide), MultiThreaded.updateAll_snd _ _ _ _ (by decide)]
    exact hp.1
  · rw [MultiThreaded.par_residual_eq _ _ _ (by decide)]
    exact hp.2.1
  · rw [MultiThreaded.mapsAt_eq _ _ _ _ (by decide)]
    exact hp.2.2

/-- C12 at the network `wrappedLinks` with two workers, `alpha = 1/2`: the page
identifiers are pairwise distinct, yet in round 0 the sequential computer gives the
second page the rank `2 ^ 30 + 1/2` and has residual `2 ^ 30` while the workers give it
1/2 and have residual 0, so in round 1 `previous` of the second page is `2 ^ 30 + 1/2`
in the sequential computer and 1/2 in the parallel one. The sequential `numLinks` is a
map to `uint32_t` and records the out-degree `2 ^ 32 + 1` of the first page as 1; the
parallel `num_links` is a map to `size_t`. -/
theorem wrappedLinks_rounds_differ :
    wrappedLinks.ids.Nodup ∧
    (SingleThreaded.update wrappedLinks (1 / 2)
        (SingleThreaded.mapsAt wrappedLinks (1 / 2) 0)).2.get 1 = 2 ^ 30 + 1 / 2 ∧
    (MultiThreaded.updateAll wrappedLinks (1 / 2)
        (MultiThreaded.threadRanges wrappedLinks.pages.length 2)
        (MultiThreaded.mapsAt wrappedLinks (1 / 2)
          (MultiThreaded.threadRanges wrappedLinks.pages.length 2)
          wrappedLinks.pages 0)).2.get 1 = 1 / 2 ∧
    SingleThreaded.residual wrappedLinks (1 / 2) 0 = 2 ^ 30 ∧
    MultiThreaded.residual wrappedLinks (1 / 2)
        (MultiThreaded.threadRanges wrappedLinks.pages.length 2) wrappedLinks.pages 0 = 0 ∧
    (SingleThreaded.mapsAt wrappedLinks (1 / 2) 1).prev.get 1 = 2 ^ 30 + 1 / 2 ∧
    (MultiThreaded.mapsAt wrappedLinks (1 / 2)
        (MultiThreaded.threadRanges wrappedLinks.pages.length 2)
        wrappedLinks.pages 1).prev.get 1 = 1 / 2 :=
  ⟨linkedPair_nodup _,
    linkedPair_rounds _ (List.length_replicate _ _) (fun _ hl => List.eq_of_mem_replicate hl)⟩

/-! ## C1: the update and the formula of the specification -/

theorem roundRank_eq_specRank (network : Network) (alpha : ℚ) (m : Maps)
    (h : ∀ q ∈ network.pages, m.numLinks.get (network.getId q) = q.links.length) (p : PageId) :
    roundRank network alpha m p = specRank network alpha m.prev p := by
  have hi : incoming network m p = specIncoming network m.prev p := by
    unfold incoming specIncoming
    apply congrArg
    apply List.map_congr_left
    intro q hq
    rw [h q hq]
  unfold roundRank specRank
  rw [hi]

theorem seq_numLinks_of_distinct_ids (network : Network) (hnd : network.ids.Nodup)
    (hfit : ∀ page ∈ network.pages, page.links.length < 2 ^ 32) (alpha : ℚ) (i : Nat) :
    ∀ q ∈ network.pages,
      (SingleThreaded.mapsAt network alpha i).numLinks.get (network.getId q) =
        q.links.length := by
  intro q hq
  unfold SingleThreaded.mapsAt
  rw [SingleThreaded.roundsFrom_numLinks, SingleThreaded.seq_build_eq,
    buildWith_numLinks_get network _ network.pages Maps.empty hnd q hq]
  exact Nat.mod_eq_of_lt (hfit q hq)

theorem par_numLinks_of_distinct_ids (network : Network) (hnd : network.ids.Nodup)
    (alpha : ℚ) (i : Nat) (numThreads : Nat) (hT : 1 ≤ numThreads)
    (schedule : List Page) (hS : schedule.Perm network.pages) :
    ∀ q ∈ network.pages,
      (MultiThreaded.mapsAt network alpha
        (MultiThreaded.threadRanges network.pages.length numThreads) schedule i).numLinks.get
          (network.getId q) = q.links.length := by
  intro q hq
  rw [MultiThreaded.mapsAt_eq _ _ _ _ hT, SingleThreaded.roundsFrom_numLinks,
    MultiThreaded.par_build_eq,
    buildWith_numLinks_get network _ schedule Maps.empty (nodup_ids_of_perm hS hnd) q
      (hS.mem_iff.2 hq)]

set_option maxRecDepth 4000 in
/-- Counterexample to C1: on the network `sharedId` with `alpha = 1/2`, in round 0 both
computers give the third page the rank 5/12, while the formula of the specification
gives 1/2: the two pages with identifier 0 share the entry of `numLinks`, which holds
the out-degree 2 of the second of them. No denominator is zero. -/
theorem sharedId_round_differs :
    ((SingleThreaded.update sharedId (1 / 2) (SingleThreaded.mapsAt sharedId (1 / 2) 0)).2.get 1
        = 5 / 12 ∧
      specRank sharedId (1 / 2) (SingleThreaded.mapsAt sharedId (1 / 2) 0).prev 1 = 1 / 2) ∧
    ((MultiThreaded.updateAll sharedId (1 / 2)
        (MultiThreaded.threadRanges sharedId.pages.length 2)
        (MultiThreaded.mapsAt sharedId (1 / 2)
          (MultiThreaded.threadRanges sharedId.pages.length 2) sharedId.pages 0)).2.get 1
        = 5 / 12 ∧
      specRank sharedId (1 / 2) (MultiThreaded.mapsAt sharedId (1 / 2)
        (MultiThreaded.threadRanges sharedId.pages.length 2) sharedId.pages 0).prev 1
        = 1 / 2) := by
  refine ⟨⟨?_, ?_⟩, ?_, ?_⟩
  · simp [SingleThreaded.mapsAt, SingleThreaded.roundsFrom, SingleThreaded.build,
      sharedId, initPage, addEdges, HashMap.set, HashMap.get, HashMap.empty, Maps.empty,
      Network.getId, Network.getSize, SingleThreaded.update, updateOver, pageSum, HashMap.count,
      SingleThreaded.dangleSum, dangleSumOver, Function.update_apply,
      length_a, length_empty, default_rat, default_list, default_nat]
    norm_num
  · simp [SingleThreaded.mapsAt, SingleThreaded.roundsFrom, SingleThreaded.build,
      specRank, specIncoming, danglingMass,
      sharedId, initPage, addEdges, HashMap.set, HashMap.get, HashMap.empty, Maps.empty,
      Network.getId, Network.getSize, Function.update_apply,
      length_a, length_empty, default_rat, default_list, default_nat]
    norm_num
  · rw [MultiThreaded.updateAll_snd _ _ _ _ (by decide)]
    simp [MultiThreaded.mapsAt, MultiThreaded.build,
      sharedId, initPage, addEdges, HashMap.set, HashMap.get, HashMap.empty, Maps.empty,
      Network.getId, Network.getSize, SingleThreaded.update, updateOver, pageSum, HashMap.count,
      SingleThreaded.dangleSum, dangleSumOver, Function.update_apply,
      length_a, length_empty, default_rat, default_list, default_nat]
    norm_num
  · simp [MultiThreaded.mapsAt, MultiThreaded.build,
      specRank, specIncoming, danglingMass,
      sharedId, initPage, addEdges, HashMap.set, HashMap.get, HashMap.empty, Maps.empty,
      Network.getId, Network.getSize, Function.update_apply,
      length_a, length_empty, default_rat, default_list, default_nat]
    norm_num

/-- C1, amended: for pairwise distinct page identifiers, in round `i` the sequential
computer gives every page `p` the rank `alpha * D / n + (1 - alpha) / n + alpha * (sum
over the pages q, once per link of q to p, of previous[q] / outDegree[q])` when every
page has fewer than `2 ^ 32` links, `D` being the sum of `previous` over the pages
without links and `outDegree[q]` the number of links of `q`, and its residual is the sum
over all pages of `|current[p] - previous[p]|`; every worker of the parallel computer
computes the same rank for every page of its range, from the dangling sum the barrier
returns, its difference sum is the sum over its range, and the residual the barrier
returns is the sum over all pages. -/
theorem round_update_of_distinct_ids (network : Network) (hnd : network.ids.Nodup)
    (alpha : ℚ) (i : Nat) (numThreads : Nat) (schedule : List Page) (hT : 1 ≤ numThreads)
    (hS : schedule.Perm network.pages) :
    (((∀ page ∈ network.pages, page.links.length < 2 ^ 32) →
        ∀ p ∈ network.pages,
          (SingleThreaded.update network alpha (SingleThreaded.mapsAt network alpha i)).2.get
              (network.getId p) =
            specRank network alpha (SingleThreaded.mapsAt network alpha i).prev
              (network.getId p)) ∧
      SingleThreaded.residual network alpha i =
        (network.pages.map (fun p =>
          |(SingleThreaded.update network alpha (SingleThreaded.mapsAt network alpha i)).2.get
              (network.getId p) -
            (SingleThreaded.mapsAt network alpha i).prev.get (network.getId p)|)).sum) ∧
    (MultiThreaded.danglingSum network alpha
        (MultiThreaded.threadRanges network.pages.length numThreads)
        (MultiThreaded.mapsAt network alpha
          (MultiThreaded.threadRanges network.pages.length numThreads) schedule i) =
      alpha * danglingMass network (MultiThreaded.mapsAt network alpha
        (MultiThreaded.threadRanges network.pages.length numThreads) schedule i).prev
        network.pages ∧
      (∀ r ∈ MultiThreaded.threadRanges network.pages.length numThreads,
        ∀ curr : HashMap PageRank,
        (∀ p ∈ MultiThreaded.slice network.pages r,
          (updateOver network alpha
              (MultiThreaded.mapsAt network alpha
                (MultiThreaded.threadRanges network.pages.length numThreads) schedule i)
              (MultiThreaded.danglingSum network alpha
                (MultiThreaded.threadRanges network.pages.length numThreads)
                (MultiThreaded.mapsAt network alpha
                  (MultiThreaded.threadRanges network.pages.length numThreads) schedule i))
              (MultiThreaded.slice network.pages r) curr).2.get (network.getId p) =
            specRank network alpha
              (MultiThreaded.mapsAt network alpha
                (MultiThreaded.threadRanges network.pages.length numThreads) schedule i).prev
              (network.getId p)) ∧
        (updateOver network alpha
            (MultiThreaded.mapsAt network alpha
              (MultiThreaded.threadRanges network.pages.length numThreads) schedule i)
            (MultiThreaded.danglingSum network alpha
              (MultiThreaded.threadRanges network.pages.length numThreads)
              (MultiThreaded.mapsAt network alpha
                (MultiThreaded.threadRanges network.pages.length numThreads) schedule i))
            (MultiThreaded.slice network.pages r) curr).1 =
          ((MultiThreaded.slice network.pages r).map (fun p =>
            |specRank network alpha
                (MultiThreaded.mapsAt network alpha
                  (MultiThreaded.threadRanges network.pages.length numThreads) schedule i).prev
                (network.getId p) -
              (MultiThreaded.mapsAt network alpha
                (MultiThreaded.threadRanges network.pages.length numThreads) schedule i).prev.get
                (network.getId p)|)).sum) ∧
      MultiThreaded.residual network alpha
          (MultiThreaded.threadRanges network.pages.length numThreads) schedule i =
        (network.pages.map (fun p =>
          |specRank network alpha
              (MultiThreaded.mapsAt network alpha
                (MultiThreaded.threadRanges network.pages.length numThreads) schedule i).prev
              (network.getId p) -
            (MultiThreaded.mapsAt network alpha
              (MultiThreaded.threadRanges network.pages.length numThreads) schedule i).prev.get
              (network.getId p)|)).sum) := by
  have h := round_update network alpha i numThreads schedule hT hS
  have hpar := par_numLinks_of_distinct_ids network hnd alpha i numThreads hT schedule hS
  have hrank : ∀ p, roundRank network alpha
      (MultiThreaded.mapsAt network alpha
        (MultiThreaded.threadRanges network.pages.length numThreads) schedule i) p =
      specRank network alpha
        (MultiThreaded.mapsAt network alpha
          (MultiThreaded.threadRanges network.pages.length numThreads) schedule i).prev p :=
    roundRank_eq_specRank network alpha _ hpar
  refine ⟨⟨?_, h.1.2⟩, h.2.1, ?_, ?_⟩
  · intro hfit p hp
    have hseq := seq_numLinks_of_distinct_ids network hnd hfit alpha i
    rw [h.1.1 p hp]
    exact roundRank_eq_specRank network alpha _ hseq (network.getId p)
  · intro r hr curr
    have hr' := h.2.2.1 r hr curr
    refine ⟨fun p hp => (hr'.1 p hp).trans (hrank _), ?_⟩
    rw [hr'.2]
    apply congrArg
    apply List.map_congr_left
    intro p _
    rw [hrank]
  · have ht := h.2.2.2
    unfold MultiThreaded.residual
    rw [ht]
    apply congrArg
    apply List.map_congr_left
    intro p _
    rw [hrank]

/-- Witness of C1: the network `twoPages` with two workers, round 0. -/
theorem round_update_of_distinct_ids_witness :
    twoPages.ids.Nodup ∧ 1 ≤ 2 ∧ twoPages.pages.Perm twoPages.pages ∧
    (∀ page ∈ twoPages.pages, page.links.length < 2 ^ 32) ∧
    ∀ p ∈ twoPages.pages,
      (SingleThreaded.update twoPages (1 / 2) (SingleThreaded.mapsAt twoPages (1 / 2) 0)).2.get
          (twoPages.getId p) =
        specRank twoPages (1 / 2) (SingleThreaded.mapsAt twoPages (1 / 2) 0).prev
          (twoPages.getId p) :=
  ⟨twoPages_nodup, by decide, List.Perm.refl _, by decide,
    (round_update_of_distinct_ids twoPages twoPages_nodup (1 / 2) 0 2 twoPages.pages
      (by decide) (List.Perm.refl _)).1.1 (by decide)⟩

end PageRankComputer
